import Mathlib

/-!
# Verification of the cap-table evolution engine (funding simulator)

This file gives a shallow embedding of the cap-table calculation module of the
funding-simulator repository (`calculations.ts`) and proves the specification
claims about it.

Numbers are modelled as exact rationals (`ℚ`).  In this idealised model,
division by zero denotes `0` (the Lean convention); a separate `Js` model with
IEEE-style special values (`NaN`, `±Infinity`) is developed further below for
the claims that are specifically about special-value propagation.

The ambient Svelte store (`get(_events)`, `get(_founders)`, `get(_exit)`) is
modelled by passing the event list, founder list and exit record as explicit
arguments.  JavaScript objects used as cap tables are modelled as association
lists with unique keys and insertion-order semantics: assignment replaces the
value of an existing key in place and otherwise appends the new key.
-/

namespace FundSim

/-- Initial total share count, `INITIAL_SHARES = 10_000_000`. -/
def INITIAL_SHARES : ℚ := 10000000

/-- Reserved holder key for the available option pool. -/
def AVAILABLE_OPTIONS_LABEL : String := "Available"

/-- Reserved holder key for generic employee grants. -/
def EMPLOYEE_OPTIONS_LABEL : String := "Employees"

/-- `Founder` record from `types.ts` (share-irrelevant UI fields included). -/
structure Founder where
  id : String
  name : String
  equity : ℚ
  isYou : Bool
deriving DecidableEq

/-- `Exit` record from `types.ts`. -/
structure ExitEvent where
  amount : ℚ
  tax : ℚ
deriving DecidableEq

/-- `Safe` record from `types.ts` (the optional `accelerator` marker is
display-only and never read by the calculation module). -/
structure Safe where
  valCap : ℚ
  mfn : Bool
  proRata : Bool
  discount : ℚ
  amount : ℚ
  name : String
deriving DecidableEq

/-- `ConvertibleNote` record from `types.ts`. -/
structure ConvertibleNote where
  amount : ℚ
  interestRate : ℚ
  term : ℚ
  valCap : ℚ
  discount : ℚ
  proRata : Bool
  mfn : Bool
  name : String
deriving DecidableEq

/-- `PricedRound` record from `types.ts`. -/
structure PricedRound where
  valuation : ℚ
  proRata : Bool
  options : ℚ
  amount : ℚ
  name : String
  participations : List String
  monthsToRound : ℚ
deriving DecidableEq

/-- `Options` record from `types.ts` (`grantName` empty means the generic
employee label). -/
structure OptionsEvent where
  amount : ℚ
  reserved : ℚ
  grantName : String
deriving DecidableEq

/-- `Accelerator` record from `types.ts`; inert for the calculation module. -/
structure Accelerator where
  name : String
  programName : String
  amount : ℚ
deriving DecidableEq

/-- The `Event` tagged union from `types.ts`. -/
inductive Event where
  | safe (s : Safe)
  | convertible (n : ConvertibleNote)
  | priced (p : PricedRound)
  | options (o : OptionsEvent)
  | accelerator (a : Accelerator)
deriving DecidableEq

/-- A JavaScript object used as a cap table: an insertion-ordered association
list from holder name to share count. -/
abbrev CapTable : Type := List (String × ℚ)

/-- Property access `table[k]`, with the `|| 0` / missing-key-as-zero
convention used at every read site of the source. -/
def tableGet : CapTable → String → ℚ
  | [], _ => 0
  | p :: rest, k => if p.1 = k then p.2 else tableGet rest k

/-- Property assignment `table[k] = v`: update an existing key in place,
otherwise append (JavaScript object insertion order). -/
def tableSet : CapTable → String → ℚ → CapTable
  | [], k, v => [(k, v)]
  | p :: rest, k, v => if p.1 = k then (k, v) :: rest else p :: tableSet rest k v

/-- The insertion-ordered key list of a table. -/
def tableKeys (t : CapTable) : List String :=
  t.map Prod.fst

/-- `getTableTotalShares`: sum of all values of the table. -/
def getTableTotalShares (table : CapTable) : ℚ :=
  (table.map Prod.snd).sum

/-- `addTables`: additive merge, `draft[key] = (draft[key] || 0) + table[key]`
for every key of the second table. -/
def addTables (oldTable : CapTable) (table : CapTable) : CapTable :=
  table.foldl (fun draft p => tableSet draft p.1 (tableGet draft p.1 + p.2)) oldTable

/-- `getFirstTable`: the founder-only table,
`table[founder.name] = (founder.equity / 100) * INITIAL_SHARES`. -/
def getFirstTable (founders : List Founder) : CapTable :=
  founders.foldl (fun table founder =>
    tableSet table founder.name ((founder.equity / 100) * INITIAL_SHARES)) []

/-! ## The calculation module (translated from `calculations.ts`) -/

/-- JavaScript `Array.prototype.findIndex`: index of the first match, `-1`
when there is none. -/
def jsFindIndex {α : Type} (l : List α) (p : α → Bool) : ℤ :=
  match l.findIdx? p with
  | some i => (i : ℤ)
  | none => -1

/-- JavaScript numeric `x || d` (`x` when non-zero, otherwise `d`); used for
the `(totalSafesDilution + totalNotesDilution || 1)` guard. -/
def jsOr (x d : ℚ) : ℚ := if x = 0 then d else x

/-- `parseFloat(x.toFixed(2))`: round to two decimal places, ties away from
zero towards `+∞` (the ECMAScript `toFixed` tie rule), modelled exactly on
rationals. -/
def toFixed2 (x : ℚ) : ℚ := (round (x * 100) : ℤ) / 100

/-- A SAFE together with its resolved conversion valuation and its original
position in the event list (`{...safe, valuation, eventIndex}`). -/
structure ValuedSafe where
  toSafe : Safe
  valuation : ℚ
  eventIndex : ℤ
deriving DecidableEq

/-- A convertible note with resolved valuation, accrued total amount and
original event position (`{...note, valuation, totalAmount, eventIndex}`). -/
structure ValuedNote where
  toNote : ConvertibleNote
  valuation : ℚ
  totalAmount : ℚ
  eventIndex : ℤ
deriving DecidableEq

/-- `getSafesValuations`: the SAFE events with index in
`(afterIndex, beforeOrAtIndex ?? events.length - 1]`, each with its effective
conversion valuation against the given priced round. -/
def getSafesValuations (events : List Event) (pricedRound : PricedRound)
    (afterIndex : ℤ) (beforeOrAtIndex : Option ℤ) : List ValuedSafe :=
  let maxIndex : ℤ := beforeOrAtIndex.getD ((events.length : ℤ) - 1)
  (events.enum.filterMap (fun p =>
    match p.2 with
    | Event.safe s =>
        if afterIndex < (p.1 : ℤ) ∧ (p.1 : ℤ) ≤ maxIndex then some s else none
    | _ => none)).map (fun (safe : Safe) =>
      let valuation :=
        if safe.valCap ≠ 0 ∧ safe.discount ≠ 0 then
          min safe.valCap (pricedRound.valuation * (1 - safe.discount / 100))
        else if safe.valCap ≠ 0 ∧ safe.discount = 0 then
          min safe.valCap pricedRound.valuation
        else if safe.valCap = 0 ∧ safe.discount ≠ 0 then
          pricedRound.valuation * (1 - safe.discount / 100)
        else pricedRound.valuation
      let eventIndex := jsFindIndex events (fun e =>
        match e with
        | Event.safe s2 => s2.name == safe.name
        | _ => false)
      { toSafe := safe, valuation := valuation, eventIndex := eventIndex })

/-- `getSafesWithMFN`: rewrite each MFN-flagged SAFE's valuation to the lowest
valuation among SAFEs and notes issued strictly later in event order. -/
def getSafesWithMFN (safes : List ValuedSafe) (notes : List ValuedNote) :
    List ValuedSafe :=
  safes.map (fun safe =>
    if !safe.toSafe.mfn then safe
    else
      let laterSafes := safes.filter (fun s => decide (safe.eventIndex < s.eventIndex))
      let laterNotes := notes.filter (fun n => decide (safe.eventIndex < n.eventIndex))
      let allLaterValuations :=
        laterSafes.map ValuedSafe.valuation ++ laterNotes.map ValuedNote.valuation
      if allLaterValuations.isEmpty then safe
      else
        let lowestValuation := allLaterValuations.foldl
          (fun m current => if current < m then current else m) safe.valuation
        { safe with valuation := lowestValuation })

/-- `getConvertibleNoteAccruedAmount`: principal plus simple interest over
`min(monthsToConversion, term)` months (or the full term when no conversion
time is given). -/
def getConvertibleNoteAccruedAmount (note : ConvertibleNote)
    (monthsToConversion : Option ℚ) : ℚ :=
  let effectiveMonths :=
    match monthsToConversion with
    | some m => min m note.term
    | none => note.term
  let accruedInterest := note.amount * (note.interestRate / 100) * (effectiveMonths / 12)
  note.amount + accruedInterest

/-- `getConvertibleNotesValuations`: the convertible-note events with index in
`(afterIndex, beforeOrAtIndex ?? events.length - 1]`, each with its effective
valuation and accrued total amount against the given priced round. -/
def getConvertibleNotesValuations (events : List Event) (pricedRound : PricedRound)
    (afterIndex : ℤ) (beforeOrAtIndex : Option ℤ) : List ValuedNote :=
  let maxIndex : ℤ := beforeOrAtIndex.getD ((events.length : ℤ) - 1)
  (events.enum.filterMap (fun p =>
    match p.2 with
    | Event.convertible n =>
        if afterIndex < (p.1 : ℤ) ∧ (p.1 : ℤ) ≤ maxIndex then some n else none
    | _ => none)).map (fun (note : ConvertibleNote) =>
      let totalAmount := getConvertibleNoteAccruedAmount note (some pricedRound.monthsToRound)
      let valuation :=
        if note.valCap ≠ 0 ∧ note.discount ≠ 0 then
          min note.valCap (pricedRound.valuation * (1 - note.discount / 100))
        else if note.valCap ≠ 0 ∧ note.discount = 0 then
          min note.valCap pricedRound.valuation
        else if note.valCap = 0 ∧ note.discount ≠ 0 then
          pricedRound.valuation * (1 - note.discount / 100)
        else pricedRound.valuation
      let eventIndex := jsFindIndex events (fun e =>
        match e with
        | Event.convertible n2 => n2.name == note.name
        | _ => false)
      { toNote := note, valuation := valuation, totalAmount := totalAmount,
        eventIndex := eventIndex })

/-- `getConvertibleNotesWithMFN`: MFN resolution for notes (later notes first,
then later SAFEs, as in the source's spread order). -/
def getConvertibleNotesWithMFN (notes : List ValuedNote) (safes : List ValuedSafe) :
    List ValuedNote :=
  notes.map (fun note =>
    if !note.toNote.mfn then note
    else
      let laterNotes := notes.filter (fun n => decide (note.eventIndex < n.eventIndex))
      let laterSafes := safes.filter (fun s => decide (note.eventIndex < s.eventIndex))
      let allLaterValuations :=
        laterNotes.map ValuedNote.valuation ++ laterSafes.map ValuedSafe.valuation
      if allLaterValuations.isEmpty then note
      else
        let lowestValuation := allLaterValuations.foldl
          (fun m current => if current < m then current else m) note.valuation
        { note with valuation := lowestValuation })

/-- `getConvertibleNotes`: shares issued to each note of the cohort at a
priced round, with the joint 0.999 over-dilution cap. -/
def getConvertibleNotes (events : List Event) (pricedRound : PricedRound)
    (totalShares : ℚ) (afterIndex : ℤ) (beforeOrAtIndex : Option ℤ) : CapTable :=
  let safesBase := getSafesValuations events pricedRound afterIndex beforeOrAtIndex
  let notesBase := getConvertibleNotesValuations events pricedRound afterIndex beforeOrAtIndex
  let notesWithMFN := getConvertibleNotesWithMFN notesBase safesBase
  let safesWithMFN := getSafesWithMFN safesBase notesBase
  let totalNotesDilution :=
    notesWithMFN.foldl (fun prev curr => prev + curr.totalAmount / curr.valuation) 0
  let totalSafesDilution :=
    safesWithMFN.foldl (fun prev curr => prev + curr.toSafe.amount / curr.valuation) 0
  let totalDilution := min (totalSafesDilution + totalNotesDilution) (0.999 : ℚ)
  let newTotal := totalShares / (1 - totalDilution)
  let dilutionRatio := totalDilution / jsOr (totalSafesDilution + totalNotesDilution) 1
  notesWithMFN.foldl (fun notesTables note =>
    tableSet notesTables note.toNote.name
      (newTotal * ((note.totalAmount / note.valuation) * dilutionRatio))) []

/-- `getSafesWithNotes`: shares issued to each SAFE of the cohort at a priced
round, accounting for notes in the joint 0.999 over-dilution cap. -/
def getSafesWithNotes (events : List Event) (pricedRound : PricedRound)
    (totalShares : ℚ) (afterIndex : ℤ) (beforeOrAtIndex : Option ℤ) : CapTable :=
  let safesBase := getSafesValuations events pricedRound afterIndex beforeOrAtIndex
  let notesBase := getConvertibleNotesValuations events pricedRound afterIndex beforeOrAtIndex
  let notesWithMFN := getConvertibleNotesWithMFN notesBase safesBase
  let safesWithMFN := getSafesWithMFN safesBase notesBase
  let totalSafesDilution :=
    safesWithMFN.foldl (fun prev curr => prev + curr.toSafe.amount / curr.valuation) 0
  let totalNotesDilution :=
    notesWithMFN.foldl (fun prev curr => prev + curr.totalAmount / curr.valuation) 0
  let totalDilution := min (totalSafesDilution + totalNotesDilution) (0.999 : ℚ)
  let newTotal := totalShares / (1 - totalDilution)
  let dilutionRatio := totalDilution / jsOr (totalSafesDilution + totalNotesDilution) 1
  safesWithMFN.foldl (fun safesTables safe =>
    tableSet safesTables safe.toSafe.name
      (newTotal * ((safe.toSafe.amount / safe.valuation) * dilutionRatio))) []

/-- `getNewOptions`: closed-form solution of the circular option-pool
("pool shuffle") equation; parameter names follow the source, including the
misspelled `optionsTaget`. -/
def getNewOptions (currentShares optionsTaget existingAvailableOptions
    newInvestment preMoneyValuation : ℚ) : ℚ :=
  let f1 := 1 / optionsTaget - 1
  let top := (currentShares / f1) * (1 + newInvestment / preMoneyValuation) -
    existingAvailableOptions / (1 - optionsTaget)
  let bottom := 1 - newInvestment / (preMoneyValuation * f1)
  top / bottom

/-- `getProRatas`: additional shares awarded to participating pro-rata
holders at a priced round.  The source's early-`return` chain is modelled by
the nested conditionals. -/
def getProRatas (current : CapTable) (event : PricedRound) (newShares : ℚ)
    (total : ℚ) (firstPricedRound : Bool) (allEvents : List Event) : CapTable :=
  allEvents.foldl (fun proRatas e =>
    let info : Option (String × Bool) :=
      match e with
      | Event.priced p => some (p.name, p.proRata)
      | Event.safe s => if firstPricedRound then some (s.name, s.proRata) else none
      | Event.convertible n => if firstPricedRound then some (n.name, n.proRata) else none
      | _ => none
    match info with
    | none => proRatas
    | some (nm, flag) =>
      if flag = false ∨ tableGet current nm = 0 ∨ nm = event.name then proRatas
      else
        let shares := newShares * (tableGet current nm / total)
        if shares ≠ 0 ∧ event.participations.contains nm then
          addTables proRatas [(nm, shares)]
        else proRatas) []

/-- `getOptions`: reserve pool shares and/or grant shares from the pool for an
options-action event, with the rounded-to-2-decimals sufficiency gate. -/
def getOptions (current : CapTable) (event : OptionsEvent) (total : ℚ) : CapTable :=
  let options0 : CapTable := []
  let options1 :=
    if event.reserved ≠ 0 then
      let target := event.reserved / 100
      tableSet options0 AVAILABLE_OPTIONS_LABEL ((target * total) / (1 - target))
    else options0
  if event.amount ≠ 0 then
    let target := event.amount / 100
    if target ≤ toFixed2 ((tableGet current AVAILABLE_OPTIONS_LABEL +
        tableGet options1 AVAILABLE_OPTIONS_LABEL) / total) then
      let sharesToGrant := (total + tableGet options1 AVAILABLE_OPTIONS_LABEL) * target
      let grantLabel :=
        if event.grantName = "" then EMPLOYEE_OPTIONS_LABEL else event.grantName
      let options2 := tableSet options1 grantLabel
        (tableGet options1 grantLabel + sharesToGrant)
      tableSet options2 AVAILABLE_OPTIONS_LABEL
        (tableGet options2 AVAILABLE_OPTIONS_LABEL - sharesToGrant)
    else options1
  else options1

/-- `getNewTable`: process one event against the previous snapshot.  The
ambient store read `get(_events)` becomes the explicit `allEvents` argument. -/
def getNewTable (allEvents : List Event) (event : Event) (previousTable : CapTable)
    (lastPricedRoundIndex : ℤ) (currentEventIndex : ℤ) : CapTable :=
  let oldTotal := getTableTotalShares previousTable
  let isFirstPricedRound := decide (lastPricedRoundIndex = -1)
  match event with
  | Event.priced ev =>
    let safes := getSafesWithNotes allEvents ev oldTotal lastPricedRoundIndex
      (some currentEventIndex)
    let notes := getConvertibleNotes allEvents ev oldTotal lastPricedRoundIndex
      (some currentEventIndex)
    let newTable1 := addTables ([] : CapTable) safes
    let newTable2 := addTables newTable1 notes
    let currentTotal := getTableTotalShares newTable2 + oldTotal
    let pair : ℚ × ℚ :=
      if ev.options ≠ 0 then
        let previousOptions := tableGet previousTable AVAILABLE_OPTIONS_LABEL
        let newOptions := getNewOptions currentTotal (ev.options / 100) previousOptions
          ev.amount (ev.valuation - ev.amount)
        ((previousOptions + newOptions) / (ev.options / 100), newOptions)
      else
        (currentTotal / (1 - ev.amount / ev.valuation), 0)
    let futureTotal := pair.1
    let newOptions := pair.2
    let newShares := futureTotal - currentTotal
    let newInvestorsShares := newShares - newOptions
    let proRatas := getProRatas (addTables previousTable newTable2) ev
      newInvestorsShares currentTotal isFirstPricedRound allEvents
    let proRatasTotal := getTableTotalShares proRatas
    let mainInvestorShares := newInvestorsShares - proRatasTotal
    let newTable3 := addTables newTable2 proRatas
    let newTable4 := addTables newTable3 [(AVAILABLE_OPTIONS_LABEL, newOptions)]
    let newTable5 := addTables newTable4 [(ev.name, mainInvestorShares)]
    addTables previousTable newTable5
  | Event.options ev =>
    let newTable1 := addTables ([] : CapTable)
      (getOptions (addTables previousTable ([] : CapTable)) ev
        (getTableTotalShares ([] : CapTable) + oldTotal))
    addTables previousTable newTable1
  | _ => addTables previousTable ([] : CapTable)

/-- The final value of the `lastPricedRoundIndex` mutable variable after the
event loop: index of the last priced round, `-1` when there is none. -/
def lastPricedIdx (events : List Event) : ℤ :=
  events.enum.foldl (fun acc p =>
    match p.2 with
    | Event.priced _ => (p.1 : ℤ)
    | _ => acc) (-1)

/-- The `events.forEach` loop of `getCapTables`: starting from the snapshot
`prev` with priced-round marker `lastP`, push one new snapshot per remaining
(enumerated) event. -/
def capTablesLoop (allEvents : List Event) :
    List (ℕ × Event) → CapTable → ℤ → List CapTable
  | [], _, _ => []
  | (idx, e) :: rest, prev, lastP =>
    let t := getNewTable allEvents e prev lastP (idx : ℤ)
    t :: capTablesLoop allEvents rest t
      (match e with
       | Event.priced _ => (idx : ℤ)
       | _ => lastP)

/-- `tables[tables.length - 1]` (the list is never empty at the use sites). -/
def jsLastTable (l : List CapTable) : CapTable := l.getLastD []

/-- `getCapTables`: the full snapshot sequence — founder table, one snapshot
per event, then (when an exit with non-zero amount is present) the
exit-conversion snapshot for still-unconverted SAFEs/notes and the final
option-distribution snapshot. -/
def getCapTables (founders : List Founder) (events : List Event)
    (exitEvent : Option ExitEvent) : List CapTable :=
  let first := getFirstTable founders
  let tables := first :: capTablesLoop events events.enum first (-1)
  let lastPricedRoundIndex := lastPricedIdx events
  match exitEvent with
  | none => tables
  | some ex =>
    if ex.amount ≠ 0 then
      let currentTable := jsLastTable tables
      let unconvertedSafes := events.enum.filterMap (fun p =>
        match p.2 with
        | Event.safe s =>
            if lastPricedRoundIndex < (p.1 : ℤ) then some s else none
        | _ => none)
      let unconvertedNotes := events.enum.filterMap (fun p =>
        match p.2 with
        | Event.convertible n =>
            if lastPricedRoundIndex < (p.1 : ℤ) then some n else none
        | _ => none)
      let exitPricedRound : PricedRound :=
        { valuation := ex.amount, proRata := false, options := 0, amount := 0,
          name := "Exit", participations := [], monthsToRound := 12 }
      let step1 : List CapTable × CapTable :=
        if unconvertedSafes.length > 0 ∨ unconvertedNotes.length > 0 then
          let oldTotal := getTableTotalShares currentTable
          let safesTable := getSafesWithNotes events exitPricedRound oldTotal
            lastPricedRoundIndex (some ((events.length : ℤ) - 1))
          let notesTable := getConvertibleNotes events exitPricedRound oldTotal
            lastPricedRoundIndex (some ((events.length : ℤ) - 1))
          let currentTable2 := addTables (addTables currentTable safesTable) notesTable
          (tables ++ [currentTable2], currentTable2)
        else (tables, currentTable)
      let tables2 := step1.1
      let ct := step1.2
      let availableOptions := tableGet ct AVAILABLE_OPTIONS_LABEL
      if availableOptions ≠ 0 then
        let total := getTableTotalShares ct - availableOptions
        let distributedOptions := ct.foldl (fun d p =>
          if p.1 = AVAILABLE_OPTIONS_LABEL then
            tableSet d AVAILABLE_OPTIONS_LABEL (-availableOptions)
          else
            tableSet d p.1 ((tableGet ct p.1 / total) * availableOptions)) []
        tables2 ++ [addTables ct distributedOptions]
      else tables2
    else tables

/-- The source's `reduce((min, current) => current < min ? current : min, a)`. -/
def jsReduceMin (a : ℚ) (l : List ℚ) : ℚ :=
  l.foldl (fun m current => if current < m then current else m) a

/-! ## Claim C4: MFN resolution -/

/-- The valuations of the cohort SAFEs and notes issued strictly later than
the given SAFE (the `allLaterInstruments` list of `getSafesWithMFN`). -/
def laterValuationsOfSafe (safes : List ValuedSafe) (notes : List ValuedNote)
    (s : ValuedSafe) : List ℚ :=
  (safes.filter (fun x => decide (s.eventIndex < x.eventIndex))).map ValuedSafe.valuation ++
  (notes.filter (fun x => decide (s.eventIndex < x.eventIndex))).map ValuedNote.valuation

/-- The valuations of the cohort notes and SAFEs issued strictly later than
the given note (the `allLaterInstruments` list of
`getConvertibleNotesWithMFN`). -/
def laterValuationsOfNote (notes : List ValuedNote) (safes : List ValuedSafe)
    (n : ValuedNote) : List ℚ :=
  (notes.filter (fun x => decide (n.eventIndex < x.eventIndex))).map ValuedNote.valuation ++
  (safes.filter (fun x => decide (n.eventIndex < x.eventIndex))).map ValuedSafe.valuation

/-- Concrete SAFE for the C5 witness: cap $5M, discount 20%. -/
def witSafeC5 : Safe :=
  { valCap := 5000000, mfn := false, proRata := false, discount := 20,
    amount := 1000000, name := "S" }

/-- Concrete priced round for the C5 witness: $2M at $10M post-money. -/
def witRoundC5 : PricedRound :=
  { valuation := 10000000, proRata := false, options := 0, amount := 2000000,
    name := "A", participations := [], monthsToRound := 12 }

/-- Concrete MFN-flagged SAFE (cap $8M, event index 0) for the C4 witness. -/
def witSafeMFN : ValuedSafe :=
  { toSafe :=
      { valCap := 8000000, mfn := true, proRata := false, discount := 0,
        amount := 100000, name := "A" },
    valuation := 8000000, eventIndex := 0 }

/-- Concrete later SAFE (cap $5M, event index 1) for the C4 witness. -/
def witSafeLater : ValuedSafe :=
  { toSafe :=
      { valCap := 5000000, mfn := false, proRata := false, discount := 0,
        amount := 100000, name := "B" },
    valuation := 5000000, eventIndex := 1 }

/-! ## Keys and totals of the intermediate tables -/

/-- The holder name an event can contribute pro-rata under (SAFE, note and
priced-round events only). -/
def eventName? : Event → Option String
  | Event.safe s => some s.name
  | Event.convertible n => some n.name
  | Event.priced p => some p.name
  | _ => none

/-- Concrete priced round for the C3 witness: $2M at $10M post-money with a
10% post-round pool target. -/
def witRoundPool : PricedRound :=
  { valuation := 10000000, proRata := false, options := 10, amount := 2000000,
    name := "Series A", participations := [], monthsToRound := 12 }

/-- Concrete options-action event for the C8 witness: grant 15% to "Team". -/
def witGrantEvent : OptionsEvent := { amount := 15, reserved := 0, grantName := "Team" }

/-! ## Claim C2: over-dilution safeguard -/

/-- The MFN-resolved SAFE cohort used by both `getSafesWithNotes` and
`getConvertibleNotes`. -/
def cohortSafes (events : List Event) (pr : PricedRound) (a : ℤ) (b : Option ℤ) :
    List ValuedSafe :=
  getSafesWithMFN (getSafesValuations events pr a b)
    (getConvertibleNotesValuations events pr a b)

/-- The MFN-resolved note cohort used by both `getSafesWithNotes` and
`getConvertibleNotes`. -/
def cohortNotes (events : List Event) (pr : PricedRound) (a : ℤ) (b : Option ℤ) :
    List ValuedNote :=
  getConvertibleNotesWithMFN (getConvertibleNotesValuations events pr a b)
    (getSafesValuations events pr a b)

/-- `totalSafesDilution`: the source's left fold of `amount / valuation`. -/
def safesDilutionSum (l : List ValuedSafe) : ℚ :=
  l.foldl (fun prev curr => prev + curr.toSafe.amount / curr.valuation) 0

/-- `totalNotesDilution`: the source's left fold of `totalAmount / valuation`. -/
def notesDilutionSum (l : List ValuedNote) : ℚ :=
  l.foldl (fun prev curr => prev + curr.totalAmount / curr.valuation) 0

/-- Concrete over-diluted SAFE for the C2 witness: $500K on a $500K cap
(100% dilution claim on its own). -/
def overSafe : Safe :=
  { valCap := 500000, mfn := false, proRata := false, discount := 0,
    amount := 500000, name := "S1" }

/-! ## Claim C6: pro-rata allocation -/

/-- The (name, proRata-flag) pair of an event eligible for pro-rata
consideration. -/
def eventProRataInfo? : Event → Option (String × Bool)
  | Event.safe s => some (s.name, s.proRata)
  | Event.convertible n => some (n.name, n.proRata)
  | Event.priced p => some (p.name, p.proRata)
  | _ => none

/-- Whether an event is a priced round. -/
def isPricedEvent : Event → Bool
  | Event.priced _ => true
  | _ => false

/-- Concrete seed round (pro-rata flagged) for the C6 witness. -/
def witSeedRound : PricedRound :=
  { valuation := 5000000, proRata := true, options := 0, amount := 1000000,
    name := "Seed", participations := [], monthsToRound := 6 }

/-- Concrete Series A round in which the seed investor participates
pro-rata, for the C6 witness. -/
def witSeriesA : PricedRound :=
  { valuation := 20000000, proRata := false, options := 0, amount := 4000000,
    name := "Series A", participations := ["Seed"], monthsToRound := 18 }

/-! ## Exit-conversion structure of `getCapTables` -/

/-- The synthetic "exit priced round" built by `getCapTables`: valuation is
the exit amount, no new investment, no pool growth, and `monthsToRound = 12`. -/
def exitRound (ex : ExitEvent) : PricedRound :=
  { valuation := ex.amount, proRata := false, options := 0, amount := 0,
    name := "Exit", participations := [], monthsToRound := 12 }

/-- Concrete founder list for the C10 witness. -/
def witFoundersC10 : List Founder := [⟨"f1", "Founder", 100, true⟩]

/-- Concrete convertible note for the C10 witness: $300,000 at 8% simple
interest, 24-month term, no cap, no discount. -/
def witNoteC10 : ConvertibleNote :=
  ⟨300000, 8, 24, 0, 0, false, false, "Note"⟩

/-- Concrete exit for the C10 witness: $30,000,000 exit. -/
def witExitC10 : ExitEvent := ⟨30000000, 0⟩

/-! ## Claim C7: non-negativity -/

/-- Concrete founder list for the C7 counterexample. -/
def witFoundersC7 : List Founder := [⟨"f1", "Founder", 100, true⟩]

/-- Concrete priced round for the C7 counterexample: a $6M raise at a $10M
post-money valuation with a 50% post-round pool target.  The pool target is
infeasible (the denominator `1 - I/(P*k)` of `getNewOptions` is negative),
so the computed pool shares are negative. -/
def witRoundC7 : PricedRound :=
  { valuation := 10000000, proRata := false, options := 50, amount := 6000000,
    name := "Series A", participations := [], monthsToRound := 12 }

/-- Input validity for a SAFE (non-negative amount and cap, discount within
100%), as produced by the app's forms. -/
def validSafeC7 (s : Safe) : Prop :=
  0 ≤ s.amount ∧ 0 ≤ s.valCap ∧ s.discount ≤ 100

/-- Input validity for a convertible note. -/
def validNoteC7 (n : ConvertibleNote) : Prop :=
  0 ≤ n.amount ∧ 0 ≤ n.interestRate ∧ 0 ≤ n.term ∧ 0 ≤ n.valCap ∧ n.discount ≤ 100

/-- Input validity for a priced round in the amended C7: non-negative raise
strictly below the post-money valuation, non-negative months, and no option
pool target (pool targets can over-draw the pool, see the counterexample). -/
def validRoundC7 (p : PricedRound) : Prop :=
  0 ≤ p.amount ∧ p.amount < p.valuation ∧ 0 ≤ p.monthsToRound ∧ p.options = 0

/-- Events admitted by the amended C7: valid SAFEs, notes and priced rounds
without pool targets; no options-action events. -/
def validEventC7 : Event → Prop
  | Event.safe s => validSafeC7 s
  | Event.convertible n => validNoteC7 n
  | Event.priced p => validRoundC7 p
  | Event.options _ => False
  | Event.accelerator _ => True

/-- Concrete SAFE for the C7 witness: $500k at a $5M cap, no discount. -/
def witSafeC7w : Safe :=
  { valCap := 5000000, mfn := false, proRata := false, discount := 0,
    amount := 500000, name := "Seed SAFE" }

/-- The value of the `lastPricedRoundIndex` marker after one loop step. -/
def nextLastP (e : Event) (idx lastP : ℤ) : ℤ :=
  match e with
  | Event.priced _ => idx
  | _ => lastP

/-- Concrete SAFE for the C1 witness. -/
def witSafeC1 : Safe :=
  { valCap := 8000000, mfn := false, proRata := false, discount := 0,
    amount := 1000000, name := "Seed SAFE" }

/-- Concrete priced round for the C1 witness. -/
def witRoundC1 : PricedRound :=
  { valuation := 20000000, proRata := false, options := 0, amount := 4000000,
    name := "Series A", participations := [], monthsToRound := 12 }

/-! ## JavaScript number semantics for C9 (degenerate-division safety)

The rational embedding above idealises `x / 0` as `0`.  To settle C9 — a
claim about `NaN`/`Infinity` — the calculation module is translated a second
time over `JsNum`, an exact model of IEEE doubles restricted to the values
reachable here: finite numbers are kept exact as rationals (float rounding
is not modelled), and the special values `NaN`, `+Infinity`, `-Infinity`
arise from division by zero and propagate through arithmetic exactly as in
ECMAScript.  Negative zero is not modelled; division by zero rounds the
denominator sign to `+0`. -/

inductive JsNum where
  | nan : JsNum
  | inf : JsNum
  | ninf : JsNum
  | num : ℚ → JsNum
deriving DecidableEq

/-- Inject a finite number. -/
def jn (q : ℚ) : JsNum := JsNum.num q

namespace JsNum

/-- IEEE addition. -/
def add : JsNum → JsNum → JsNum
  | nan, _ => nan
  | _, nan => nan
  | inf, ninf => nan
  | ninf, inf => nan
  | inf, _ => inf
  | _, inf => inf
  | ninf, _ => ninf
  | _, ninf => ninf
  | num a, num b => num (a + b)

/-- IEEE negation. -/
def neg : JsNum → JsNum
  | nan => nan
  | inf => ninf
  | ninf => inf
  | num a => num (-a)

/-- IEEE subtraction. -/
def sub (x y : JsNum) : JsNum := add x (neg y)

/-- IEEE multiplication (`Infinity * 0 = NaN`). -/
def mul : JsNum → JsNum → JsNum
  | nan, _ => nan
  | _, nan => nan
  | inf, inf => inf
  | inf, ninf => ninf
  | ninf, inf => ninf
  | ninf, ninf => inf
  | inf, num b => if b = 0 then nan else if 0 < b then inf else ninf
  | num a, inf => if a = 0 then nan else if 0 < a then inf else ninf
  | ninf, num b => if b = 0 then nan else if 0 < b then ninf else inf
  | num a, ninf => if a = 0 then nan else if 0 < a then ninf else inf
  | num a, num b => num (a * b)

/-- IEEE division (`x / 0` is `±Infinity` for `x ≠ 0` and `NaN` for `0/0`). -/
def div : JsNum → JsNum → JsNum
  | nan, _ => nan
  | _, nan => nan
  | inf, inf => nan
  | inf, ninf => nan
  | ninf, inf => nan
  | ninf, ninf => nan
  | inf, num b => if 0 ≤ b then inf else ninf
  | ninf, num b => if 0 ≤ b then ninf else inf
  | num _, inf => num 0
  | num _, ninf => num 0
  | num a, num b =>
      if b = 0 then (if a = 0 then nan else if 0 < a then inf else ninf)
      else num (a / b)

/-- JavaScript `<` (false whenever `NaN` is involved). -/
def lt : JsNum → JsNum → Bool
  | nan, _ => false
  | _, nan => false
  | inf, _ => false
  | _, inf => true
  | ninf, ninf => false
  | ninf, num _ => true
  | num _, ninf => false
  | num a, num b => decide (a < b)

/-- JavaScript `<=` (false whenever `NaN` is involved). -/
def le : JsNum → JsNum → Bool
  | nan, _ => false
  | _, nan => false
  | x, y => !(lt y x)

/-- JavaScript numeric truthiness (`0` and `NaN` are falsy). -/
def truthy : JsNum → Bool
  | nan => false
  | inf => true
  | ninf => true
  | num a => decide (a ≠ 0)

/-- JavaScript numeric `x || d`. -/
def jsOrJ (x d : JsNum) : JsNum := if truthy x then x else d

/-- `Math.min` (`NaN` if either argument is `NaN`). -/
def minJ : JsNum → JsNum → JsNum
  | nan, _ => nan
  | _, nan => nan
  | x, y => if lt x y then x else y

/-- `parseFloat(x.toFixed(2))` on a `JsNum`. -/
def toFixed2J : JsNum → JsNum
  | nan => nan
  | inf => inf
  | ninf => ninf
  | num a => num ((round (a * 100) : ℤ) / 100)

/-- Whether the value is an ordinary finite number. -/
def isFinite : JsNum → Bool
  | num _ => true
  | _ => false

end JsNum

/-- A cap table with JavaScript-number values. -/
abbrev JsTable : Type := List (String × JsNum)

/-- Bare property access `table[k]` (used only where the source reads a key
known to be present; an absent key is modelled as `0`). -/
def jTableGetRaw : JsTable → String → JsNum
  | [], _ => JsNum.num 0
  | p :: rest, k => if p.1 = k then p.2 else jTableGetRaw rest k

/-- The read `table[k] || 0` (falsy stored values read as `0`). -/
def jTableGet (t : JsTable) (k : String) : JsNum :=
  if (jTableGetRaw t k).truthy then jTableGetRaw t k else JsNum.num 0

/-- Property assignment, insertion-ordered. -/
def jTableSet : JsTable → String → JsNum → JsTable
  | [], k, v => [(k, v)]
  | p :: rest, k, v => if p.1 = k then (k, v) :: rest else p :: jTableSet rest k v

/-- `addTables` over JavaScript numbers:
`draft[key] = (draft[key] || 0) + table[key]`. -/
def jAddTables (oldTable : JsTable) (table : JsTable) : JsTable :=
  table.foldl (fun draft p => jTableSet draft p.1 (JsNum.add (jTableGet draft p.1) p.2))
    oldTable

/-- `getTableTotalShares` over JavaScript numbers. -/
def jsTotalShares (table : JsTable) : JsNum :=
  table.foldl (fun prev p => JsNum.add prev p.2) (JsNum.num 0)

/-- `getFirstTable` over JavaScript numbers. -/
def jsGetFirstTable (founders : List Founder) : JsTable :=
  founders.foldl (fun table founder =>
    jTableSet table founder.name
      (JsNum.mul (JsNum.div (jn founder.equity) (jn 100)) (jn INITIAL_SHARES))) []

/-- A SAFE with resolved valuation and event position, JavaScript numbers. -/
structure JValuedSafe where
  toSafe : Safe
  valuation : JsNum
  eventIndex : ℤ
deriving DecidableEq

/-- A convertible note with resolved valuation, accrued total and event
position, JavaScript numbers. -/
structure JValuedNote where
  toNote : ConvertibleNote
  valuation : JsNum
  totalAmount : JsNum
  eventIndex : ℤ
deriving DecidableEq

/-- `getSafesValuations` over JavaScript numbers. -/
def jsGetSafesValuations (events : List Event) (pricedRound : PricedRound)
    (afterIndex : ℤ) (beforeOrAtIndex : Option ℤ) : List JValuedSafe :=
  let maxIndex : ℤ := beforeOrAtIndex.getD ((events.length : ℤ) - 1)
  (events.enum.filterMap (fun p =>
    match p.2 with
    | Event.safe s =>
        if afterIndex < (p.1 : ℤ) ∧ (p.1 : ℤ) ≤ maxIndex then some s else none
    | _ => none)).map (fun (safe : Safe) =>
      let valuation :=
        if safe.valCap ≠ 0 ∧ safe.discount ≠ 0 then
          JsNum.minJ (jn safe.valCap)
            (JsNum.mul (jn pricedRound.valuation)
              (JsNum.sub (jn 1) (JsNum.div (jn safe.discount) (jn 100))))
        else if safe.valCap ≠ 0 ∧ safe.discount = 0 then
          JsNum.minJ (jn safe.valCap) (jn pricedRound.valuation)
        else if safe.valCap = 0 ∧ safe.discount ≠ 0 then
          JsNum.mul (jn pricedRound.valuation)
            (JsNum.sub (jn 1) (JsNum.div (jn safe.discount) (jn 100)))
        else jn pricedRound.valuation
      let eventIndex := jsFindIndex events (fun e =>
        match e with
        | Event.safe s2 => s2.name == safe.name
        | _ => false)
      { toSafe := safe, valuation := valuation, eventIndex := eventIndex })

/-- `getSafesWithMFN` over JavaScript numbers (`reduce` with JS `<`). -/
def jsGetSafesWithMFN (safes : List JValuedSafe) (notes : List JValuedNote) :
    List JValuedSafe :=
  safes.map (fun safe =>
    if !safe.toSafe.mfn then safe
    else
      let laterSafes := safes.filter (fun s => decide (safe.eventIndex < s.eventIndex))
      let laterNotes := notes.filter (fun n => decide (safe.eventIndex < n.eventIndex))
      let allLaterValuations :=
        laterSafes.map JValuedSafe.valuation ++ laterNotes.map JValuedNote.valuation
      if allLaterValuations.isEmpty then safe
      else
        let lowestValuation := allLaterValuations.foldl
          (fun m current => if JsNum.lt current m then current else m) safe.valuation
        { safe with valuation := lowestValuation })

/-- `getConvertibleNoteAccruedAmount` over JavaScript numbers. -/
def jsAccruedAmount (note : ConvertibleNote) (monthsToConversion : Option ℚ) : JsNum :=
  let effectiveMonths :=
    match monthsToConversion with
    | some m => JsNum.minJ (jn m) (jn note.term)
    | none => jn note.term
  let accruedInterest := JsNum.mul
    (JsNum.mul (jn note.amount) (JsNum.div (jn note.interestRate) (jn 100)))
    (JsNum.div effectiveMonths (jn 12))
  JsNum.add (jn note.amount) accruedInterest

/-- `getConvertibleNotesValuations` over JavaScript numbers. -/
def jsGetConvertibleNotesValuations (events : List Event) (pricedRound : PricedRound)
    (afterIndex : ℤ) (beforeOrAtIndex : Option ℤ) : List JValuedNote :=
  let maxIndex : ℤ := beforeOrAtIndex.getD ((events.length : ℤ) - 1)
  (events.enum.filterMap (fun p =>
    match p.2 with
    | Event.convertible n =>
        if afterIndex < (p.1 : ℤ) ∧ (p.1 : ℤ) ≤ maxIndex then some n else none
    | _ => none)).map (fun (note : ConvertibleNote) =>
      let totalAmount := jsAccruedAmount note (some pricedRound.monthsToRound)
      let valuation :=
        if note.valCap ≠ 0 ∧ note.discount ≠ 0 then
          JsNum.minJ (jn note.valCap)
            (JsNum.mul (jn pricedRound.valuation)
              (JsNum.sub (jn 1) (JsNum.div (jn note.discount) (jn 100))))
        else if note.valCap ≠ 0 ∧ note.discount = 0 then
          JsNum.minJ (jn note.valCap) (jn pricedRound.valuation)
        else if note.valCap = 0 ∧ note.discount ≠ 0 then
          JsNum.mul (jn pricedRound.valuation)
            (JsNum.sub (jn 1) (JsNum.div (jn note.discount) (jn 100)))
        else jn pricedRound.valuation
      let eventIndex := jsFindIndex events (fun e =>
        match e with
        | Event.convertible n2 => n2.name == note.name
        | _ => false)
      { toNote := note, valuation := valuation, totalAmount := totalAmount,
        eventIndex := eventIndex })

/-- `getConvertibleNotesWithMFN` over JavaScript numbers. -/
def jsGetConvertibleNotesWithMFN (notes : List JValuedNote)
    (safes : List JValuedSafe) : List JValuedNote :=
  notes.map (fun note =>
    if !note.toNote.mfn then note
    else
      let laterNotes := notes.filter (fun n => decide (note.eventIndex < n.eventIndex))
      let laterSafes := safes.filter (fun s => decide (note.eventIndex < s.eventIndex))
      let allLaterValuations :=
        laterNotes.map JValuedNote.valuation ++ laterSafes.map JValuedSafe.valuation
      if allLaterValuations.isEmpty then note
      else
        let lowestValuation := allLaterValuations.foldl
          (fun m current => if JsNum.lt current m then current else m) note.valuation
        { note with valuation := lowestValuation })

/-- The notes' dilution fold `prev + totalAmount / valuation`, JS numbers. -/
def jsNotesDilutionSum (l : List JValuedNote) : JsNum :=
  l.foldl (fun prev curr =>
    JsNum.add prev (JsNum.div curr.totalAmount curr.valuation)) (jn 0)

/-- The SAFEs' dilution fold `prev + amount / valuation`, JS numbers. -/
def jsSafesDilutionSum (l : List JValuedSafe) : JsNum :=
  l.foldl (fun prev curr =>
    JsNum.add prev (JsNum.div (jn curr.toSafe.amount) curr.valuation)) (jn 0)

/-- `getConvertibleNotes` over JavaScript numbers. -/
def jsGetConvertibleNotes (events : List Event) (pricedRound : PricedRound)
    (totalShares : JsNum) (afterIndex : ℤ) (beforeOrAtIndex : Option ℤ) : JsTable :=
  let safesBase := jsGetSafesValuations events pricedRound afterIndex beforeOrAtIndex
  let notesBase := jsGetConvertibleNotesValuations events pricedRound afterIndex
    beforeOrAtIndex
  let notesWithMFN := jsGetConvertibleNotesWithMFN notesBase safesBase
  let safesWithMFN := jsGetSafesWithMFN safesBase notesBase
  let totalNotesDilution := jsNotesDilutionSum notesWithMFN
  let totalSafesDilution := jsSafesDilutionSum safesWithMFN
  let totalDilution := JsNum.minJ (JsNum.add totalSafesDilution totalNotesDilution)
    (jn 0.999)
  let newTotal := JsNum.div totalShares (JsNum.sub (jn 1) totalDilution)
  let dilutionRatio := JsNum.div totalDilution
    (JsNum.jsOrJ (JsNum.add totalSafesDilution totalNotesDilution) (jn 1))
  notesWithMFN.foldl (fun notesTables note =>
    jTableSet notesTables note.toNote.name
      (JsNum.mul newTotal
        (JsNum.mul (JsNum.div note.totalAmount note.valuation) dilutionRatio))) []

/-- `getSafesWithNotes` over JavaScript numbers. -/
def jsGetSafesWithNotes (events : List Event) (pricedRound : PricedRound)
    (totalShares : JsNum) (afterIndex : ℤ) (beforeOrAtIndex : Option ℤ) : JsTable :=
  let safesBase := jsGetSafesValuations events pricedRound afterIndex beforeOrAtIndex
  let notesBase := jsGetConvertibleNotesValuations events pricedRound afterIndex
    beforeOrAtIndex
  let notesWithMFN := jsGetConvertibleNotesWithMFN notesBase safesBase
  let safesWithMFN := jsGetSafesWithMFN safesBase notesBase
  let totalSafesDilution := jsSafesDilutionSum safesWithMFN
  let totalNotesDilution := jsNotesDilutionSum notesWithMFN
  let totalDilution := JsNum.minJ (JsNum.add totalSafesDilution totalNotesDilution)
    (jn 0.999)
  let newTotal := JsNum.div totalShares (JsNum.sub (jn 1) totalDilution)
  let dilutionRatio := JsNum.div totalDilution
    (JsNum.jsOrJ (JsNum.add totalSafesDilution totalNotesDilution) (jn 1))
  safesWithMFN.foldl (fun safesTables safe =>
    jTableSet safesTables safe.toSafe.name
      (JsNum.mul newTotal
        (JsNum.mul (JsNum.div (jn safe.toSafe.amount) safe.valuation) dilutionRatio)))
    []

/-- `getNewOptions` over JavaScript numbers. -/
def jsGetNewOptions (currentShares optionsTaget existingAvailableOptions
    newInvestment preMoneyValuation : JsNum) : JsNum :=
  let f1 := JsNum.sub (JsNum.div (jn 1) optionsTaget) (jn 1)
  let top := JsNum.sub
    (JsNum.mul (JsNum.div currentShares f1)
      (JsNum.add (jn 1) (JsNum.div newInvestment preMoneyValuation)))
    (JsNum.div existingAvailableOptions (JsNum.sub (jn 1) optionsTaget))
  let bottom := JsNum.sub (jn 1)
    (JsNum.div newInvestment (JsNum.mul preMoneyValuation f1))
  JsNum.div top bottom

/-- `getProRatas` over JavaScript numbers (the bare `current[e.name]` read and
its truthiness test follow the source). -/
def jsGetProRatas (current : JsTable) (event : PricedRound) (newShares : JsNum)
    (total : JsNum) (firstPricedRound : Bool) (allEvents : List Event) : JsTable :=
  allEvents.foldl (fun proRatas e =>
    let info : Option (String × Bool) :=
      match e with
      | Event.priced p => some (p.name, p.proRata)
      | Event.safe s => if firstPricedRound then some (s.name, s.proRata) else none
      | Event.convertible n => if firstPricedRound then some (n.name, n.proRata) else none
      | _ => none
    match info with
    | none => proRatas
    | some (nm, flag) =>
      if flag = false ∨ (jTableGetRaw current nm).truthy = false ∨ nm = event.name then
        proRatas
      else
        let shares := JsNum.mul newShares (JsNum.div (jTableGetRaw current nm) total)
        if shares.truthy = true ∧ event.participations.contains nm then
          jAddTables proRatas [(nm, shares)]
        else proRatas) []

/-- `getOptions` over JavaScript numbers. -/
def jsGetOptions (current : JsTable) (event : OptionsEvent) (total : JsNum) : JsTable :=
  let options0 : JsTable := []
  let options1 :=
    if event.reserved ≠ 0 then
      let target := JsNum.div (jn event.reserved) (jn 100)
      jTableSet options0 AVAILABLE_OPTIONS_LABEL
        (JsNum.div (JsNum.mul target total) (JsNum.sub (jn 1) target))
    else options0
  if event.amount ≠ 0 then
    let target := JsNum.div (jn event.amount) (jn 100)
    if JsNum.le target (JsNum.toFixed2J (JsNum.div
        (JsNum.add (jTableGet current AVAILABLE_OPTIONS_LABEL)
          (jTableGet options1 AVAILABLE_OPTIONS_LABEL)) total)) = true then
      let sharesToGrant := JsNum.mul
        (JsNum.add total (jTableGet options1 AVAILABLE_OPTIONS_LABEL)) target
      let grantLabel :=
        if event.grantName = "" then EMPLOYEE_OPTIONS_LABEL else event.grantName
      let options2 := jTableSet options1 grantLabel
        (JsNum.add (jTableGet options1 grantLabel) sharesToGrant)
      jTableSet options2 AVAILABLE_OPTIONS_LABEL
        (JsNum.sub (jTableGet options2 AVAILABLE_OPTIONS_LABEL) sharesToGrant)
    else options1
  else options1

/-- `getNewTable` over JavaScript numbers. -/
def jsGetNewTable (allEvents : List Event) (event : Event) (previousTable : JsTable)
    (lastPricedRoundIndex : ℤ) (currentEventIndex : ℤ) : JsTable :=
  let oldTotal := jsTotalShares previousTable
  let isFirstPricedRound := decide (lastPricedRoundIndex = -1)
  match event with
  | Event.priced ev =>
    let safes := jsGetSafesWithNotes allEvents ev oldTotal lastPricedRoundIndex
      (some currentEventIndex)
    let notes := jsGetConvertibleNotes allEvents ev oldTotal lastPricedRoundIndex
      (some currentEventIndex)
    let newTable1 := jAddTables ([] : JsTable) safes
    let newTable2 := jAddTables newTable1 notes
    let currentTotal := JsNum.add (jsTotalShares newTable2) oldTotal
    let pair : JsNum × JsNum :=
      if ev.options ≠ 0 then
        let previousOptions := jTableGet previousTable AVAILABLE_OPTIONS_LABEL
        let newOptions := jsGetNewOptions currentTotal
          (JsNum.div (jn ev.options) (jn 100)) previousOptions (jn ev.amount)
          (JsNum.sub (jn ev.valuation) (jn ev.amount))
        (JsNum.div (JsNum.add previousOptions newOptions)
          (JsNum.div (jn ev.options) (jn 100)), newOptions)
      else
        (JsNum.div currentTotal
          (JsNum.sub (jn 1) (JsNum.div (jn ev.amount) (jn ev.valuation))), jn 0)
    let futureTotal := pair.1
    let newOptions := pair.2
    let newShares := JsNum.sub futureTotal currentTotal
    let newInvestorsShares := JsNum.sub newShares newOptions
    let proRatas := jsGetProRatas (jAddTables previousTable newTable2) ev
      newInvestorsShares currentTotal isFirstPricedRound allEvents
    let proRatasTotal := jsTotalShares proRatas
    let mainInvestorShares := JsNum.sub newInvestorsShares proRatasTotal
    let newTable3 := jAddTables newTable2 proRatas
    let newTable4 := jAddTables newTable3 [(AVAILABLE_OPTIONS_LABEL, newOptions)]
    let newTable5 := jAddTables newTable4 [(ev.name, mainInvestorShares)]
    jAddTables previousTable newTable5
  | Event.options ev =>
    let newTable1 := jAddTables ([] : JsTable)
      (jsGetOptions (jAddTables previousTable ([] : JsTable)) ev
        (JsNum.add (jsTotalShares ([] : JsTable)) oldTotal))
    jAddTables previousTable newTable1
  | _ => jAddTables previousTable ([] : JsTable)

/-- The event loop of `getCapTables`, JavaScript numbers. -/
def jsCapTablesLoop (allEvents : List Event) :
    List (ℕ × Event) → JsTable → ℤ → List JsTable
  | [], _, _ => []
  | (idx, e) :: rest, prev, lastP =>
    let t := jsGetNewTable allEvents e prev lastP (idx : ℤ)
    t :: jsCapTablesLoop allEvents rest t
      (match e with
       | Event.priced _ => (idx : ℤ)
       | _ => lastP)

/-- `tables[tables.length - 1]`, JavaScript numbers. -/
def jsLastTableJ (l : List JsTable) : JsTable := l.getLastD []

/-- `getCapTables` over JavaScript numbers. -/
def jsGetCapTables (founders : List Founder) (events : List Event)
    (exitEvent : Option ExitEvent) : List JsTable :=
  let first := jsGetFirstTable founders
  let tables := first :: jsCapTablesLoop events events.enum first (-1)
  let lastPricedRoundIndex := lastPricedIdx events
  match exitEvent with
  | none => tables
  | some ex =>
    if ex.amount ≠ 0 then
      let currentTable := jsLastTableJ tables
      let unconvertedSafes := events.enum.filterMap (fun p =>
        match p.2 with
        | Event.safe s =>
            if lastPricedRoundIndex < (p.1 : ℤ) then some s else none
        | _ => none)
      let unconvertedNotes := events.enum.filterMap (fun p =>
        match p.2 with
        | Event.convertible n =>
            if lastPricedRoundIndex < (p.1 : ℤ) then some n else none
        | _ => none)
      let exitPricedRound : PricedRound :=
        { valuation := ex.amount, proRata := false, options := 0, amount := 0,
          name := "Exit", participations := [], monthsToRound := 12 }
      let step1 : List JsTable × JsTable :=
        if unconvertedSafes.length > 0 ∨ unconvertedNotes.length > 0 then
          let oldTotal := jsTotalShares currentTable
          let safesTable := jsGetSafesWithNotes events exitPricedRound oldTotal
            lastPricedRoundIndex (some ((events.length : ℤ) - 1))
          let notesTable := jsGetConvertibleNotes events exitPricedRound oldTotal
            lastPricedRoundIndex (some ((events.length : ℤ) - 1))
          let currentTable2 := jAddTables (jAddTables currentTable safesTable) notesTable
          (tables ++ [currentTable2], currentTable2)
        else (tables, currentTable)
      let tables2 := step1.1
      let ct := step1.2
      let availableOptions := jTableGetRaw ct AVAILABLE_OPTIONS_LABEL
      if availableOptions.truthy = true then
        let total := JsNum.sub (jsTotalShares ct) availableOptions
        let distributedOptions := ct.foldl (fun d p =>
          if p.1 = AVAILABLE_OPTIONS_LABEL then
            jTableSet d AVAILABLE_OPTIONS_LABEL (JsNum.neg availableOptions)
          else
            jTableSet d p.1
              (JsNum.mul (JsNum.div (jTableGetRaw ct p.1) total) availableOptions)) []
        tables2 ++ [jAddTables ct distributedOptions]
      else tables2
    else tables

/-- Concrete founder list for the C9 counterexample. -/
def witFoundersC9 : List Founder := [⟨"f1", "Founder", 100, true⟩]

/-- Concrete priced round for the C9 counterexample: the raise equals the
post-money valuation, so `1 - amount/valuation` is zero. -/
def witRoundC9 : PricedRound :=
  { valuation := 5000000, proRata := false, options := 0, amount := 5000000,
    name := "Series A", participations := [], monthsToRound := 12 }

/-- Concrete SAFE for the C9 witness: zero invested amount, so the cohort's
raw dilution sum is exactly zero. -/
def witSafeC9g : Safe :=
  { valCap := 1000000, mfn := false, proRata := false, discount := 0,
    amount := 0, name := "Zero SAFE" }

/-- Concrete priced round for the C9 witness. -/
def witRoundC9g : PricedRound :=
  { valuation := 10000000, proRata := false, options := 0, amount := 2000000,
    name := "Round", participations := [], monthsToRound := 12 }

/-! ## Theorems -/

/-! ## Basic cap-table lemmas -/

@[simp] theorem tableGet_nil (k : String) : tableGet [] k = 0 := rfl

theorem tableGet_cons (p : String × ℚ) (t : CapTable) (k : String) :
    tableGet (p :: t) k = if p.1 = k then p.2 else tableGet t k := rfl

theorem tableGet_eq_zero_of_not_mem {t : CapTable} {k : String}
    (h : k ∉ tableKeys t) : tableGet t k = 0 := by
  induction t with
  | nil => rfl
  | cons p rest ih =>
    simp only [tableKeys, List.map_cons, List.mem_cons, not_or] at h
    rw [tableGet_cons, if_neg (fun hh => h.1 hh.symm)]
    exact ih (by simpa [tableKeys] using h.2)

theorem tableKeys_set (t : CapTable) (k : String) (v : ℚ) :
    tableKeys (tableSet t k v) =
      if k ∈ tableKeys t then tableKeys t else tableKeys t ++ [k] := by
  induction t with
  | nil => simp [tableSet, tableKeys]
  | cons p rest ih =>
    by_cases hp : p.1 = k
    · simp [tableSet, hp, tableKeys]
    · have hkp : ¬ k = p.1 := fun hh => hp hh.symm
      simp only [tableSet, if_neg hp, tableKeys, List.map_cons, List.mem_cons]
      rw [show List.map Prod.fst (tableSet rest k v) = tableKeys (tableSet rest k v) from rfl,
        ih]
      by_cases hm : k ∈ List.map Prod.fst rest
      · simp [hm, hkp, tableKeys]
      · simp [hm, hkp, tableKeys]

theorem mem_tableKeys_set (t : CapTable) (k q : String) (v : ℚ) :
    q ∈ tableKeys (tableSet t k v) ↔ q ∈ tableKeys t ∨ q = k := by
  rw [tableKeys_set]
  by_cases h : k ∈ tableKeys t
  · simp only [h, if_true]
    constructor
    · exact fun hq => Or.inl hq
    · rintro (hq | rfl)
      · exact hq
      · exact h
  · simp [h]

@[simp] theorem tableGet_set_self (t : CapTable) (k : String) (v : ℚ) :
    tableGet (tableSet t k v) k = v := by
  induction t with
  | nil => simp [tableSet, tableGet]
  | cons p rest ih =>
    by_cases hp : p.1 = k
    · simp [tableSet, hp, tableGet]
    · simp [tableSet, hp, tableGet_cons, ih]

theorem tableGet_set_ne (t : CapTable) (k q : String) (v : ℚ) (h : q ≠ k) :
    tableGet (tableSet t k v) q = tableGet t q := by
  have hkq : ¬ k = q := fun hh => h hh.symm
  induction t with
  | nil => simp [tableSet, tableGet_cons, hkq]
  | cons p rest ih =>
    by_cases hp : p.1 = k
    · have hpq : ¬ p.1 = q := by rw [hp]; exact hkq
      simp [tableSet, hp, tableGet_cons, hkq, hpq]
    · simp [tableSet, hp, tableGet_cons, ih]

theorem nodup_tableKeys_set {t : CapTable} (k : String) (v : ℚ)
    (h : (tableKeys t).Nodup) : (tableKeys (tableSet t k v)).Nodup := by
  rw [tableKeys_set]
  by_cases hk : k ∈ tableKeys t
  · simpa [hk] using h
  · simp only [hk, if_false]
    refine List.Nodup.append h (List.nodup_singleton _) ?_
    intro x hx hx'
    simp only [List.mem_singleton] at hx'
    exact hk (hx' ▸ hx)

theorem totalShares_set {t : CapTable} (k : String) (v : ℚ)
    (h : (tableKeys t).Nodup) :
    getTableTotalShares (tableSet t k v) = getTableTotalShares t - tableGet t k + v := by
  induction t with
  | nil => simp [tableSet, getTableTotalShares, tableGet]
  | cons p rest ih =>
    simp only [tableKeys, List.map_cons, List.nodup_cons] at h
    by_cases hp : p.1 = k
    · have hz : tableGet rest k = 0 :=
        tableGet_eq_zero_of_not_mem (by rw [← hp]; exact h.1)
      simp only [tableSet, if_pos hp, getTableTotalShares, List.map_cons, List.sum_cons,
        tableGet_cons, if_pos hp]
      ring
    · have hrest := ih h.2
      simp only [tableSet, if_neg hp, getTableTotalShares, List.map_cons, List.sum_cons,
        tableGet_cons, if_neg hp] at *
      rw [hrest]
      ring

/-! `addTables` lemmas.  The second argument of `addTables` is always a
well-formed object (unique keys) in the source; several lemmas therefore
assume `Nodup` of the appropriate key list. -/

theorem addTables_nil (a : CapTable) : addTables a [] = a := rfl

theorem addTables_cons (a : CapTable) (p : String × ℚ) (b : CapTable) :
    addTables a (p :: b) = addTables (tableSet a p.1 (tableGet a p.1 + p.2)) b := rfl

theorem mem_tableKeys_addTables (a b : CapTable) (q : String) :
    q ∈ tableKeys (addTables a b) ↔ q ∈ tableKeys a ∨ q ∈ tableKeys b := by
  induction b generalizing a with
  | nil => simp [addTables_nil, tableKeys]
  | cons p rest ih =>
    rw [addTables_cons, ih]
    rw [mem_tableKeys_set]
    simp [tableKeys, List.mem_cons]
    tauto

theorem nodup_tableKeys_addTables {a : CapTable} (b : CapTable)
    (h : (tableKeys a).Nodup) : (tableKeys (addTables a b)).Nodup := by
  induction b generalizing a with
  | nil => simpa [addTables_nil] using h
  | cons p rest ih =>
    rw [addTables_cons]
    exact ih (nodup_tableKeys_set _ _ h)

theorem totalShares_addTables {a : CapTable} (b : CapTable)
    (h : (tableKeys a).Nodup) :
    getTableTotalShares (addTables a b) = getTableTotalShares a + getTableTotalShares b := by
  induction b generalizing a with
  | nil => simp [addTables_nil, getTableTotalShares]
  | cons p rest ih =>
    rw [addTables_cons, ih (nodup_tableKeys_set _ _ h), totalShares_set _ _ h]
    simp only [getTableTotalShares, List.map_cons, List.sum_cons]
    ring

theorem tableGet_addTables (a : CapTable) {b : CapTable} (q : String)
    (hb : (tableKeys b).Nodup) :
    tableGet (addTables a b) q = tableGet a q + tableGet b q := by
  induction b generalizing a with
  | nil => simp [addTables_nil]
  | cons p rest ih =>
    simp only [tableKeys, List.map_cons, List.nodup_cons] at hb
    rw [addTables_cons, ih _ hb.2, tableGet_cons]
    by_cases hq : p.1 = q
    · subst hq
      have hz : tableGet rest p.1 = 0 := tableGet_eq_zero_of_not_mem hb.1
      simp [hz]
    · rw [tableGet_set_ne _ _ _ _ (fun hh => hq hh.symm), if_neg hq]

theorem tableGet_nonneg {t : CapTable} (h : ∀ p ∈ t, 0 ≤ p.2) (k : String) :
    0 ≤ tableGet t k := by
  induction t with
  | nil => simp
  | cons p rest ih =>
    rw [tableGet_cons]
    by_cases hp : p.1 = k
    · simpa [hp] using h p (by simp)
    · simp only [hp, if_false]
      exact ih (fun q hq => h q (by simp [hq]))

theorem totalShares_nonneg {t : CapTable} (h : ∀ p ∈ t, 0 ≤ p.2) :
    0 ≤ getTableTotalShares t := by
  induction t with
  | nil => simp [getTableTotalShares]
  | cons p rest ih =>
    have h1 : 0 ≤ p.2 := h p (by simp)
    have h2 := ih (fun q hq => h q (by simp [hq]))
    simp only [getTableTotalShares, List.map_cons, List.sum_cons] at *
    linarith

/-! ## Generic helper lemmas -/

theorem foldl_add_map {α : Type} (l : List α) (f : α → ℚ) (a : ℚ) :
    l.foldl (fun prev curr => prev + f curr) a = a + (l.map f).sum := by
  induction l generalizing a with
  | nil => simp
  | cons x xs ih => simp [ih]; ring

theorem jsReduceMin_le (a : ℚ) (l : List ℚ) :
    jsReduceMin a l ≤ a ∧ ∀ v ∈ l, jsReduceMin a l ≤ v := by
  induction l generalizing a with
  | nil => simp [jsReduceMin]
  | cons x xs ih =>
    have step : jsReduceMin a (x :: xs) = jsReduceMin (if x < a then x else a) xs := rfl
    rcases ih (if x < a then x else a) with ⟨h1, h2⟩
    have hxa : (if x < a then x else a) ≤ a := by
      by_cases h : x < a
      · simp [h]; linarith
      · simp [h]
    have hxx : (if x < a then x else a) ≤ x := by
      by_cases h : x < a
      · simp [h]
      · simp [h]; linarith [not_lt.mp h]
    refine ⟨by rw [step]; linarith, ?_⟩
    intro v hv
    rcases List.mem_cons.mp hv with rfl | hv'
    · rw [step]; linarith
    · rw [step]; exact h2 v hv'

theorem jsReduceMin_mem (a : ℚ) (l : List ℚ) :
    jsReduceMin a l = a ∨ jsReduceMin a l ∈ l := by
  induction l generalizing a with
  | nil => simp [jsReduceMin]
  | cons x xs ih =>
    have step : jsReduceMin a (x :: xs) = jsReduceMin (if x < a then x else a) xs := rfl
    rcases ih (if x < a then x else a) with h | h
    · rw [step, h]
      by_cases hx : x < a
      · simp [hx]
      · simp [hx]
    · rw [step]
      exact Or.inr (List.mem_cons_of_mem _ h)

theorem jsReduceMin_eq_self {a : ℚ} {l : List ℚ} (h : ∀ v ∈ l, a ≤ v) :
    jsReduceMin a l = a := by
  rcases jsReduceMin_mem a l with he | hm
  · exact he
  · have h1 := (jsReduceMin_le a l).1
    have h2 := h _ hm
    linarith

theorem jsReduceMin_eq_lowest {a m : ℚ} {l : List ℚ} (hm : m ∈ l)
    (hle : ∀ v ∈ l, m ≤ v) (hlt : m < a) : jsReduceMin a l = m := by
  have hub := (jsReduceMin_le a l).2 m hm
  rcases jsReduceMin_mem a l with he | hmem
  · exfalso; rw [he] at hub; linarith
  · have := hle _ hmem
    linarith

theorem mem_tableSet (t : CapTable) (k : String) (v : ℚ) (q : String × ℚ)
    (h : q ∈ tableSet t k v) : q ∈ t ∨ q = (k, v) := by
  induction t with
  | nil => simpa [tableSet] using h
  | cons p rest ih =>
    by_cases hp : p.1 = k
    · simp only [tableSet, if_pos hp, List.mem_cons] at h
      rcases h with h | h
      · exact Or.inr h
      · exact Or.inl (List.mem_cons_of_mem _ h)
    · simp only [tableSet, if_neg hp, List.mem_cons] at h
      rcases h with h | h
      · exact Or.inl (by simp [h])
      · rcases ih h with h' | h'
        · exact Or.inl (List.mem_cons_of_mem _ h')
        · exact Or.inr h'

theorem tableSet_eq_append {t : CapTable} {k : String} (v : ℚ)
    (h : k ∉ tableKeys t) : tableSet t k v = t ++ [(k, v)] := by
  induction t with
  | nil => simp [tableSet]
  | cons p rest ih =>
    simp only [tableKeys, List.map_cons, List.mem_cons, not_or] at h
    rw [show tableSet (p :: rest) k v =
      if p.1 = k then (k, v) :: rest else p :: tableSet rest k v from rfl,
      if_neg (fun hh => h.1 hh.symm), ih (by simpa [tableKeys] using h.2)]
    simp

/-- Building a table by repeated assignment over a list with pairwise-distinct
fresh keys produces exactly the corresponding key/value list, in order. -/
theorem foldl_tableSet_eq_append {α : Type} (L : List α) (f : α → String) (g : α → ℚ)
    (acc : CapTable) (hN : (L.map f).Nodup) (hacc : ∀ y ∈ L, f y ∉ tableKeys acc) :
    L.foldl (fun t y => tableSet t (f y) (g y)) acc = acc ++ L.map (fun y => (f y, g y)) := by
  induction L generalizing acc with
  | nil => simp
  | cons x xs ih =>
    simp only [List.map_cons, List.nodup_cons] at hN
    rw [List.foldl_cons, tableSet_eq_append _ (hacc x (by simp)), ih _ hN.2]
    · simp
    · intro y hy
      rw [tableKeys, List.map_append]
      simp only [List.mem_append, not_or]
      refine ⟨hacc y (by simp [hy]), ?_⟩
      simp only [List.map_cons, List.map_nil, List.mem_singleton]
      intro hc
      exact hN.1 (by rw [← hc]; exact List.mem_map_of_mem f hy)

theorem mem_tableKeys_foldl_tableSet {α : Type} (L : List α) (f : α → String)
    (g : α → ℚ) (acc : CapTable) (q : String) :
    q ∈ tableKeys (L.foldl (fun t y => tableSet t (f y) (g y)) acc) ↔
      q ∈ tableKeys acc ∨ q ∈ L.map f := by
  induction L generalizing acc with
  | nil => simp
  | cons x xs ih =>
    rw [List.foldl_cons, ih, mem_tableKeys_set]
    simp only [List.map_cons, List.mem_cons]
    tauto

theorem nodup_tableKeys_foldl_tableSet {α : Type} (L : List α) (f : α → String)
    (g : α → ℚ) (acc : CapTable) (hacc : (tableKeys acc).Nodup) :
    (tableKeys (L.foldl (fun t y => tableSet t (f y) (g y)) acc)).Nodup := by
  induction L generalizing acc with
  | nil => simpa
  | cons x xs ih => exact ih _ (nodup_tableKeys_set _ _ hacc)

theorem mem_foldl_tableSet {α : Type} (L : List α) (f : α → String) (g : α → ℚ)
    (acc : CapTable) (q : String × ℚ)
    (h : q ∈ L.foldl (fun t y => tableSet t (f y) (g y)) acc) :
    q ∈ acc ∨ ∃ y ∈ L, q = (f y, g y) := by
  induction L generalizing acc with
  | nil => exact Or.inl h
  | cons x xs ih =>
    rw [List.foldl_cons] at h
    rcases ih _ h with h' | h'
    · rcases mem_tableSet _ _ _ _ h' with h'' | h''
      · exact Or.inl h''
      · exact Or.inr ⟨x, by simp, h''⟩
    · rcases h' with ⟨y, hy, hq⟩
      exact Or.inr ⟨y, by simp [hy], hq⟩

/-! ## Claim C5: effective conversion valuation -/

/-- C5.  Effective conversion valuation: for a SAFE or note converting against
a priced round with valuation `V`, the resolved valuation is
`min(cap, V*(1-discount/100))` when `cap > 0` and `discount > 0`;
`min(cap, V)` when `cap > 0` and `discount = 0` (a cap never produces a
valuation above the round's own valuation); `V*(1-discount/100)` when
`cap = 0` and `discount > 0`; and `V` when `cap = 0` and `discount = 0`. -/
theorem claim5_effective_valuation (events : List Event) (pr : PricedRound)
    (a : ℤ) (b : Option ℤ) :
    (∀ vs ∈ getSafesValuations events pr a b,
      (0 < vs.toSafe.valCap → 0 < vs.toSafe.discount →
        vs.valuation = min vs.toSafe.valCap
          (pr.valuation * (1 - vs.toSafe.discount / 100))) ∧
      (0 < vs.toSafe.valCap → vs.toSafe.discount = 0 →
        vs.valuation = min vs.toSafe.valCap pr.valuation) ∧
      (vs.toSafe.valCap = 0 → 0 < vs.toSafe.discount →
        vs.valuation = pr.valuation * (1 - vs.toSafe.discount / 100)) ∧
      (vs.toSafe.valCap = 0 → vs.toSafe.discount = 0 →
        vs.valuation = pr.valuation)) ∧
    (∀ vn ∈ getConvertibleNotesValuations events pr a b,
      (0 < vn.toNote.valCap → 0 < vn.toNote.discount →
        vn.valuation = min vn.toNote.valCap
          (pr.valuation * (1 - vn.toNote.discount / 100))) ∧
      (0 < vn.toNote.valCap → vn.toNote.discount = 0 →
        vn.valuation = min vn.toNote.valCap pr.valuation) ∧
      (vn.toNote.valCap = 0 → 0 < vn.toNote.discount →
        vn.valuation = pr.valuation * (1 - vn.toNote.discount / 100)) ∧
      (vn.toNote.valCap = 0 → vn.toNote.discount = 0 →
        vn.valuation = pr.valuation)) := by
  constructor
  · intro vs hvs
    simp only [getSafesValuations, List.mem_map] at hvs
    obtain ⟨s, _, rfl⟩ := hvs
    refine ⟨?_, ?_, ?_, ?_⟩
    · intro h1 h2
      simp only [if_pos (And.intro (ne_of_gt h1) (ne_of_gt h2))]
    · intro h1 h2
      rw [show (ValuedSafe.mk s _ _).toSafe = s from rfl] at h1 h2
      simp [ne_of_gt h1, h2]
    · intro h1 h2
      rw [show (ValuedSafe.mk s _ _).toSafe = s from rfl] at h1 h2
      simp [h1, ne_of_gt h2]
    · intro h1 h2
      rw [show (ValuedSafe.mk s _ _).toSafe = s from rfl] at h1 h2
      simp [h1, h2]
  · intro vn hvn
    simp only [getConvertibleNotesValuations, List.mem_map] at hvn
    obtain ⟨n, _, rfl⟩ := hvn
    refine ⟨?_, ?_, ?_, ?_⟩
    · intro h1 h2
      simp only [if_pos (And.intro (ne_of_gt h1) (ne_of_gt h2))]
    · intro h1 h2
      rw [show (ValuedNote.mk n _ _ _).toNote = n from rfl] at h1 h2
      simp [ne_of_gt h1, h2]
    · intro h1 h2
      rw [show (ValuedNote.mk n _ _ _).toNote = n from rfl] at h1 h2
      simp [h1, ne_of_gt h2]
    · intro h1 h2
      rw [show (ValuedNote.mk n _ _ _).toNote = n from rfl] at h1 h2
      simp [h1, h2]

/-- C4.  MFN resolution: every instrument flagged `mfn` has its resolved
valuation replaced by the minimum pre-MFN effective valuation among cohort
SAFEs and notes together whose original event index is strictly later,
whenever some such later instrument has a lower valuation; otherwise (no
strictly-later peer, or none lower) its valuation is unchanged.  Instruments
not flagged `mfn` always keep their own resolved valuation — earlier
favourable terms never flow forward to later instruments. -/

theorem getSafesWithMFN_get? (safes : List ValuedSafe) (notes : List ValuedNote)
    (i : ℕ) (s : ValuedSafe) (hs : safes.get? i = some s) :
    (getSafesWithMFN safes notes).get? i = some (
      if s.toSafe.mfn = false then s
      else if (laterValuationsOfSafe safes notes s).isEmpty then s
      else { s with valuation := jsReduceMin s.valuation (laterValuationsOfSafe safes notes s) }) := by
  rw [getSafesWithMFN, List.get?_map, hs, Option.map_some']
  by_cases hmfn : s.toSafe.mfn
  · by_cases he : (laterValuationsOfSafe safes notes s).isEmpty
    · have hnil : laterValuationsOfSafe safes notes s = [] := by
        simpa [List.isEmpty_iff] using he
      have hnil' := hnil
      rw [laterValuationsOfSafe] at hnil'
      simp [hmfn, hnil, hnil']
    · simp [hmfn, he, laterValuationsOfSafe, jsReduceMin]
  · simp [hmfn]

theorem getConvertibleNotesWithMFN_get? (notes : List ValuedNote) (safes : List ValuedSafe)
    (i : ℕ) (n : ValuedNote) (hn : notes.get? i = some n) :
    (getConvertibleNotesWithMFN notes safes).get? i = some (
      if n.toNote.mfn = false then n
      else if (laterValuationsOfNote notes safes n).isEmpty then n
      else { n with valuation := jsReduceMin n.valuation (laterValuationsOfNote notes safes n) }) := by
  rw [getConvertibleNotesWithMFN, List.get?_map, hn, Option.map_some']
  by_cases hmfn : n.toNote.mfn
  · by_cases he : (laterValuationsOfNote notes safes n).isEmpty
    · have hnil : laterValuationsOfNote notes safes n = [] := by
        simpa [List.isEmpty_iff] using he
      have hnil' := hnil
      rw [laterValuationsOfNote] at hnil'
      simp [hmfn, hnil, hnil']
    · simp [hmfn, he, laterValuationsOfNote, jsReduceMin]
  · simp [hmfn]

/-- C4.  MFN resolution: every instrument flagged `mfn` has its resolved
valuation replaced by the minimum pre-MFN effective valuation among cohort
SAFEs and notes together whose original event index is strictly later,
whenever some such later instrument has a lower valuation; otherwise (no
strictly-later peer, or none lower) its valuation is unchanged.  Instruments
not flagged `mfn` always keep their own resolved valuation — earlier
favourable terms never flow forward to later instruments. -/
theorem claim4_mfn_resolution (safes : List ValuedSafe) (notes : List ValuedNote) :
    (∀ i s, safes.get? i = some s →
      ∃ out, (getSafesWithMFN safes notes).get? i = some out ∧
        out.toSafe = s.toSafe ∧ out.eventIndex = s.eventIndex ∧
        (s.toSafe.mfn = false → out.valuation = s.valuation) ∧
        (s.toSafe.mfn = true →
          ((∀ v ∈ laterValuationsOfSafe safes notes s, s.valuation ≤ v) →
            out.valuation = s.valuation) ∧
          (∀ m, m ∈ laterValuationsOfSafe safes notes s →
            (∀ v ∈ laterValuationsOfSafe safes notes s, m ≤ v) →
            m < s.valuation → out.valuation = m))) ∧
    (∀ i n, notes.get? i = some n →
      ∃ out, (getConvertibleNotesWithMFN notes safes).get? i = some out ∧
        out.toNote = n.toNote ∧ out.eventIndex = n.eventIndex ∧
        out.totalAmount = n.totalAmount ∧
        (n.toNote.mfn = false → out.valuation = n.valuation) ∧
        (n.toNote.mfn = true →
          ((∀ v ∈ laterValuationsOfNote notes safes n, n.valuation ≤ v) →
            out.valuation = n.valuation) ∧
          (∀ m, m ∈ laterValuationsOfNote notes safes n →
            (∀ v ∈ laterValuationsOfNote notes safes n, m ≤ v) →
            m < n.valuation → out.valuation = m))) := by
  constructor
  · intro i s hs
    refine ⟨_, getSafesWithMFN_get? safes notes i s hs, ?_, ?_, ?_, ?_⟩
    · split
      · rfl
      · split
        · rfl
        · rfl
    · split
      · rfl
      · split
        · rfl
        · rfl
    · intro hf
      simp [hf]
    · intro ht
      rw [if_neg (by simp [ht])]
      by_cases he : (laterValuationsOfSafe safes notes s).isEmpty
      · have hnil : laterValuationsOfSafe safes notes s = [] := by
          simpa [List.isEmpty_iff] using he
        refine ⟨fun _ => by simp [he], fun m hm _ _ => ?_⟩
        rw [hnil] at hm
        cases hm
      · rw [if_neg he]
        exact ⟨fun hall => jsReduceMin_eq_self hall,
          fun m hm hle hlt => jsReduceMin_eq_lowest hm hle hlt⟩
  · intro i n hn
    refine ⟨_, getConvertibleNotesWithMFN_get? notes safes i n hn, ?_, ?_, ?_, ?_, ?_⟩
    · split
      · rfl
      · split
        · rfl
        · rfl
    · split
      · rfl
      · split
        · rfl
        · rfl
    · split
      · rfl
      · split
        · rfl
        · rfl
    · intro hf
      simp [hf]
    · intro ht
      rw [if_neg (by simp [ht])]
      by_cases he : (laterValuationsOfNote notes safes n).isEmpty
      · have hnil : laterValuationsOfNote notes safes n = [] := by
          simpa [List.isEmpty_iff] using he
        refine ⟨fun _ => by simp [he], fun m hm _ _ => ?_⟩
        rw [hnil] at hm
        cases hm
      · rw [if_neg he]
        exact ⟨fun hall => jsReduceMin_eq_self hall,
          fun m hm hle hlt => jsReduceMin_eq_lowest hm hle hlt⟩

theorem claim5_witness :
    ∃ vs, vs ∈ getSafesValuations [Event.safe witSafeC5] witRoundC5 (-1) none ∧
      vs.valuation = min witSafeC5.valCap
        (witRoundC5.valuation * (1 - witSafeC5.discount / 100)) ∧
      vs.valuation = 5000000 := by
  have hlist : getSafesValuations [Event.safe witSafeC5] witRoundC5 (-1) none =
      [⟨witSafeC5, 5000000, 0⟩] := by
    simp [getSafesValuations, jsFindIndex, witSafeC5, witRoundC5, List.findIdx?, min_def]
    norm_num
  have hmem : (⟨witSafeC5, 5000000, 0⟩ : ValuedSafe) ∈
      getSafesValuations [Event.safe witSafeC5] witRoundC5 (-1) none := by
    rw [hlist]; exact List.mem_singleton_self _
  have h := ((claim5_effective_valuation [Event.safe witSafeC5] witRoundC5 (-1) none).1
    _ hmem).1 (by norm_num [witSafeC5]) (by norm_num [witSafeC5])
  exact ⟨_, hmem, h, by norm_num [witSafeC5, witRoundC5, min_def]⟩

theorem claim4_witness :
    ∃ out, (getSafesWithMFN [witSafeMFN, witSafeLater] []).get? 0 = some out ∧
      out.valuation = 5000000 := by
  obtain ⟨out, hout, -, -, -, hm⟩ :=
    (claim4_mfn_resolution [witSafeMFN, witSafeLater] []).1 0 witSafeMFN rfl
  refine ⟨out, hout, ?_⟩
  refine (hm rfl).2 5000000 ?_ ?_ ?_
  · simp [laterValuationsOfSafe, witSafeMFN, witSafeLater]
  · intro v hv
    simp only [laterValuationsOfSafe, witSafeMFN, witSafeLater] at hv
    norm_num at hv
    simp [hv]
  · norm_num [witSafeMFN]

@[simp] theorem totalShares_singleton (k : String) (v : ℚ) :
    getTableTotalShares [(k, v)] = v := by
  simp [getTableTotalShares]

theorem addTables_singleton (t : CapTable) (k : String) (v : ℚ) :
    addTables t [(k, v)] = tableSet t k (tableGet t k + v) := rfl

theorem nodup_tableKeys_foldl {α : Type} (l : List α) (step : CapTable → α → CapTable)
    (hstep : ∀ t x, (tableKeys t).Nodup → (tableKeys (step t x)).Nodup) :
    ∀ acc, (tableKeys acc).Nodup → (tableKeys (l.foldl step acc)).Nodup := by
  induction l with
  | nil => exact fun acc h => h
  | cons x xs ih => exact fun acc h => ih _ (hstep _ _ h)

theorem mem_tableKeys_foldl {α : Type} (l : List α) (step : CapTable → α → CapTable)
    (P : String → Prop)
    (hstep : ∀ t x q, x ∈ l → q ∈ tableKeys (step t x) → q ∈ tableKeys t ∨ P q) :
    ∀ acc q, q ∈ tableKeys (l.foldl step acc) → q ∈ tableKeys acc ∨ P q := by
  induction l with
  | nil => exact fun acc q h => Or.inl h
  | cons x xs ih =>
    intro acc q h
    rcases ih (fun t y r hy hr => hstep t y r (List.mem_cons_of_mem _ hy) hr) _ q h with
      h' | h'
    · exact hstep _ _ _ (List.mem_cons_self _ _) h'
    · exact Or.inr h'

theorem nodup_branch {t : CapTable} (hN : (tableKeys t).Nodup) {nm : String} {sh : ℚ}
    {c1 c2 : Prop} [Decidable c1] [Decidable c2] :
    (tableKeys (if c1 then t else if c2 then addTables t [(nm, sh)] else t)).Nodup := by
  split
  · exact hN
  · split
    · rw [addTables_singleton]
      exact nodup_tableKeys_set _ _ hN
    · exact hN

theorem nodup_tableKeys_getProRatas (current : CapTable) (event : PricedRound)
    (newShares total : ℚ) (first : Bool) (allEvents : List Event) :
    (tableKeys (getProRatas current event newShares total first allEvents)).Nodup := by
  rw [getProRatas]
  refine nodup_tableKeys_foldl _ _ ?_ [] (by simp [tableKeys])
  intro t e hN
  rcases e with s | n | p | o | a
  · cases first
    · exact hN
    · exact nodup_branch hN
  · cases first
    · exact hN
    · exact nodup_branch hN
  · exact nodup_branch hN
  · exact hN
  · exact hN

theorem mem_tableKeys_getProRatas (current : CapTable) (event : PricedRound)
    (newShares total : ℚ) (first : Bool) (allEvents : List Event) (q : String)
    (h : q ∈ tableKeys (getProRatas current event newShares total first allEvents)) :
    (∃ e ∈ allEvents, eventName? e = some q) ∧ tableGet current q ≠ 0 := by
  rw [getProRatas] at h
  have key : ∀ (t : CapTable) (e : Event) (nm : String) (flag : Bool) (r : String),
      e ∈ allEvents →
      eventName? e = some nm →
      r ∈ tableKeys (if flag = false ∨ tableGet current nm = 0 ∨ nm = event.name then t
        else if newShares * (tableGet current nm / total) ≠ 0 ∧
            event.participations.contains nm then
          addTables t [(nm, newShares * (tableGet current nm / total))]
        else t) →
      r ∈ tableKeys t ∨
        (∃ e' ∈ allEvents, eventName? e' = some r) ∧ tableGet current r ≠ 0 := by
    intro t e nm flag r he hnm hmem
    by_cases hc : flag = false ∨ tableGet current nm = 0 ∨ nm = event.name
    · rw [if_pos hc] at hmem
      exact Or.inl hmem
    · rw [if_neg hc] at hmem
      by_cases hc2 : newShares * (tableGet current nm / total) ≠ 0 ∧
          event.participations.contains nm = true
      · rw [if_pos hc2, addTables_singleton] at hmem
        rcases (mem_tableKeys_set _ _ _ _).mp hmem with hm | rfl
        · exact Or.inl hm
        · push_neg at hc
          exact Or.inr ⟨⟨e, he, hnm⟩, hc.2.1⟩
      · rw [if_neg hc2] at hmem
        exact Or.inl hmem
  have hstep : ∀ (t : CapTable) (e : Event) (r : String), e ∈ allEvents →
      r ∈ tableKeys ((fun proRatas e =>
        let info : Option (String × Bool) :=
          match e with
          | Event.priced p => some (p.name, p.proRata)
          | Event.safe s => if first then some (s.name, s.proRata) else none
          | Event.convertible n => if first then some (n.name, n.proRata) else none
          | _ => none
        match info with
        | none => proRatas
        | some (nm, flag) =>
          if flag = false ∨ tableGet current nm = 0 ∨ nm = event.name then proRatas
          else
            let shares := newShares * (tableGet current nm / total)
            if shares ≠ 0 ∧ event.participations.contains nm then
              addTables proRatas [(nm, shares)]
            else proRatas) t e) →
      r ∈ tableKeys t ∨
        (∃ e' ∈ allEvents, eventName? e' = some r) ∧ tableGet current r ≠ 0 := by
    intro t e r he hr
    rcases e with s | n | p | o | a
    · cases first
      · exact Or.inl hr
      · exact key t (Event.safe s) s.name s.proRata r he rfl hr
    · cases first
      · exact Or.inl hr
      · exact key t (Event.convertible n) n.name n.proRata r he rfl hr
    · exact key t (Event.priced p) p.name p.proRata r he rfl hr
    · exact Or.inl hr
    · exact Or.inl hr
  rcases mem_tableKeys_foldl _ _
    (fun r => (∃ e ∈ allEvents, eventName? e = some r) ∧ tableGet current r ≠ 0)
    hstep [] q h with h' | h'
  · simp [tableKeys] at h'
  · exact h'

theorem map_name_getSafesWithMFN (s : List ValuedSafe) (n : List ValuedNote) :
    (getSafesWithMFN s n).map (fun x => x.toSafe.name) =
      s.map (fun x => x.toSafe.name) := by
  rw [getSafesWithMFN, List.map_map]
  refine List.map_congr_left ?_
  intro x _
  dsimp only [Function.comp]
  split
  · rfl
  · split
    · rfl
    · rfl

theorem map_name_getConvertibleNotesWithMFN (n : List ValuedNote) (s : List ValuedSafe) :
    (getConvertibleNotesWithMFN n s).map (fun x => x.toNote.name) =
      n.map (fun x => x.toNote.name) := by
  rw [getConvertibleNotesWithMFN, List.map_map]
  refine List.map_congr_left ?_
  intro x _
  dsimp only [Function.comp]
  split
  · rfl
  · split
    · rfl
    · rfl

theorem map_name_getSafesValuations (events : List Event) (pr : PricedRound)
    (a : ℤ) (b : Option ℤ) :
    (getSafesValuations events pr a b).map (fun x => x.toSafe.name) =
      (events.enum.filterMap (fun p =>
        match p.2 with
        | Event.safe s =>
            if a < (p.1 : ℤ) ∧ (p.1 : ℤ) ≤ b.getD ((events.length : ℤ) - 1) then some s
            else none
        | _ => none)).map Safe.name := by
  rw [getSafesValuations, List.map_map]
  rfl

theorem map_name_getConvertibleNotesValuations (events : List Event) (pr : PricedRound)
    (a : ℤ) (b : Option ℤ) :
    (getConvertibleNotesValuations events pr a b).map (fun x => x.toNote.name) =
      (events.enum.filterMap (fun p =>
        match p.2 with
        | Event.convertible n =>
            if a < (p.1 : ℤ) ∧ (p.1 : ℤ) ≤ b.getD ((events.length : ℤ) - 1) then some n
            else none
        | _ => none)).map ConvertibleNote.name := by
  rw [getConvertibleNotesValuations, List.map_map]
  rfl

theorem mem_map_name_safeRange (events : List Event) (a : ℤ) (b : Option ℤ) (q : String) :
    q ∈ (events.enum.filterMap (fun p =>
        match p.2 with
        | Event.safe s =>
            if a < (p.1 : ℤ) ∧ (p.1 : ℤ) ≤ b.getD ((events.length : ℤ) - 1) then some s
            else none
        | _ => none)).map Safe.name ↔
      ∃ j s, events.get? j = some (Event.safe s) ∧ s.name = q ∧
        a < (j : ℤ) ∧ (j : ℤ) ≤ b.getD ((events.length : ℤ) - 1) := by
  rw [List.mem_map]
  constructor
  · rintro ⟨s, hs, rfl⟩
    rw [List.mem_filterMap] at hs
    obtain ⟨⟨j, e⟩, hmem, hF⟩ := hs
    have hje : events.get? j = some e := by
      simpa using List.mem_enum_iff_get?.mp hmem
    rcases e with s' | n' | p' | o' | a' <;> simp only at hF
    · split at hF
      · rename_i hrange
        injection hF with hF'
        subst hF'
        exact ⟨j, _, hje, rfl, hrange.1, hrange.2⟩
      · cases hF
    · cases hF
    · cases hF
    · cases hF
    · cases hF
  · rintro ⟨j, s, hje, rfl, h1, h2⟩
    refine ⟨s, ?_, rfl⟩
    rw [List.mem_filterMap]
    refine ⟨(j, Event.safe s), List.mem_enum_iff_get?.mpr (by simpa using hje), ?_⟩
    simp only [if_pos (And.intro h1 h2)]

theorem mem_map_name_noteRange (events : List Event) (a : ℤ) (b : Option ℤ) (q : String) :
    q ∈ (events.enum.filterMap (fun p =>
        match p.2 with
        | Event.convertible n =>
            if a < (p.1 : ℤ) ∧ (p.1 : ℤ) ≤ b.getD ((events.length : ℤ) - 1) then some n
            else none
        | _ => none)).map ConvertibleNote.name ↔
      ∃ j n, events.get? j = some (Event.convertible n) ∧ n.name = q ∧
        a < (j : ℤ) ∧ (j : ℤ) ≤ b.getD ((events.length : ℤ) - 1) := by
  rw [List.mem_map]
  constructor
  · rintro ⟨n, hn, rfl⟩
    rw [List.mem_filterMap] at hn
    obtain ⟨⟨j, e⟩, hmem, hF⟩ := hn
    have hje : events.get? j = some e := by
      simpa using List.mem_enum_iff_get?.mp hmem
    rcases e with s' | n' | p' | o' | a' <;> simp only at hF
    · cases hF
    · split at hF
      · rename_i hrange
        injection hF with hF'
        subst hF'
        exact ⟨j, _, hje, rfl, hrange.1, hrange.2⟩
      · cases hF
    · cases hF
    · cases hF
    · cases hF
  · rintro ⟨j, n, hje, rfl, h1, h2⟩
    refine ⟨n, ?_, rfl⟩
    rw [List.mem_filterMap]
    refine ⟨(j, Event.convertible n), List.mem_enum_iff_get?.mpr (by simpa using hje), ?_⟩
    simp only [if_pos (And.intro h1 h2)]

theorem mem_tableKeys_getSafesWithNotes (events : List Event) (pr : PricedRound)
    (T : ℚ) (a : ℤ) (b : Option ℤ) (q : String) :
    q ∈ tableKeys (getSafesWithNotes events pr T a b) ↔
      ∃ j s, events.get? j = some (Event.safe s) ∧ s.name = q ∧
        a < (j : ℤ) ∧ (j : ℤ) ≤ b.getD ((events.length : ℤ) - 1) := by
  simp only [getSafesWithNotes]
  rw [mem_tableKeys_foldl_tableSet]
  rw [show ((getSafesWithMFN (getSafesValuations events pr a b)
      (getConvertibleNotesValuations events pr a b)).map fun x => x.toSafe.name) =
      _ from map_name_getSafesWithMFN _ _,
    map_name_getSafesValuations]
  rw [mem_map_name_safeRange]
  simp [tableKeys]

theorem mem_tableKeys_getConvertibleNotes (events : List Event) (pr : PricedRound)
    (T : ℚ) (a : ℤ) (b : Option ℤ) (q : String) :
    q ∈ tableKeys (getConvertibleNotes events pr T a b) ↔
      ∃ j n, events.get? j = some (Event.convertible n) ∧ n.name = q ∧
        a < (j : ℤ) ∧ (j : ℤ) ≤ b.getD ((events.length : ℤ) - 1) := by
  simp only [getConvertibleNotes]
  rw [mem_tableKeys_foldl_tableSet]
  rw [show ((getConvertibleNotesWithMFN (getConvertibleNotesValuations events pr a b)
      (getSafesValuations events pr a b)).map fun x => x.toNote.name) =
      _ from map_name_getConvertibleNotesWithMFN _ _,
    map_name_getConvertibleNotesValuations]
  rw [mem_map_name_noteRange]
  simp [tableKeys]

theorem nodup_tableKeys_getSafesWithNotes (events : List Event) (pr : PricedRound)
    (T : ℚ) (a : ℤ) (b : Option ℤ) :
    (tableKeys (getSafesWithNotes events pr T a b)).Nodup := by
  simp only [getSafesWithNotes]
  exact nodup_tableKeys_foldl_tableSet _ _ _ [] (by simp [tableKeys])

theorem nodup_tableKeys_getConvertibleNotes (events : List Event) (pr : PricedRound)
    (T : ℚ) (a : ℤ) (b : Option ℤ) :
    (tableKeys (getConvertibleNotes events pr T a b)).Nodup := by
  simp only [getConvertibleNotes]
  exact nodup_tableKeys_foldl_tableSet _ _ _ [] (by simp [tableKeys])

theorem totalShares_priced_assembly (prev sT nT pRT : CapTable) (nO mis : ℚ)
    (nm : String) (hprev : (tableKeys prev).Nodup) :
    getTableTotalShares (addTables prev (addTables (addTables (addTables (addTables
      (addTables [] sT) nT) pRT) [(AVAILABLE_OPTIONS_LABEL, nO)]) [(nm, mis)])) =
    getTableTotalShares prev + getTableTotalShares sT + getTableTotalShares nT +
      getTableTotalShares pRT + nO + mis := by
  have e0 : (tableKeys ([] : CapTable)).Nodup := by simp [tableKeys]
  have h1 := nodup_tableKeys_addTables sT e0
  have h2 := nodup_tableKeys_addTables nT h1
  have h3 := nodup_tableKeys_addTables pRT h2
  have h4 := nodup_tableKeys_addTables [(AVAILABLE_OPTIONS_LABEL, nO)] h3
  rw [totalShares_addTables _ hprev, totalShares_addTables _ h4,
    totalShares_addTables _ h3, totalShares_addTables _ h2,
    totalShares_addTables _ h1, totalShares_addTables _ e0]
  simp [getTableTotalShares]
  ring

theorem totalShares_getNewTable_priced (allEvents : List Event) (ev : PricedRound)
    (prev : CapTable) (L i : ℤ) (hN : (tableKeys prev).Nodup) :
    getTableTotalShares (getNewTable allEvents (Event.priced ev) prev L i) =
      (if ev.options ≠ 0 then
        (tableGet prev AVAILABLE_OPTIONS_LABEL +
          getNewOptions
            (getTableTotalShares (addTables (addTables ([] : CapTable)
              (getSafesWithNotes allEvents ev (getTableTotalShares prev) L (some i)))
              (getConvertibleNotes allEvents ev (getTableTotalShares prev) L (some i))) +
              getTableTotalShares prev)
            (ev.options / 100) (tableGet prev AVAILABLE_OPTIONS_LABEL)
            ev.amount (ev.valuation - ev.amount)) / (ev.options / 100)
      else
        (getTableTotalShares (addTables (addTables ([] : CapTable)
          (getSafesWithNotes allEvents ev (getTableTotalShares prev) L (some i)))
          (getConvertibleNotes allEvents ev (getTableTotalShares prev) L (some i))) +
          getTableTotalShares prev) / (1 - ev.amount / ev.valuation)) := by
  simp only [getNewTable]
  rw [totalShares_priced_assembly _ _ _ _ _ _ _ hN]
  have e0 : (tableKeys ([] : CapTable)).Nodup := by simp [tableKeys]
  have h1 := nodup_tableKeys_addTables
    (getSafesWithNotes allEvents ev (getTableTotalShares prev) L (some i)) e0
  rw [totalShares_addTables _ h1, totalShares_addTables _ e0]
  by_cases hc : ev.options ≠ 0
  · simp only [if_pos hc, getTableTotalShares, List.map_nil, List.sum_nil]
    ring
  · simp only [if_neg hc, getTableTotalShares, List.map_nil, List.sum_nil]
    ring

theorem tableGet_AVAILABLE_getNewTable_priced (allEvents : List Event)
    (ev : PricedRound) (prev : CapTable) (L i : ℤ)
    (hfresh : ∀ e ∈ allEvents, eventName? e ≠ some AVAILABLE_OPTIONS_LABEL)
    (hev : ev.name ≠ AVAILABLE_OPTIONS_LABEL) :
    tableGet (getNewTable allEvents (Event.priced ev) prev L i)
        AVAILABLE_OPTIONS_LABEL =
      tableGet prev AVAILABLE_OPTIONS_LABEL +
        (if ev.options ≠ 0 then
          getNewOptions
            (getTableTotalShares (addTables (addTables ([] : CapTable)
              (getSafesWithNotes allEvents ev (getTableTotalShares prev) L (some i)))
              (getConvertibleNotes allEvents ev (getTableTotalShares prev) L (some i))) +
              getTableTotalShares prev)
            (ev.options / 100) (tableGet prev AVAILABLE_OPTIONS_LABEL)
            ev.amount (ev.valuation - ev.amount)
        else 0) := by
  have hsT : AVAILABLE_OPTIONS_LABEL ∉ tableKeys
      (getSafesWithNotes allEvents ev (getTableTotalShares prev) L (some i)) := by
    intro hmem
    obtain ⟨j, s, hje, hname, -, -⟩ :=
      (mem_tableKeys_getSafesWithNotes _ _ _ _ _ _).mp hmem
    exact hfresh _ (List.get?_mem hje) (by simp [eventName?, hname])
  have hnT : AVAILABLE_OPTIONS_LABEL ∉ tableKeys
      (getConvertibleNotes allEvents ev (getTableTotalShares prev) L (some i)) := by
    intro hmem
    obtain ⟨j, n, hje, hname, -, -⟩ :=
      (mem_tableKeys_getConvertibleNotes _ _ _ _ _ _).mp hmem
    exact hfresh _ (List.get?_mem hje) (by simp [eventName?, hname])
  simp only [getNewTable]
  have e0 : (tableKeys ([] : CapTable)).Nodup := by simp [tableKeys]
  have h1 := nodup_tableKeys_addTables
    (getSafesWithNotes allEvents ev (getTableTotalShares prev) L (some i)) e0
  have h2 := nodup_tableKeys_addTables
    (getConvertibleNotes allEvents ev (getTableTotalShares prev) L (some i)) h1
  have hPRn : ∀ (cur : CapTable) (ns tot : ℚ) (fb : Bool),
      (tableKeys (getProRatas cur ev ns tot fb allEvents)).Nodup :=
    fun cur ns tot fb => nodup_tableKeys_getProRatas cur ev ns tot fb allEvents
  have hPR0 : ∀ (cur : CapTable) (ns tot : ℚ) (fb : Bool),
      tableGet (getProRatas cur ev ns tot fb allEvents) AVAILABLE_OPTIONS_LABEL = 0 := by
    intro cur ns tot fb
    apply tableGet_eq_zero_of_not_mem
    intro hmem
    obtain ⟨⟨e, he, hname⟩, -⟩ := mem_tableKeys_getProRatas _ _ _ _ _ _ _ hmem
    exact hfresh e he hname
  have hsingle : ∀ v : ℚ, tableGet [(ev.name, v)] AVAILABLE_OPTIONS_LABEL = 0 := by
    intro v
    refine tableGet_eq_zero_of_not_mem ?_
    simp only [tableKeys, List.map_cons, List.map_nil, List.mem_singleton]
    exact fun hh => hev hh.symm
  rw [tableGet_addTables _ _ (by
    refine nodup_tableKeys_addTables _ ?_
    refine nodup_tableKeys_addTables _ ?_
    refine nodup_tableKeys_addTables _ ?_
    exact h2)]
  rw [tableGet_addTables _ _ (by simp [tableKeys])]
  rw [tableGet_addTables _ _ (by simp [tableKeys])]
  rw [tableGet_addTables _ _ (hPRn _ _ _ _)]
  rw [tableGet_addTables _ _ (nodup_tableKeys_getConvertibleNotes _ _ _ _ _)]
  rw [tableGet_addTables _ _ (nodup_tableKeys_getSafesWithNotes _ _ _ _ _)]
  rw [tableGet_eq_zero_of_not_mem hsT, tableGet_eq_zero_of_not_mem hnT]
  rw [hPR0, hsingle]
  by_cases hc : ev.options ≠ 0
  · simp only [if_pos hc]
    simp [tableGet]
  · simp only [if_neg hc]
    simp [tableGet]

/-! ## Claim C3: option-pool sizing -/

/-- C3.  Option pool sizing: at a priced round with target pool fraction
`f = options/100 > 0`, investment `I`, pre-money `P = valuation - I`, existing
available pool `E`, and current shares `S` (including this round's
conversions), the new pool shares `O` produced by `getNewOptions` equal
`[ (S/k)(1 + I/P) - E/(1-f) ] / [ 1 - I/(P*k) ]` with `k = 1/f - 1`, and the
post-round total equals `(E + O) / f`; when the round sets no pool target,
the post-round total equals `currentTotal / (1 - I/valuation)` and `O = 0`
(the available pool is unchanged). -/
theorem claim3_option_pool_sizing (allEvents : List Event) (ev : PricedRound)
    (prev : CapTable) (L i : ℤ)
    (hN : (tableKeys prev).Nodup)
    (hfresh : ∀ e ∈ allEvents, eventName? e ≠ some AVAILABLE_OPTIONS_LABEL)
    (hev : ev.name ≠ AVAILABLE_OPTIONS_LABEL) :
    (∀ S f E I P : ℚ,
      getNewOptions S f E I P =
        ((S / (1 / f - 1)) * (1 + I / P) - E / (1 - f)) /
          (1 - I / (P * (1 / f - 1)))) ∧
    (0 < ev.options →
      getTableTotalShares (getNewTable allEvents (Event.priced ev) prev L i) =
        (tableGet prev AVAILABLE_OPTIONS_LABEL +
          getNewOptions
            (getTableTotalShares (addTables (addTables ([] : CapTable)
              (getSafesWithNotes allEvents ev (getTableTotalShares prev) L (some i)))
              (getConvertibleNotes allEvents ev (getTableTotalShares prev) L (some i))) +
              getTableTotalShares prev)
            (ev.options / 100) (tableGet prev AVAILABLE_OPTIONS_LABEL)
            ev.amount (ev.valuation - ev.amount)) / (ev.options / 100) ∧
      tableGet (getNewTable allEvents (Event.priced ev) prev L i)
          AVAILABLE_OPTIONS_LABEL =
        tableGet prev AVAILABLE_OPTIONS_LABEL +
          getNewOptions
            (getTableTotalShares (addTables (addTables ([] : CapTable)
              (getSafesWithNotes allEvents ev (getTableTotalShares prev) L (some i)))
              (getConvertibleNotes allEvents ev (getTableTotalShares prev) L (some i))) +
              getTableTotalShares prev)
            (ev.options / 100) (tableGet prev AVAILABLE_OPTIONS_LABEL)
            ev.amount (ev.valuation - ev.amount)) ∧
    (ev.options = 0 →
      getTableTotalShares (getNewTable allEvents (Event.priced ev) prev L i) =
        (getTableTotalShares (addTables (addTables ([] : CapTable)
          (getSafesWithNotes allEvents ev (getTableTotalShares prev) L (some i)))
          (getConvertibleNotes allEvents ev (getTableTotalShares prev) L (some i))) +
          getTableTotalShares prev) / (1 - ev.amount / ev.valuation) ∧
      tableGet (getNewTable allEvents (Event.priced ev) prev L i)
          AVAILABLE_OPTIONS_LABEL =
        tableGet prev AVAILABLE_OPTIONS_LABEL) := by
  refine ⟨fun S f E I P => rfl, ?_, ?_⟩
  · intro hopt
    have hne : ev.options ≠ 0 := ne_of_gt hopt
    constructor
    · rw [totalShares_getNewTable_priced allEvents ev prev L i hN, if_pos hne]
    · rw [tableGet_AVAILABLE_getNewTable_priced allEvents ev prev L i hfresh hev,
        if_pos hne]
  · intro hopt
    have hne : ¬ ev.options ≠ 0 := by simp [hopt]
    constructor
    · rw [totalShares_getNewTable_priced allEvents ev prev L i hN, if_neg hne]
    · rw [tableGet_AVAILABLE_getNewTable_priced allEvents ev prev L i hfresh hev,
        if_neg hne]
      ring

theorem claim3_witness :
    getTableTotalShares (getNewTable [Event.priced witRoundPool]
      (Event.priced witRoundPool) [("Founder", 10000000)] (-1) 0) = 100000000 / 7 := by
  have h := (claim3_option_pool_sizing [Event.priced witRoundPool] witRoundPool
    [("Founder", 10000000)] (-1) 0
    (by simp [tableKeys])
    (by
      intro e he
      simp only [List.mem_singleton] at he
      subst he
      simp [eventName?, witRoundPool, AVAILABLE_OPTIONS_LABEL])
    (by simp [witRoundPool, AVAILABLE_OPTIONS_LABEL])).2.1
    (by norm_num [witRoundPool])
  rw [h.1]
  have hs : getSafesWithNotes [Event.priced witRoundPool] witRoundPool
      (getTableTotalShares [("Founder", 10000000)]) (-1) (some 0) = [] := rfl
  have hn : getConvertibleNotes [Event.priced witRoundPool] witRoundPool
      (getTableTotalShares [("Founder", 10000000)]) (-1) (some 0) = [] := rfl
  rw [hs, hn]
  have hne : ¬ ("Founder" = "Available") := by decide
  norm_num [addTables, getTableTotalShares, tableGet, getNewOptions,
    witRoundPool, AVAILABLE_OPTIONS_LABEL, hne]

/-! ## Claim C8: option-grant gating -/

/-- C8.  Option-grant gating: an options-action event's grant of `g` percent
is applied if and only if `g/100` is at most the available-pool fraction
(existing available pool plus this event's new reserve, divided by the current
total) rounded to 2 decimal places; when applied it moves exactly
`(total + newReserve) * g/100` shares from the available-pool key to the
grant recipient's key; when the check fails the grant is silently skipped and
the event contributes only its reserve portion (no error is raised — the
function is total and just returns the reserve-only table). -/
theorem claim8_option_grant_gating (current : CapTable) (event : OptionsEvent)
    (total : ℚ) (hg : event.grantName ≠ AVAILABLE_OPTIONS_LABEL) :
    (let newReserve :=
      if event.reserved ≠ 0 then
        ((event.reserved / 100) * total) / (1 - event.reserved / 100)
      else 0
     let grantLabel :=
      if event.grantName = "" then EMPLOYEE_OPTIONS_LABEL else event.grantName
     (event.amount ≠ 0 ∧ event.amount / 100 ≤
        toFixed2 ((tableGet current AVAILABLE_OPTIONS_LABEL + newReserve) / total) →
      tableGet (getOptions current event total) grantLabel =
        (total + newReserve) * (event.amount / 100) ∧
      tableGet (getOptions current event total) AVAILABLE_OPTIONS_LABEL =
        newReserve - (total + newReserve) * (event.amount / 100)) ∧
     (¬ (event.amount ≠ 0 ∧ event.amount / 100 ≤
        toFixed2 ((tableGet current AVAILABLE_OPTIONS_LABEL + newReserve) / total)) →
      tableGet (getOptions current event total) grantLabel = 0 ∧
      tableGet (getOptions current event total) AVAILABLE_OPTIONS_LABEL =
        newReserve)) := by
  intro newReserve grantLabel
  have hgl : grantLabel ≠ AVAILABLE_OPTIONS_LABEL := by
    by_cases he : event.grantName = ""
    · show (if event.grantName = "" then EMPLOYEE_OPTIONS_LABEL else event.grantName) ≠ _
      rw [if_pos he]
      decide
    · show (if event.grantName = "" then EMPLOYEE_OPTIONS_LABEL else event.grantName) ≠ _
      rw [if_neg he]
      exact hg
  have hopts1 : ∀ k : String,
      tableGet (if event.reserved ≠ 0 then
        tableSet ([] : CapTable) AVAILABLE_OPTIONS_LABEL
          (((event.reserved / 100) * total) / (1 - event.reserved / 100))
      else ([] : CapTable)) k =
      (if k = AVAILABLE_OPTIONS_LABEL then newReserve else 0) := by
    intro k
    by_cases hr : event.reserved ≠ 0
    · rw [if_pos hr]
      by_cases hk : k = AVAILABLE_OPTIONS_LABEL
      · subst hk
        rw [tableGet_set_self, if_pos rfl]
        show _ = newReserve
        simp only [newReserve, if_pos hr]
      · rw [tableGet_set_ne _ _ _ _ hk, if_neg hk, tableGet_nil]
    · rw [if_neg hr]
      by_cases hk : k = AVAILABLE_OPTIONS_LABEL
      · subst hk
        rw [tableGet_nil, if_pos rfl]
        show (0 : ℚ) = newReserve
        simp only [newReserve, if_neg hr]
      · rw [tableGet_nil, if_neg hk]
  rw [getOptions]
  dsimp only
  constructor
  · rintro ⟨ha, hcheck⟩
    rw [if_pos ha]
    rw [if_pos (by rw [hopts1, if_pos rfl]; exact hcheck)]
    constructor
    · rw [tableGet_set_ne _ _ _ _ hgl, tableGet_set_self,
        hopts1, if_neg hgl, hopts1, if_pos rfl]
      ring
    · rw [tableGet_set_self, tableGet_set_ne _ _ _ _ (fun hh => hgl hh.symm),
        hopts1, if_pos rfl]
  · intro hno
    by_cases ha : event.amount ≠ 0
    · have hcheck : ¬ event.amount / 100 ≤
          toFixed2 ((tableGet current AVAILABLE_OPTIONS_LABEL + newReserve) / total) :=
        fun hc => hno ⟨ha, hc⟩
      rw [if_pos ha]
      rw [if_neg (by rw [hopts1, if_pos rfl]; exact hcheck)]
      constructor
      · rw [hopts1, if_neg hgl]
      · rw [hopts1, if_pos rfl]
    · rw [if_neg ha]
      constructor
      · rw [hopts1, if_neg hgl]
      · rw [hopts1, if_pos rfl]

theorem claim8_witness :
    tableGet (getOptions [("Founder", 10000000), ("Available", 2500000)]
      witGrantEvent 12500000) "Team" = 1875000 ∧
    tableGet (getOptions [("Founder", 10000000), ("Available", 2500000)]
      witGrantEvent 12500000) "Available" = -1875000 := by
  have hget : tableGet [("Founder", (10000000 : ℚ)), ("Available", 2500000)]
      AVAILABLE_OPTIONS_LABEL = 2500000 := by
    simp [tableGet, AVAILABLE_OPTIONS_LABEL]
  obtain ⟨h1, -⟩ := claim8_option_grant_gating
    [("Founder", 10000000), ("Available", 2500000)] witGrantEvent 12500000
    (by simp [witGrantEvent, AVAILABLE_OPTIONS_LABEL])
  have happ := h1 ⟨by norm_num [witGrantEvent], by
    rw [hget]
    norm_num [witGrantEvent, toFixed2, round_eq]⟩
  obtain ⟨ha, hb⟩ := happ
  constructor
  · show tableGet (getOptions [("Founder", 10000000), ("Available", 2500000)]
      witGrantEvent 12500000)
      (if witGrantEvent.grantName = "" then EMPLOYEE_OPTIONS_LABEL
        else witGrantEvent.grantName) = 1875000
    rw [ha]
    norm_num [witGrantEvent]
  · show tableGet (getOptions [("Founder", 10000000), ("Available", 2500000)]
      witGrantEvent 12500000) AVAILABLE_OPTIONS_LABEL = -1875000
    rw [hb]
    norm_num [witGrantEvent]

theorem safesDilutionSum_eq_sum (l : List ValuedSafe) :
    safesDilutionSum l = (l.map (fun s => s.toSafe.amount / s.valuation)).sum := by
  rw [safesDilutionSum, foldl_add_map, zero_add]

theorem notesDilutionSum_eq_sum (l : List ValuedNote) :
    notesDilutionSum l = (l.map (fun n => n.totalAmount / n.valuation)).sum := by
  rw [notesDilutionSum, foldl_add_map, zero_add]

theorem tableGet_map_of_nodup {α : Type} (L : List α) (f : α → String) (g : α → ℚ)
    (hN : (L.map f).Nodup) (x : α) (hx : x ∈ L) :
    tableGet (L.map (fun y => (f y, g y))) (f x) = g x := by
  induction L with
  | nil => cases hx
  | cons y ys ih =>
    simp only [List.map_cons, List.nodup_cons] at hN
    rcases List.mem_cons.mp hx with rfl | hx'
    · simp [tableGet_cons]
    · have hne : ¬ f y = f x := fun hh => hN.1 (hh ▸ List.mem_map_of_mem f hx')
      rw [List.map_cons, tableGet_cons, if_neg hne]
      exact ih hN.2 hx'

theorem totalShares_map {α : Type} (L : List α) (f : α → String) (g : α → ℚ) :
    getTableTotalShares (L.map (fun y => (f y, g y))) = (L.map g).sum := by
  rw [getTableTotalShares, List.map_map]
  rfl

theorem getSafesWithNotes_eq_map (events : List Event) (pr : PricedRound) (T : ℚ)
    (a : ℤ) (b : Option ℤ)
    (hNs : ((cohortSafes events pr a b).map (fun s => s.toSafe.name)).Nodup) :
    getSafesWithNotes events pr T a b =
      (cohortSafes events pr a b).map (fun s =>
        (s.toSafe.name,
          (T / (1 - min (safesDilutionSum (cohortSafes events pr a b) +
              notesDilutionSum (cohortNotes events pr a b)) (0.999 : ℚ))) *
            ((s.toSafe.amount / s.valuation) *
              (min (safesDilutionSum (cohortSafes events pr a b) +
                  notesDilutionSum (cohortNotes events pr a b)) (0.999 : ℚ) /
                jsOr (safesDilutionSum (cohortSafes events pr a b) +
                  notesDilutionSum (cohortNotes events pr a b)) 1)))) := by
  have h := foldl_tableSet_eq_append (cohortSafes events pr a b)
    (fun s => s.toSafe.name)
    (fun s =>
      (T / (1 - min (safesDilutionSum (cohortSafes events pr a b) +
          notesDilutionSum (cohortNotes events pr a b)) (0.999 : ℚ))) *
        ((s.toSafe.amount / s.valuation) *
          (min (safesDilutionSum (cohortSafes events pr a b) +
              notesDilutionSum (cohortNotes events pr a b)) (0.999 : ℚ) /
            jsOr (safesDilutionSum (cohortSafes events pr a b) +
              notesDilutionSum (cohortNotes events pr a b)) 1)))
    [] hNs (by simp [tableKeys])
  rw [List.nil_append] at h
  exact h

theorem getConvertibleNotes_eq_map (events : List Event) (pr : PricedRound) (T : ℚ)
    (a : ℤ) (b : Option ℤ)
    (hNn : ((cohortNotes events pr a b).map (fun n => n.toNote.name)).Nodup) :
    getConvertibleNotes events pr T a b =
      (cohortNotes events pr a b).map (fun n =>
        (n.toNote.name,
          (T / (1 - min (safesDilutionSum (cohortSafes events pr a b) +
              notesDilutionSum (cohortNotes events pr a b)) (0.999 : ℚ))) *
            ((n.totalAmount / n.valuation) *
              (min (safesDilutionSum (cohortSafes events pr a b) +
                  notesDilutionSum (cohortNotes events pr a b)) (0.999 : ℚ) /
                jsOr (safesDilutionSum (cohortSafes events pr a b) +
                  notesDilutionSum (cohortNotes events pr a b)) 1)))) := by
  have h := foldl_tableSet_eq_append (cohortNotes events pr a b)
    (fun n => n.toNote.name)
    (fun n =>
      (T / (1 - min (safesDilutionSum (cohortSafes events pr a b) +
          notesDilutionSum (cohortNotes events pr a b)) (0.999 : ℚ))) *
        ((n.totalAmount / n.valuation) *
          (min (safesDilutionSum (cohortSafes events pr a b) +
              notesDilutionSum (cohortNotes events pr a b)) (0.999 : ℚ) /
            jsOr (safesDilutionSum (cohortSafes events pr a b) +
              notesDilutionSum (cohortNotes events pr a b)) 1)))
    [] hNn (by simp [tableKeys])
  rw [List.nil_append] at h
  exact h

/-- C2.  Over-dilution safeguard: when a cohort of SAFEs and notes converts
against pre-conversion share total `T`, the summed dilution fraction
`Σ(amount_i / valuation_i)` is capped at 0.999; if the raw sum exceeds the
cap, every instrument's fraction is scaled by `cappedFraction/rawFraction`
(uniform proportional haircut); the post-conversion total equals
`T / (1 - cappedFraction)` and each instrument receives exactly that new
total times its scaled fraction in shares. -/
theorem claim2_over_dilution (events : List Event) (pr : PricedRound) (T : ℚ)
    (a : ℤ) (b : Option ℤ) (raw : ℚ)
    (hNs : ((cohortSafes events pr a b).map (fun s => s.toSafe.name)).Nodup)
    (hNn : ((cohortNotes events pr a b).map (fun n => n.toNote.name)).Nodup)
    (hps : ∀ s ∈ cohortSafes events pr a b, 0 ≤ s.toSafe.amount / s.valuation)
    (hpn : ∀ n ∈ cohortNotes events pr a b, 0 ≤ n.totalAmount / n.valuation)
    (hraw : raw =
      ((cohortSafes events pr a b).map (fun s => s.toSafe.amount / s.valuation)).sum +
      ((cohortNotes events pr a b).map (fun n => n.totalAmount / n.valuation)).sum) :
    (raw ≤ (0.999 : ℚ) →
      (∀ s ∈ cohortSafes events pr a b,
        tableGet (getSafesWithNotes events pr T a b) s.toSafe.name =
          (T / (1 - raw)) * (s.toSafe.amount / s.valuation)) ∧
      (∀ n ∈ cohortNotes events pr a b,
        tableGet (getConvertibleNotes events pr T a b) n.toNote.name =
          (T / (1 - raw)) * (n.totalAmount / n.valuation))) ∧
    ((0.999 : ℚ) < raw →
      (∀ s ∈ cohortSafes events pr a b,
        tableGet (getSafesWithNotes events pr T a b) s.toSafe.name =
          (T / (1 - (0.999 : ℚ))) *
            ((s.toSafe.amount / s.valuation) * ((0.999 : ℚ) / raw))) ∧
      (∀ n ∈ cohortNotes events pr a b,
        tableGet (getConvertibleNotes events pr T a b) n.toNote.name =
          (T / (1 - (0.999 : ℚ))) *
            ((n.totalAmount / n.valuation) * ((0.999 : ℚ) / raw)))) ∧
    (T + getTableTotalShares (getSafesWithNotes events pr T a b) +
      getTableTotalShares (getConvertibleNotes events pr T a b) =
      T / (1 - min raw (0.999 : ℚ))) := by
  have hraws : safesDilutionSum (cohortSafes events pr a b) +
      notesDilutionSum (cohortNotes events pr a b) = raw := by
    rw [safesDilutionSum_eq_sum, notesDilutionSum_eq_sum, hraw]
  have hSmap := getSafesWithNotes_eq_map events pr T a b hNs
  have hNmap := getConvertibleNotes_eq_map events pr T a b hNn
  rw [hraws] at hSmap hNmap
  refine ⟨?_, ?_, ?_⟩
  · intro hle
    have hcs : min raw (0.999 : ℚ) = raw := min_eq_left hle
    rw [hcs] at hSmap hNmap
    constructor
    · intro s hs
      rw [hSmap, tableGet_map_of_nodup _ _ _ hNs s hs]
      by_cases h0 : raw = 0
      · have hd1 : s.toSafe.amount / s.valuation ≤
            ((cohortSafes events pr a b).map
              (fun x => x.toSafe.amount / x.valuation)).sum :=
          List.single_le_sum (by
            intro x hx
            obtain ⟨y, hy, rfl⟩ := List.mem_map.mp hx
            exact hps y hy) _ (List.mem_map_of_mem _ hs)
        have hd2 : 0 ≤ ((cohortNotes events pr a b).map
            (fun n => n.totalAmount / n.valuation)).sum :=
          List.sum_nonneg (by
            intro x hx
            obtain ⟨n, hn, rfl⟩ := List.mem_map.mp hx
            exact hpn n hn)
        have hd0 : s.toSafe.amount / s.valuation = 0 := by
          have := hps s hs
          rw [hraw] at h0
          linarith
        rw [hd0, h0]
        ring
      · rw [show jsOr raw 1 = raw from by rw [jsOr, if_neg h0], div_self h0]
        ring
    · intro n hn
      rw [hNmap, tableGet_map_of_nodup _ _ _ hNn n hn]
      by_cases h0 : raw = 0
      · have hd1 : n.totalAmount / n.valuation ≤
            ((cohortNotes events pr a b).map
              (fun x => x.totalAmount / x.valuation)).sum :=
          List.single_le_sum (by
            intro x hx
            obtain ⟨y, hy, rfl⟩ := List.mem_map.mp hx
            exact hpn y hy) _ (List.mem_map_of_mem _ hn)
        have hd2 : 0 ≤ ((cohortSafes events pr a b).map
            (fun s => s.toSafe.amount / s.valuation)).sum :=
          List.sum_nonneg (by
            intro x hx
            obtain ⟨s, hs, rfl⟩ := List.mem_map.mp hx
            exact hps s hs)
        have hd0 : n.totalAmount / n.valuation = 0 := by
          have := hpn n hn
          rw [hraw] at h0
          linarith
        rw [hd0, h0]
        ring
      · rw [show jsOr raw 1 = raw from by rw [jsOr, if_neg h0], div_self h0]
        ring
  · intro hlt
    have hcs : min raw (0.999 : ℚ) = (0.999 : ℚ) := min_eq_right (le_of_lt hlt)
    have h0 : raw ≠ 0 := ne_of_gt (lt_trans (by norm_num) hlt)
    have hj : jsOr raw 1 = raw := by rw [jsOr, if_neg h0]
    rw [hcs, hj] at hSmap hNmap
    constructor
    · intro s hs
      rw [hSmap, tableGet_map_of_nodup _ _ _ hNs s hs]
    · intro n hn
      rw [hNmap, tableGet_map_of_nodup _ _ _ hNn n hn]
  · rw [hSmap, hNmap, totalShares_map, totalShares_map]
    have hfac : ∀ (l : List ℚ) (NT R : ℚ),
        (l.map (fun x => NT * (x * R))).sum = NT * R * l.sum := by
      intro l NT R
      induction l with
      | nil => simp
      | cons x xs ih =>
        simp only [List.map_cons, List.sum_cons, ih]
        ring
    have hcomp : ∀ {β : Type} (l : List β) (f : β → ℚ) (NT R : ℚ),
        (l.map (fun x => NT * (f x * R))).sum = NT * R * (l.map f).sum := by
      intro β l f NT R
      rw [← hfac (l.map f) NT R, List.map_map]
      rfl
    rw [hcomp, hcomp]
    by_cases h0 : raw = 0
    · have hmin : min raw (0.999 : ℚ) = raw := min_eq_left (by rw [h0]; norm_num)
      rw [hmin, h0]
      simp [jsOr]
    · have hj : jsOr raw 1 = raw := by rw [jsOr, if_neg h0]
      rw [hj]
      have hc2 : min raw (0.999 : ℚ) ≤ 0.999 := min_le_right _ _
      have hc1 : 1 - min raw (0.999 : ℚ) ≠ 0 := by
        intro hc
        have : min raw (0.999 : ℚ) = 1 := by linarith
        rw [this] at hc2
        norm_num at hc2
      have hsum : ((cohortSafes events pr a b).map
          (fun s => s.toSafe.amount / s.valuation)).sum +
          ((cohortNotes events pr a b).map
            (fun n => n.totalAmount / n.valuation)).sum = raw := hraw.symm
      calc T + T / (1 - min raw (0.999 : ℚ)) * (min raw (0.999 : ℚ) / raw) *
            ((cohortSafes events pr a b).map
              (fun s => s.toSafe.amount / s.valuation)).sum +
          T / (1 - min raw (0.999 : ℚ)) * (min raw (0.999 : ℚ) / raw) *
            ((cohortNotes events pr a b).map
              (fun n => n.totalAmount / n.valuation)).sum
          = T + T / (1 - min raw (0.999 : ℚ)) * (min raw (0.999 : ℚ) / raw) * raw := by
            rw [← hsum]
            ring
        _ = T / (1 - min raw (0.999 : ℚ)) := by
            field_simp
            ring

theorem claim2_witness :
    tableGet (getSafesWithNotes [Event.safe overSafe, Event.priced witRoundC5]
      witRoundC5 10000000 (-1) (some 1)) "S1" = 9990000000 := by
  have hbase : getSafesValuations [Event.safe overSafe, Event.priced witRoundC5]
      witRoundC5 (-1) (some 1) = [⟨overSafe, 500000, 0⟩] := by
    simp [getSafesValuations, jsFindIndex, List.findIdx?, min_def,
      overSafe, witRoundC5, List.enum, List.enumFrom, List.filterMap]
    norm_num
  have hnone : getConvertibleNotesValuations
      [Event.safe overSafe, Event.priced witRoundC5] witRoundC5 (-1) (some 1) = [] := rfl
  have hcs : cohortSafes [Event.safe overSafe, Event.priced witRoundC5]
      witRoundC5 (-1) (some 1) = [⟨overSafe, 500000, 0⟩] := by
    rw [cohortSafes, hbase, hnone]
    simp [getSafesWithMFN, overSafe]
  have hcn : cohortNotes [Event.safe overSafe, Event.priced witRoundC5]
      witRoundC5 (-1) (some 1) = [] := rfl
  have happ := (claim2_over_dilution [Event.safe overSafe, Event.priced witRoundC5]
    witRoundC5 10000000 (-1) (some 1) 1
    (by rw [hcs]; simp)
    (by rw [hcn]; simp)
    (by
      rw [hcs]
      intro s hs
      simp only [List.mem_singleton] at hs
      subst hs
      norm_num [overSafe])
    (by rw [hcn]; simp)
    (by rw [hcs, hcn]; norm_num [overSafe])).2.1 (by norm_num)
  have hval := happ.1 ⟨overSafe, 500000, 0⟩ (by rw [hcs]; simp)
  rw [show (⟨overSafe, 500000, 0⟩ : ValuedSafe).toSafe.name = "S1" from rfl] at hval
  rw [hval]
  norm_num [overSafe]

theorem eventName?_eq_info (e : Event) :
    eventName? e = (eventProRataInfo? e).map Prod.fst := by
  cases e <;> rfl

/-- C6.  Pro-rata allocation: at a priced round, a holder receives pro-rata
shares equal to `newInvestorShares * (holderCurrentShares / currentTotal)`
if and only if the holder's originating event is flagged `proRata`, the
holder is present with nonzero shares in the current table, the holder is
not the round's own new investor, and the holder's name is in the round's
participations list; SAFE/note holders satisfy this only at the first priced
round (`firstPricedRound = true`), while priced-round investors are eligible
at every round. -/
theorem claim6_pro_rata (current : CapTable) (event : PricedRound)
    (newShares total : ℚ) (first : Bool) (allEvents : List Event)
    (e : Event) (nm : String) (flag : Bool)
    (he : e ∈ allEvents)
    (hinfo : eventProRataInfo? e = some (nm, flag))
    (hNodup : (allEvents.filterMap eventName?).Nodup) :
    tableGet (getProRatas current event newShares total first allEvents) nm =
      (if flag = true ∧ tableGet current nm ≠ 0 ∧ nm ≠ event.name ∧
          (isPricedEvent e = true ∨ first = true) ∧
          nm ∈ event.participations
        then newShares * (tableGet current nm / total) else 0) := by
  rw [getProRatas]
  have hget_step : ∀ (t : CapTable) (e' : Event) (q : String),
      (∀ nm' flag', eventProRataInfo? e' = some (nm', flag') → nm' ≠ q) →
      tableGet ((fun proRatas e =>
        let info : Option (String × Bool) :=
          match e with
          | Event.priced p => some (p.name, p.proRata)
          | Event.safe s => if first then some (s.name, s.proRata) else none
          | Event.convertible n => if first then some (n.name, n.proRata) else none
          | _ => none
        match info with
        | none => proRatas
        | some (nm, flag) =>
          if flag = false ∨ tableGet current nm = 0 ∨ nm = event.name then proRatas
          else
            let shares := newShares * (tableGet current nm / total)
            if shares ≠ 0 ∧ event.participations.contains nm then
              addTables proRatas [(nm, shares)]
            else proRatas) t e') q = tableGet t q := by
    intro t e' q hq
    rcases e' with s | n | p | o | a
    · cases first
      · rfl
      · have hne := hq s.name s.proRata rfl
        show tableGet (if s.proRata = false ∨ tableGet current s.name = 0 ∨
            s.name = event.name then t
          else if newShares * (tableGet current s.name / total) ≠ 0 ∧
              event.participations.contains s.name then
            addTables t [(s.name, newShares * (tableGet current s.name / total))]
          else t) q = tableGet t q
        split
        · rfl
        · split
          · rw [addTables_singleton, tableGet_set_ne _ _ _ _ (fun hh => hne hh.symm)]
          · rfl
    · cases first
      · rfl
      · have hne := hq n.name n.proRata rfl
        show tableGet (if n.proRata = false ∨ tableGet current n.name = 0 ∨
            n.name = event.name then t
          else if newShares * (tableGet current n.name / total) ≠ 0 ∧
              event.participations.contains n.name then
            addTables t [(n.name, newShares * (tableGet current n.name / total))]
          else t) q = tableGet t q
        split
        · rfl
        · split
          · rw [addTables_singleton, tableGet_set_ne _ _ _ _ (fun hh => hne hh.symm)]
          · rfl
    · have hne := hq p.name p.proRata rfl
      show tableGet (if p.proRata = false ∨ tableGet current p.name = 0 ∨
          p.name = event.name then t
        else if newShares * (tableGet current p.name / total) ≠ 0 ∧
            event.participations.contains p.name then
          addTables t [(p.name, newShares * (tableGet current p.name / total))]
        else t) q = tableGet t q
      split
      · rfl
      · split
        · rw [addTables_singleton, tableGet_set_ne _ _ _ _ (fun hh => hne hh.symm)]
        · rfl
    · rfl
    · rfl
  have hfold_clean : ∀ (evs : List Event) (acc : CapTable),
      (∀ e' ∈ evs, ∀ nm' flag', eventProRataInfo? e' = some (nm', flag') → nm' ≠ nm) →
      tableGet (evs.foldl (fun proRatas e =>
        let info : Option (String × Bool) :=
          match e with
          | Event.priced p => some (p.name, p.proRata)
          | Event.safe s => if first then some (s.name, s.proRata) else none
          | Event.convertible n => if first then some (n.name, n.proRata) else none
          | _ => none
        match info with
        | none => proRatas
        | some (nm, flag) =>
          if flag = false ∨ tableGet current nm = 0 ∨ nm = event.name then proRatas
          else
            let shares := newShares * (tableGet current nm / total)
            if shares ≠ 0 ∧ event.participations.contains nm then
              addTables proRatas [(nm, shares)]
            else proRatas) acc) nm = tableGet acc nm := by
    intro evs
    induction evs with
    | nil => intro acc _; rfl
    | cons x xs ih =>
      intro acc hcl
      rw [List.foldl_cons, ih _ (fun y hy => hcl y (List.mem_cons_of_mem _ hy)),
        hget_step acc x nm (hcl x (List.mem_cons_self _ _))]
  obtain ⟨pre, post, rfl⟩ := List.append_of_mem he
  have hname : eventName? e = some nm := by
    rw [eventName?_eq_info, hinfo]
    rfl
  have hsplit : ((pre ++ e :: post).filterMap eventName?) =
      pre.filterMap eventName? ++ nm :: post.filterMap eventName? := by
    rw [List.filterMap_append, List.filterMap_cons, hname]
  rw [hsplit] at hNodup
  have hpre : ∀ e' ∈ pre, ∀ nm' flag',
      eventProRataInfo? e' = some (nm', flag') → nm' ≠ nm := by
    intro e' he' nm' flag' hi' hceq
    subst hceq
    have : nm' ∈ pre.filterMap eventName? :=
      List.mem_filterMap.mpr ⟨e', he', by rw [eventName?_eq_info, hi']; rfl⟩
    have hdisj := (List.nodup_append.mp hNodup).2.2
    exact hdisj this (List.mem_cons_self _ _)
  have hpost : ∀ e' ∈ post, ∀ nm' flag',
      eventProRataInfo? e' = some (nm', flag') → nm' ≠ nm := by
    intro e' he' nm' flag' hi' hceq
    subst hceq
    have hmem : nm' ∈ post.filterMap eventName? :=
      List.mem_filterMap.mpr ⟨e', he', by rw [eventName?_eq_info, hi']; rfl⟩
    have hcons := (List.nodup_append.mp hNodup).2.1
    rw [List.nodup_cons] at hcons
    exact hcons.1 hmem
  rw [List.foldl_append, List.foldl_cons, hfold_clean post _ hpost]
  have hacc0 := hfold_clean pre [] hpre
  simp only [tableGet_nil] at hacc0
  rcases e with s | n | p | o | a
  · obtain ⟨rfl, rfl⟩ : s.name = nm ∧ s.proRata = flag := by
      injection hinfo with h
      cases h
      exact ⟨rfl, rfl⟩
    cases first
    · show tableGet (pre.foldl _ []) s.name = _
      rw [hacc0]
      have : ¬ (s.proRata = true ∧ tableGet current s.name ≠ 0 ∧
          s.name ≠ event.name ∧
          (isPricedEvent (Event.safe s) = true ∨ false = true) ∧
          s.name ∈ event.participations) := by
        rintro ⟨-, -, -, hor, -⟩
        rcases hor with hp | hf
        · exact Bool.noConfusion hp
        · cases hf
      rw [if_neg this]
    · show tableGet (if s.proRata = false ∨ tableGet current s.name = 0 ∨
          s.name = event.name then (pre.foldl _ [])
        else if newShares * (tableGet current s.name / total) ≠ 0 ∧
            event.participations.contains s.name then
          addTables (pre.foldl _ []) [(s.name,
            newShares * (tableGet current s.name / total))]
        else (pre.foldl _ [])) s.name = _
      by_cases hc1 : s.proRata = false ∨ tableGet current s.name = 0 ∨
          s.name = event.name
      · rw [if_pos hc1, hacc0, if_neg ?_]
        rintro ⟨hf, hg, hn, -, -⟩
        rcases hc1 with h | h | h
        · rw [hf] at h; cases h
        · exact hg h
        · exact hn h
      · rw [if_neg hc1]
        push_neg at hc1
        by_cases hc2 : newShares * (tableGet current s.name / total) ≠ 0 ∧
            event.participations.contains s.name = true
        · rw [if_pos hc2, addTables_singleton, tableGet_set_self, hacc0, if_pos ?_]
          · ring
          · refine ⟨by simpa using hc1.1, hc1.2.1, hc1.2.2, Or.inr rfl, ?_⟩
            have := hc2.2
            simpa [List.elem_iff] using this
        · rw [if_neg hc2, hacc0]
          rcases (not_and_or.mp hc2) with hz | hcont
          · push_neg at hz
            by_cases hcnd : s.proRata = true ∧ tableGet current s.name ≠ 0 ∧
                s.name ≠ event.name ∧
                (isPricedEvent (Event.safe s) = true ∨ true = true) ∧
                s.name ∈ event.participations
            · rw [if_pos hcnd, hz]
            · rw [if_neg hcnd]
          · rw [if_neg ?_]
            rintro ⟨-, -, -, -, hmem⟩
            exact hcont (by simpa [List.elem_iff] using hmem)
  · obtain ⟨rfl, rfl⟩ : n.name = nm ∧ n.proRata = flag := by
      injection hinfo with h
      cases h
      exact ⟨rfl, rfl⟩
    cases first
    · show tableGet (pre.foldl _ []) n.name = _
      rw [hacc0]
      have : ¬ (n.proRata = true ∧ tableGet current n.name ≠ 0 ∧
          n.name ≠ event.name ∧
          (isPricedEvent (Event.convertible n) = true ∨ false = true) ∧
          n.name ∈ event.participations) := by
        rintro ⟨-, -, -, hor, -⟩
        rcases hor with hp | hf
        · exact Bool.noConfusion hp
        · cases hf
      rw [if_neg this]
    · show tableGet (if n.proRata = false ∨ tableGet current n.name = 0 ∨
          n.name = event.name then (pre.foldl _ [])
        else if newShares * (tableGet current n.name / total) ≠ 0 ∧
            event.participations.contains n.name then
          addTables (pre.foldl _ []) [(n.name,
            newShares * (tableGet current n.name / total))]
        else (pre.foldl _ [])) n.name = _
      by_cases hc1 : n.proRata = false ∨ tableGet current n.name = 0 ∨
          n.name = event.name
      · rw [if_pos hc1, hacc0, if_neg ?_]
        rintro ⟨hf, hg, hn, -, -⟩
        rcases hc1 with h | h | h
        · rw [hf] at h; cases h
        · exact hg h
        · exact hn h
      · rw [if_neg hc1]
        push_neg at hc1
        by_cases hc2 : newShares * (tableGet current n.name / total) ≠ 0 ∧
            event.participations.contains n.name = true
        · rw [if_pos hc2, addTables_singleton, tableGet_set_self, hacc0, if_pos ?_]
          · ring
          · refine ⟨by simpa using hc1.1, hc1.2.1, hc1.2.2, Or.inr rfl, ?_⟩
            have := hc2.2
            simpa [List.elem_iff] using this
        · rw [if_neg hc2, hacc0]
          rcases (not_and_or.mp hc2) with hz | hcont
          · push_neg at hz
            by_cases hcnd : n.proRata = true ∧ tableGet current n.name ≠ 0 ∧
                n.name ≠ event.name ∧
                (isPricedEvent (Event.convertible n) = true ∨ true = true) ∧
                n.name ∈ event.participations
            · rw [if_pos hcnd, hz]
            · rw [if_neg hcnd]
          · rw [if_neg ?_]
            rintro ⟨-, -, -, -, hmem⟩
            exact hcont (by simpa [List.elem_iff] using hmem)
  · obtain ⟨rfl, rfl⟩ : p.name = nm ∧ p.proRata = flag := by
      injection hinfo with h
      cases h
      exact ⟨rfl, rfl⟩
    show tableGet (if p.proRata = false ∨ tableGet current p.name = 0 ∨
        p.name = event.name then (pre.foldl _ [])
      else if newShares * (tableGet current p.name / total) ≠ 0 ∧
          event.participations.contains p.name then
        addTables (pre.foldl _ []) [(p.name,
          newShares * (tableGet current p.name / total))]
      else (pre.foldl _ [])) p.name = _
    by_cases hc1 : p.proRata = false ∨ tableGet current p.name = 0 ∨
        p.name = event.name
    · rw [if_pos hc1, hacc0, if_neg ?_]
      rintro ⟨hf, hg, hn, -, -⟩
      rcases hc1 with h | h | h
      · rw [hf] at h; cases h
      · exact hg h
      · exact hn h
    · rw [if_neg hc1]
      push_neg at hc1
      by_cases hc2 : newShares * (tableGet current p.name / total) ≠ 0 ∧
          event.participations.contains p.name = true
      · rw [if_pos hc2, addTables_singleton, tableGet_set_self, hacc0, if_pos ?_]
        · ring
        · refine ⟨by simpa using hc1.1, hc1.2.1, hc1.2.2, Or.inl rfl, ?_⟩
          have := hc2.2
          simpa [List.elem_iff] using this
      · rw [if_neg hc2, hacc0]
        rcases (not_and_or.mp hc2) with hz | hcont
        · push_neg at hz
          by_cases hcnd : p.proRata = true ∧ tableGet current p.name ≠ 0 ∧
              p.name ≠ event.name ∧
              (isPricedEvent (Event.priced p) = true ∨ first = true) ∧
              p.name ∈ event.participations
          · rw [if_pos hcnd, hz]
          · rw [if_neg hcnd]
        · rw [if_neg ?_]
          rintro ⟨-, -, -, -, hmem⟩
          exact hcont (by simpa [List.elem_iff] using hmem)
  · cases hinfo
  · cases hinfo

theorem claim6_witness :
    tableGet (getProRatas [("Founder", 8000), ("Seed", 2000)] witSeriesA 1000 10000
      false [Event.priced witSeedRound, Event.priced witSeriesA]) "Seed" =
      1000 * ((2000 : ℚ) / 10000) := by
  have h := claim6_pro_rata [("Founder", 8000), ("Seed", 2000)] witSeriesA 1000 10000
    false [Event.priced witSeedRound, Event.priced witSeriesA]
    (Event.priced witSeedRound) "Seed" true
    (by simp)
    (by simp [eventProRataInfo?, witSeedRound])
    (by simp [eventName?, witSeedRound, witSeriesA])
  rw [h, if_pos ?_]
  · rw [show tableGet [("Founder", (8000 : ℚ)), ("Seed", 2000)] "Seed" = 2000 from by
      simp [tableGet]]
  · refine ⟨rfl, ?_, ?_, Or.inl rfl, ?_⟩
    · rw [show tableGet [("Founder", (8000 : ℚ)), ("Seed", 2000)] "Seed" = 2000 from by
        simp [tableGet]]
      norm_num
    · simp [witSeriesA]
    · simp [witSeriesA]

theorem getCapTables_none (founders : List Founder) (events : List Event) :
    getCapTables founders events none =
      getFirstTable founders ::
        capTablesLoop events events.enum (getFirstTable founders) (-1) := rfl

theorem getCapTables_exit_structure (founders : List Founder) (events : List Event)
    (ex : ExitEvent) (hex : ex.amount ≠ 0)
    (hunconv :
      (events.enum.filterMap (fun p =>
        match p.2 with
        | Event.safe s => if lastPricedIdx events < (p.1 : ℤ) then some s else none
        | _ => none)).length > 0 ∨
      (events.enum.filterMap (fun p =>
        match p.2 with
        | Event.convertible n => if lastPricedIdx events < (p.1 : ℤ) then some n else none
        | _ => none)).length > 0) :
    ∃ rest : List CapTable,
      getCapTables founders events (some ex) =
        (getFirstTable founders ::
          capTablesLoop events events.enum (getFirstTable founders) (-1)) ++
        addTables (addTables
          (jsLastTable (getFirstTable founders ::
            capTablesLoop events events.enum (getFirstTable founders) (-1)))
          (getSafesWithNotes events (exitRound ex)
            (getTableTotalShares (jsLastTable (getFirstTable founders ::
              capTablesLoop events events.enum (getFirstTable founders) (-1))))
            (lastPricedIdx events) (some ((events.length : ℤ) - 1))))
          (getConvertibleNotes events (exitRound ex)
            (getTableTotalShares (jsLastTable (getFirstTable founders ::
              capTablesLoop events events.enum (getFirstTable founders) (-1))))
            (lastPricedIdx events) (some ((events.length : ℤ) - 1))) :: rest := by
  rw [getCapTables]
  rw [if_pos hex]
  dsimp only
  rw [if_pos hunconv]
  dsimp only
  by_cases hav : tableGet (addTables (addTables
      (jsLastTable (getFirstTable founders ::
        capTablesLoop events events.enum (getFirstTable founders) (-1)))
      (getSafesWithNotes events
        { valuation := ex.amount, proRata := false, options := 0, amount := 0,
          name := "Exit", participations := [], monthsToRound := 12 }
        (getTableTotalShares (jsLastTable (getFirstTable founders ::
          capTablesLoop events events.enum (getFirstTable founders) (-1))))
        (lastPricedIdx events) (some ((events.length : ℤ) - 1))))
      (getConvertibleNotes events
        { valuation := ex.amount, proRata := false, options := 0, amount := 0,
          name := "Exit", participations := [], monthsToRound := 12 }
        (getTableTotalShares (jsLastTable (getFirstTable founders ::
          capTablesLoop events events.enum (getFirstTable founders) (-1))))
        (lastPricedIdx events) (some ((events.length : ℤ) - 1))))
      AVAILABLE_OPTIONS_LABEL ≠ 0
  · exact ⟨_, by rw [if_pos hav, List.append_assoc]; rfl⟩
  · exact ⟨_, by rw [if_neg hav]; rfl⟩

theorem mem_tableKeys_getFirstTable (founders : List Founder) (q : String) :
    q ∈ tableKeys (getFirstTable founders) ↔ q ∈ founders.map Founder.name := by
  rw [getFirstTable]
  have h := mem_tableKeys_foldl_tableSet founders (fun f => f.name)
    (fun f => (f.equity / 100) * INITIAL_SHARES) [] q
  rw [h]
  simp [tableKeys]

/-! ## Claim C10: exit-time note interest -/

/-- C10.  Exit-time note interest: the synthetic exit priced round always
uses 12 as the elapsed months for interest accrual, so every note converting
at exit accrues simple interest over `min(12, term)` months regardless of
the simulated time before the exit.  Part one gives the closed form of the
accrued amount at 12 months; part two shows that in the exit-conversion
snapshot of `getCapTables` an uncapped, undiscounted note receives exactly
the shares implied by that 12-month accrued amount. -/
theorem claim10_exit_note_interest :
    (∀ note : ConvertibleNote,
      getConvertibleNoteAccruedAmount note (some 12) =
        note.amount * (1 + note.interestRate / 100 * (min 12 note.term) / 12)) ∧
    (∀ (founders : List Founder) (n : ConvertibleNote) (ex : ExitEvent),
      ex.amount ≠ 0 → n.valCap = 0 → n.discount = 0 →
      (∀ f ∈ founders, f.name ≠ n.name) →
      ∀ d : ℚ,
      d = n.amount * (1 + n.interestRate / 100 * (min 12 n.term) / 12) / ex.amount →
      0 < d → d ≤ (0.999 : ℚ) →
      ∃ t, (getCapTables founders [Event.convertible n] (some ex)).get? 2 = some t ∧
        tableGet t n.name =
          (getTableTotalShares (getFirstTable founders) / (1 - d)) * d) := by
  constructor
  · intro note
    rw [getConvertibleNoteAccruedAmount]
    ring
  · intro founders n ex hex hcap hdisc hfr d hd hd0 hd999
    obtain ⟨rest, hstruct⟩ := getCapTables_exit_structure founders [Event.convertible n]
      ex hex (Or.inr (Nat.succ_pos 0))
    have hloop : capTablesLoop [Event.convertible n] [Event.convertible n].enum
        (getFirstTable founders) (-1) = [getFirstTable founders] := rfl
    rw [hloop] at hstruct
    have hlast : jsLastTable [getFirstTable founders, getFirstTable founders] =
        getFirstTable founders := rfl
    rw [hlast] at hstruct
    refine ⟨_, by rw [hstruct]; rfl, ?_⟩
    have hL : lastPricedIdx [Event.convertible n] = -1 := rfl
    rw [hL] at hstruct ⊢
    -- the SAFE conversion table is empty
    have hsT : getSafesWithNotes [Event.convertible n] (exitRound ex)
        (getTableTotalShares (getFirstTable founders)) (-1)
        (some (([Event.convertible n].length : ℤ) - 1)) = [] := rfl
    -- base and MFN-resolved note cohort
    have hbase : getConvertibleNotesValuations [Event.convertible n] (exitRound ex)
        (-1) (some (([Event.convertible n].length : ℤ) - 1)) =
        [⟨n, ex.amount, getConvertibleNoteAccruedAmount n (some 12), 0⟩] := by
      simp [getConvertibleNotesValuations, jsFindIndex, List.findIdx?, hcap, hdisc,
        exitRound, List.enum, List.enumFrom, List.filterMap]
    have hcoh : cohortNotes [Event.convertible n] (exitRound ex) (-1)
        (some (([Event.convertible n].length : ℤ) - 1)) =
        [⟨n, ex.amount, getConvertibleNoteAccruedAmount n (some 12), 0⟩] := by
      rw [cohortNotes, hbase]
      cases hm : n.mfn <;>
        simp [getConvertibleNotesWithMFN, hm, getSafesValuations]
    have hcohS : cohortSafes [Event.convertible n] (exitRound ex) (-1)
        (some (([Event.convertible n].length : ℤ) - 1)) = [] := rfl
    have hacc : getConvertibleNoteAccruedAmount n (some 12) = d * ex.amount := by
      rw [getConvertibleNoteAccruedAmount, hd]
      field_simp
      ring
    have hnT := getConvertibleNotes_eq_map [Event.convertible n] (exitRound ex)
      (getTableTotalShares (getFirstTable founders)) (-1)
      (some (([Event.convertible n].length : ℤ) - 1)) (by rw [hcoh]; simp)
    rw [hcoh, hcohS] at hnT
    have hsum0 : safesDilutionSum [] = 0 := rfl
    have hsum1 : notesDilutionSum
        [⟨n, ex.amount, getConvertibleNoteAccruedAmount n (some 12), 0⟩] =
        getConvertibleNoteAccruedAmount n (some 12) / ex.amount := by
      rw [notesDilutionSum_eq_sum]
      simp
    rw [hsum0, hsum1, hacc] at hnT
    have hdval : d * ex.amount / ex.amount = d := by
      field_simp
    rw [hdval] at hnT
    have hmin : min (0 + d) (0.999 : ℚ) = d := by
      rw [zero_add]
      exact min_eq_left hd999
    have hjs : jsOr (0 + d) 1 = d := by
      rw [zero_add, jsOr, if_neg (ne_of_gt hd0)]
    rw [hmin, hjs] at hnT
    -- evaluate the final get
    rw [hsT, addTables_nil]
    rw [tableGet_addTables _ _ (by
      rw [hnT]
      have := nodup_tableKeys_getConvertibleNotes [Event.convertible n] (exitRound ex)
        (getTableTotalShares (getFirstTable founders)) (-1)
        (some (([Event.convertible n].length : ℤ) - 1))
      rw [hnT] at this
      exact this)]
    rw [hnT]
    have hget0 : tableGet (getFirstTable founders) n.name = 0 := by
      apply tableGet_eq_zero_of_not_mem
      intro hmem
      obtain ⟨f, hf, hfn⟩ := List.mem_map.mp
        ((mem_tableKeys_getFirstTable founders n.name).mp hmem)
      exact hfr f hf hfn
    rw [hget0]
    have hgetn : tableGet
        (([(⟨n, ex.amount, d * ex.amount, 0⟩ : ValuedNote)]).map (fun x =>
          (x.toNote.name,
            getTableTotalShares (getFirstTable founders) / (1 - d) *
              (x.totalAmount / x.valuation * (d / d)))) : CapTable) n.name =
        getTableTotalShares (getFirstTable founders) / (1 - d) *
          (d * ex.amount / ex.amount * (d / d)) := by
      simp [tableGet]
    rw [hgetn, hdval, div_self (ne_of_gt hd0)]
    ring

/-- Witness for C10 at the concrete inputs above: the dilution fraction is
`d = 300000 * 1.08 / 30000000 = 27/2500`. -/
theorem claim10_witness :
    getConvertibleNoteAccruedAmount witNoteC10 (some 12) =
      witNoteC10.amount *
        (1 + witNoteC10.interestRate / 100 * (min 12 witNoteC10.term) / 12) ∧
    ∃ t, (getCapTables witFoundersC10 [Event.convertible witNoteC10]
        (some witExitC10)).get? 2 = some t ∧
      tableGet t witNoteC10.name =
        (getTableTotalShares (getFirstTable witFoundersC10) / (1 - (27/2500 : ℚ)))
          * (27/2500 : ℚ) :=
  ⟨claim10_exit_note_interest.1 witNoteC10,
   claim10_exit_note_interest.2 witFoundersC10 witNoteC10 witExitC10
     (by norm_num [witExitC10])
     rfl rfl
     (by decide)
     (27/2500)
     (by norm_num [witNoteC10, witExitC10, min_def])
     (by norm_num)
     (by norm_num)⟩

/-- Counterexample to C7 as stated: on the concrete input above, the
snapshot produced by the priced round contains the holder key `"Available"`
with a negative share count (the pool entry computes to `-50,000,000`). -/
theorem claim7_counterexample :
    ∃ t ∈ getCapTables witFoundersC7 [Event.priced witRoundC7] none,
      ∃ k ∈ tableKeys t, tableGet t k < 0 := by
  have hlist : getCapTables witFoundersC7 [Event.priced witRoundC7] none =
      [getFirstTable witFoundersC7,
       getNewTable [Event.priced witRoundC7] (Event.priced witRoundC7)
         (getFirstTable witFoundersC7) (-1) 0] := rfl
  have hprev : getFirstTable witFoundersC7 = [("Founder", 10000000)] := by
    simp only [getFirstTable, witFoundersC7, List.foldl_cons, List.foldl_nil, tableSet,
      INITIAL_SHARES]
    norm_num
  have hval : tableGet (getNewTable [Event.priced witRoundC7] (Event.priced witRoundC7)
      (getFirstTable witFoundersC7) (-1) 0) AVAILABLE_OPTIONS_LABEL < 0 := by
    have hA := tableGet_AVAILABLE_getNewTable_priced [Event.priced witRoundC7]
      witRoundC7 (getFirstTable witFoundersC7) (-1) 0
      (by
        intro e he
        simp only [List.mem_singleton] at he
        subst he
        simp [eventName?, witRoundC7, AVAILABLE_OPTIONS_LABEL])
      (by simp [witRoundC7, AVAILABLE_OPTIONS_LABEL])
    rw [hprev] at hA ⊢
    have hs : getSafesWithNotes [Event.priced witRoundC7] witRoundC7
        (getTableTotalShares [("Founder", 10000000)]) (-1) (some 0) = [] := rfl
    have hn : getConvertibleNotes [Event.priced witRoundC7] witRoundC7
        (getTableTotalShares [("Founder", 10000000)]) (-1) (some 0) = [] := rfl
    rw [hs, hn] at hA
    rw [hA]
    have hne : ¬ ("Founder" = "Available") := by decide
    norm_num [addTables, getTableTotalShares, tableGet, getNewOptions,
      witRoundC7, AVAILABLE_OPTIONS_LABEL, hne]
  refine ⟨getNewTable [Event.priced witRoundC7] (Event.priced witRoundC7)
      (getFirstTable witFoundersC7) (-1) 0, ?_, AVAILABLE_OPTIONS_LABEL, ?_, hval⟩
  · rw [hlist]
    exact List.mem_cons_of_mem _ (List.mem_singleton.mpr rfl)
  · by_contra hmem
    rw [tableGet_eq_zero_of_not_mem hmem] at hval
    exact lt_irrefl 0 hval

/-! ## Non-negativity toolkit (towards the amended C7) -/

theorem nonneg_tableSet {t : CapTable} (ht : ∀ p ∈ t, 0 ≤ p.2) {k : String} {v : ℚ}
    (hv : 0 ≤ v) : ∀ p ∈ tableSet t k v, 0 ≤ p.2 := by
  intro p hp
  rcases mem_tableSet t k v p hp with h | h
  · exact ht p h
  · rw [h]
    exact hv

theorem nonneg_addTables {b a : CapTable} (ha : ∀ p ∈ a, 0 ≤ p.2)
    (hb : ∀ p ∈ b, 0 ≤ p.2) : ∀ p ∈ addTables a b, 0 ≤ p.2 := by
  induction b generalizing a with
  | nil => exact ha
  | cons q rest ih =>
    rw [addTables_cons]
    exact ih (nonneg_tableSet ha
        (add_nonneg (tableGet_nonneg ha _) (hb q (List.mem_cons_self _ _))))
      (fun p hp => hb p (List.mem_cons_of_mem _ hp))

theorem sum_map_tableGet_cons (S : List String) (hS : S.Nodup) (p : String × ℚ)
    (t : CapTable) :
    (S.map (tableGet (p :: t))).sum =
      (S.map (tableGet t)).sum + (if p.1 ∈ S then p.2 - tableGet t p.1 else 0) := by
  induction S with
  | nil => simp
  | cons s S' ih =>
    simp only [List.nodup_cons] at hS
    rw [List.map_cons, List.map_cons, List.sum_cons, List.sum_cons, ih hS.2,
      tableGet_cons]
    by_cases hk : p.1 = s
    · have hmem : p.1 ∈ s :: S' := by rw [hk]; exact List.mem_cons_self _ _
      have hkS' : p.1 ∉ S' := by rw [hk]; exact hS.1
      rw [if_pos hk, if_neg hkS', if_pos hmem, hk]
      ring
    · by_cases hk2 : p.1 ∈ S'
      · rw [if_neg hk, if_pos hk2, if_pos (List.mem_cons_of_mem _ hk2)]
        ring
      · rw [if_neg hk, if_neg hk2, if_neg (fun h => by
          rcases List.mem_cons.mp h with h' | h'
          · exact hk h'
          · exact hk2 h')]
        ring

theorem sum_tableGet_le_totalShares (S : List String) (hS : S.Nodup) :
    ∀ t : CapTable, (∀ p ∈ t, 0 ≤ p.2) →
      (S.map (tableGet t)).sum ≤ getTableTotalShares t := by
  intro t
  induction t with
  | nil =>
    intro _
    simp [getTableTotalShares, tableGet]
  | cons p rest ih =>
    intro ht
    have hrest : ∀ q ∈ rest, 0 ≤ q.2 := fun q hq => ht q (List.mem_cons_of_mem _ hq)
    have hIH := ih hrest
    have hp2 : 0 ≤ p.2 := ht p (List.mem_cons_self _ _)
    have hget : 0 ≤ tableGet rest p.1 := tableGet_nonneg hrest _
    rw [sum_map_tableGet_cons S hS p rest, getTableTotalShares, List.map_cons,
      List.sum_cons]
    rw [getTableTotalShares] at hIH
    by_cases hm : p.1 ∈ S
    · rw [if_pos hm]
      linarith
    · rw [if_neg hm]
      linarith

theorem filterMap_sublist_of_imp {α β : Type} (l : List α) (f g : α → Option β)
    (h : ∀ x ∈ l, ∀ y, f x = some y → g x = some y) :
    List.Sublist (l.filterMap f) (l.filterMap g) := by
  induction l with
  | nil => simp
  | cons x xs ih =>
    have ih' := ih (fun z hz => h z (List.mem_cons_of_mem _ hz))
    rw [List.filterMap_cons, List.filterMap_cons]
    cases hfx : f x with
    | none =>
      cases hgx : g x with
      | none => exact ih'
      | some y => exact List.Sublist.cons _ ih'
    | some y =>
      rw [h x (List.mem_cons_self _ _) y hfx]
      exact List.Sublist.cons₂ _ ih'

theorem jsLastTable_mem (a : CapTable) (l : List CapTable) :
    jsLastTable (a :: l) ∈ a :: l := by
  induction l generalizing a with
  | nil => simp [jsLastTable]
  | cons b rest ih =>
    have : jsLastTable (a :: b :: rest) = jsLastTable (b :: rest) := by
      simp [jsLastTable]
    rw [this]
    exact List.mem_cons_of_mem _ (ih b)

theorem nonneg_getSafesValuations (events : List Event) (pr : PricedRound)
    (a : ℤ) (b : Option ℤ) (hpr : 0 ≤ pr.valuation)
    (hs : ∀ s : Safe, Event.safe s ∈ events → validSafeC7 s) :
    ∀ x ∈ getSafesValuations events pr a b, 0 ≤ x.valuation ∧ 0 ≤ x.toSafe.amount := by
  intro x hx
  rw [getSafesValuations] at hx
  simp only [List.mem_map] at hx
  obtain ⟨s, hsm, rfl⟩ := hx
  have hmem : Event.safe s ∈ events := by
    rw [List.mem_filterMap] at hsm
    obtain ⟨⟨j, e⟩, hje, hF⟩ := hsm
    have hget : events.get? j = some e := by
      simpa using List.mem_enum_iff_get?.mp hje
    rcases e with s' | n' | p' | o' | a' <;> simp only at hF
    · split at hF
      · injection hF with hF'
        subst hF'
        exact List.get?_mem hget
      · cases hF
    · cases hF
    · cases hF
    · cases hF
    · cases hF
  obtain ⟨ham, hcap, hdisc⟩ := hs s hmem
  refine ⟨?_, ham⟩
  have hfac : 0 ≤ pr.valuation * (1 - s.discount / 100) := by
    apply mul_nonneg hpr
    linarith
  by_cases h1 : s.valCap ≠ 0 ∧ s.discount ≠ 0
  · simp only [if_pos h1]
    exact le_min hcap hfac
  · simp only [if_neg h1]
    by_cases h2 : s.valCap ≠ 0 ∧ s.discount = 0
    · simp only [if_pos h2]
      exact le_min hcap hpr
    · simp only [if_neg h2]
      by_cases h3 : s.valCap = 0 ∧ s.discount ≠ 0
      · simp only [if_pos h3]
        exact hfac
      · simp only [if_neg h3]
        exact hpr

theorem nonneg_accruedAmount (n : ConvertibleNote) (m : ℚ) (hm : 0 ≤ m)
    (hn : 0 ≤ n.amount) (hr : 0 ≤ n.interestRate) (ht : 0 ≤ n.term) :
    0 ≤ getConvertibleNoteAccruedAmount n (some m) := by
  rw [getConvertibleNoteAccruedAmount]
  have h1 : 0 ≤ min m n.term := le_min hm ht
  have h2 : 0 ≤ n.amount * (n.interestRate / 100) * (min m n.term / 12) := by
    apply mul_nonneg
    · apply mul_nonneg hn
      positivity
    · positivity
  show 0 ≤ n.amount + n.amount * (n.interestRate / 100) * (min m n.term / 12)
  linarith

theorem nonneg_getConvertibleNotesValuations (events : List Event) (pr : PricedRound)
    (a : ℤ) (b : Option ℤ) (hpr : 0 ≤ pr.valuation) (hmo : 0 ≤ pr.monthsToRound)
    (hn : ∀ n : ConvertibleNote, Event.convertible n ∈ events → validNoteC7 n) :
    ∀ x ∈ getConvertibleNotesValuations events pr a b,
      0 ≤ x.valuation ∧ 0 ≤ x.totalAmount := by
  intro x hx
  rw [getConvertibleNotesValuations] at hx
  simp only [List.mem_map] at hx
  obtain ⟨n, hnm, rfl⟩ := hx
  have hmem : Event.convertible n ∈ events := by
    rw [List.mem_filterMap] at hnm
    obtain ⟨⟨j, e⟩, hje, hF⟩ := hnm
    have hget : events.get? j = some e := by
      simpa using List.mem_enum_iff_get?.mp hje
    rcases e with s' | n' | p' | o' | a' <;> simp only at hF
    · cases hF
    · split at hF
      · injection hF with hF'
        subst hF'
        exact List.get?_mem hget
      · cases hF
    · cases hF
    · cases hF
    · cases hF
  obtain ⟨ham, hir, hterm, hcap, hdisc⟩ := hn n hmem
  refine ⟨?_, nonneg_accruedAmount n pr.monthsToRound hmo ham hir hterm⟩
  have hfac : 0 ≤ pr.valuation * (1 - n.discount / 100) := by
    apply mul_nonneg hpr
    linarith
  by_cases h1 : n.valCap ≠ 0 ∧ n.discount ≠ 0
  · simp only [if_pos h1]
    exact le_min hcap hfac
  · simp only [if_neg h1]
    by_cases h2 : n.valCap ≠ 0 ∧ n.discount = 0
    · simp only [if_pos h2]
      exact le_min hcap hpr
    · simp only [if_neg h2]
      by_cases h3 : n.valCap = 0 ∧ n.discount ≠ 0
      · simp only [if_pos h3]
        exact hfac
      · simp only [if_neg h3]
        exact hpr

theorem nonneg_getSafesWithMFN (safes : List ValuedSafe) (notes : List ValuedNote)
    (hsafes : ∀ x ∈ safes, 0 ≤ x.valuation ∧ 0 ≤ x.toSafe.amount)
    (hnotes : ∀ x ∈ notes, 0 ≤ x.valuation) :
    ∀ x ∈ getSafesWithMFN safes notes, 0 ≤ x.valuation ∧ 0 ≤ x.toSafe.amount := by
  intro x hx
  rw [getSafesWithMFN] at hx
  simp only [List.mem_map] at hx
  obtain ⟨s, hsm, rfl⟩ := hx
  obtain ⟨hv, ha⟩ := hsafes s hsm
  by_cases hm : (!s.toSafe.mfn) = true
  · rw [if_pos hm]
    exact ⟨hv, ha⟩
  · rw [if_neg hm]
    by_cases he : (((safes.filter (fun s2 => decide (s.eventIndex < s2.eventIndex))).map
        ValuedSafe.valuation ++
        (notes.filter (fun n2 => decide (s.eventIndex < n2.eventIndex))).map
        ValuedNote.valuation).isEmpty) = true
    · rw [if_pos he]
      exact ⟨hv, ha⟩
    · rw [if_neg he]
      refine ⟨?_, ha⟩
      show 0 ≤ jsReduceMin s.valuation
        ((safes.filter (fun s2 => decide (s.eventIndex < s2.eventIndex))).map
          ValuedSafe.valuation ++
          (notes.filter (fun n2 => decide (s.eventIndex < n2.eventIndex))).map
          ValuedNote.valuation)
      rcases jsReduceMin_mem s.valuation _ with h | h
      · rw [h]
        exact hv
      · rw [List.mem_append] at h
        rcases h with h | h
        · obtain ⟨y, hy, hval⟩ := List.mem_map.mp h
          exact hval ▸ (hsafes y (List.mem_of_mem_filter hy)).1
        · obtain ⟨y, hy, hval⟩ := List.mem_map.mp h
          exact hval ▸ hnotes y (List.mem_of_mem_filter hy)

theorem nonneg_getConvertibleNotesWithMFN (notes : List ValuedNote)
    (safes : List ValuedSafe)
    (hnotes : ∀ x ∈ notes, 0 ≤ x.valuation ∧ 0 ≤ x.totalAmount)
    (hsafes : ∀ x ∈ safes, 0 ≤ x.valuation) :
    ∀ x ∈ getConvertibleNotesWithMFN notes safes,
      0 ≤ x.valuation ∧ 0 ≤ x.totalAmount := by
  intro x hx
  rw [getConvertibleNotesWithMFN] at hx
  simp only [List.mem_map] at hx
  obtain ⟨n, hnm, rfl⟩ := hx
  obtain ⟨hv, ha⟩ := hnotes n hnm
  by_cases hm : (!n.toNote.mfn) = true
  · rw [if_pos hm]
    exact ⟨hv, ha⟩
  · rw [if_neg hm]
    by_cases he : (((notes.filter (fun n2 => decide (n.eventIndex < n2.eventIndex))).map
        ValuedNote.valuation ++
        (safes.filter (fun s2 => decide (n.eventIndex < s2.eventIndex))).map
        ValuedSafe.valuation).isEmpty) = true
    · rw [if_pos he]
      exact ⟨hv, ha⟩
    · rw [if_neg he]
      refine ⟨?_, ha⟩
      show 0 ≤ jsReduceMin n.valuation
        ((notes.filter (fun n2 => decide (n.eventIndex < n2.eventIndex))).map
          ValuedNote.valuation ++
          (safes.filter (fun s2 => decide (n.eventIndex < s2.eventIndex))).map
          ValuedSafe.valuation)
      rcases jsReduceMin_mem n.valuation _ with h | h
      · rw [h]
        exact hv
      · rw [List.mem_append] at h
        rcases h with h | h
        · obtain ⟨y, hy, hval⟩ := List.mem_map.mp h
          exact hval ▸ (hnotes y (List.mem_of_mem_filter hy)).1
        · obtain ⟨y, hy, hval⟩ := List.mem_map.mp h
          exact hval ▸ hsafes y (List.mem_of_mem_filter hy)

theorem nonneg_safesDilutionSum {l : List ValuedSafe}
    (h : ∀ x ∈ l, 0 ≤ x.valuation ∧ 0 ≤ x.toSafe.amount) : 0 ≤ safesDilutionSum l := by
  rw [safesDilutionSum_eq_sum]
  apply List.sum_nonneg
  intro v hv
  obtain ⟨z, hz, rfl⟩ := List.mem_map.mp hv
  exact div_nonneg (h z hz).2 (h z hz).1

theorem nonneg_notesDilutionSum {l : List ValuedNote}
    (h : ∀ x ∈ l, 0 ≤ x.valuation ∧ 0 ≤ x.totalAmount) : 0 ≤ notesDilutionSum l := by
  rw [notesDilutionSum_eq_sum]
  apply List.sum_nonneg
  intro v hv
  obtain ⟨z, hz, rfl⟩ := List.mem_map.mp hv
  exact div_nonneg (h z hz).2 (h z hz).1

theorem nonneg_conversionEntry (T amt val sd nd : ℚ) (hT : 0 ≤ T) (hamt : 0 ≤ amt)
    (hval : 0 ≤ val) (hsd : 0 ≤ sd) (hnd : 0 ≤ nd) :
    0 ≤ T / (1 - min (sd + nd) (0.999 : ℚ)) *
      ((amt / val) * (min (sd + nd) (0.999 : ℚ) / jsOr (sd + nd) 1)) := by
  have hsum : 0 ≤ sd + nd := add_nonneg hsd hnd
  have htd0 : 0 ≤ min (sd + nd) (0.999 : ℚ) := le_min hsum (by norm_num)
  have htd1 : min (sd + nd) (0.999 : ℚ) ≤ 0.999 := min_le_right _ _
  have hjs : 0 ≤ jsOr (sd + nd) 1 := by
    rw [jsOr]
    split
    · norm_num
    · exact hsum
  apply mul_nonneg
  · apply div_nonneg hT
    have hle1 : min (sd + nd) (0.999 : ℚ) ≤ 1 := le_trans htd1 (by norm_num)
    linarith
  · exact mul_nonneg (div_nonneg hamt hval) (div_nonneg htd0 hjs)

theorem nonneg_getSafesWithNotes (events : List Event) (pr : PricedRound)
    (T : ℚ) (a : ℤ) (b : Option ℤ) (hT : 0 ≤ T)
    (hpr : 0 ≤ pr.valuation) (hmo : 0 ≤ pr.monthsToRound)
    (hs : ∀ s : Safe, Event.safe s ∈ events → validSafeC7 s)
    (hn : ∀ n : ConvertibleNote, Event.convertible n ∈ events → validNoteC7 n) :
    ∀ p ∈ getSafesWithNotes events pr T a b, 0 ≤ p.2 := by
  intro p hp
  rw [getSafesWithNotes] at hp
  have hSB := nonneg_getSafesValuations events pr a b hpr hs
  have hNB := nonneg_getConvertibleNotesValuations events pr a b hpr hmo hn
  have hSM := nonneg_getSafesWithMFN _ _ hSB (fun x hx => (hNB x hx).1)
  have hsd : 0 ≤ safesDilutionSum (getSafesWithMFN (getSafesValuations events pr a b)
      (getConvertibleNotesValuations events pr a b)) := nonneg_safesDilutionSum hSM
  have hNM := nonneg_getConvertibleNotesWithMFN _ _ hNB (fun x hx => (hSB x hx).1)
  have hnd : 0 ≤ notesDilutionSum (getConvertibleNotesWithMFN
      (getConvertibleNotesValuations events pr a b)
      (getSafesValuations events pr a b)) := nonneg_notesDilutionSum hNM
  rcases mem_foldl_tableSet _ _ _ _ _ hp with h | ⟨y, hy, rfl⟩
  · exact absurd h (List.not_mem_nil p)
  · exact nonneg_conversionEntry T y.toSafe.amount y.valuation _ _ hT
      (hSM y hy).2 (hSM y hy).1 hsd hnd

theorem nonneg_getConvertibleNotes (events : List Event) (pr : PricedRound)
    (T : ℚ) (a : ℤ) (b : Option ℤ) (hT : 0 ≤ T)
    (hpr : 0 ≤ pr.valuation) (hmo : 0 ≤ pr.monthsToRound)
    (hs : ∀ s : Safe, Event.safe s ∈ events → validSafeC7 s)
    (hn : ∀ n : ConvertibleNote, Event.convertible n ∈ events → validNoteC7 n) :
    ∀ p ∈ getConvertibleNotes events pr T a b, 0 ≤ p.2 := by
  intro p hp
  rw [getConvertibleNotes] at hp
  have hSB := nonneg_getSafesValuations events pr a b hpr hs
  have hNB := nonneg_getConvertibleNotesValuations events pr a b hpr hmo hn
  have hSM := nonneg_getSafesWithMFN _ _ hSB (fun x hx => (hNB x hx).1)
  have hsd : 0 ≤ safesDilutionSum (getSafesWithMFN (getSafesValuations events pr a b)
      (getConvertibleNotesValuations events pr a b)) := nonneg_safesDilutionSum hSM
  have hNM := nonneg_getConvertibleNotesWithMFN _ _ hNB (fun x hx => (hSB x hx).1)
  have hnd : 0 ≤ notesDilutionSum (getConvertibleNotesWithMFN
      (getConvertibleNotesValuations events pr a b)
      (getSafesValuations events pr a b)) := nonneg_notesDilutionSum hNM
  rcases mem_foldl_tableSet _ _ _ _ _ hp with h | ⟨y, hy, rfl⟩
  · exact absurd h (List.not_mem_nil p)
  · exact nonneg_conversionEntry T y.totalAmount y.valuation _ _ hT
      (hNM y hy).2 (hNM y hy).1 hsd hnd

theorem nonneg_foldl {α : Type} (l : List α) (step : CapTable → α → CapTable)
    (hstep : ∀ t x, (∀ p ∈ t, 0 ≤ p.2) → ∀ p ∈ step t x, 0 ≤ p.2) :
    ∀ acc, (∀ p ∈ acc, 0 ≤ p.2) → ∀ p ∈ l.foldl step acc, 0 ≤ p.2 := by
  induction l with
  | nil => exact fun acc h => h
  | cons x xs ih => exact fun acc h => ih _ (hstep _ _ h)

theorem nonneg_branch {t : CapTable} (hN : ∀ p ∈ t, 0 ≤ p.2) {nm : String} {sh : ℚ}
    (hsh : 0 ≤ sh) {c1 c2 : Prop} [Decidable c1] [Decidable c2] :
    ∀ p ∈ (if c1 then t else if c2 then addTables t [(nm, sh)] else t), 0 ≤ p.2 := by
  split
  · exact hN
  · split
    · refine nonneg_addTables hN ?_
      intro p hp
      simp only [List.mem_singleton] at hp
      rw [hp]
      exact hsh
    · exact hN

theorem totalShares_set_general (t : CapTable) (k : String) (v : ℚ) :
    getTableTotalShares (tableSet t k v) =
      getTableTotalShares t - tableGet t k + v := by
  induction t with
  | nil => simp [tableSet, getTableTotalShares, tableGet]
  | cons p rest ih =>
    by_cases hp : p.1 = k
    · simp only [tableSet, if_pos hp, getTableTotalShares, List.map_cons, List.sum_cons,
        tableGet_cons, if_pos hp]
      ring
    · simp only [tableSet, if_neg hp, getTableTotalShares, List.map_cons, List.sum_cons,
        tableGet_cons, if_neg hp]
      rw [show (List.map Prod.snd (tableSet rest k v)).sum =
        getTableTotalShares (tableSet rest k v) from rfl, ih, getTableTotalShares]
      ring

theorem totalShares_addTables_singleton (t : CapTable) (k : String) (v : ℚ) :
    getTableTotalShares (addTables t [(k, v)]) = getTableTotalShares t + v := by
  rw [addTables_singleton, totalShares_set_general]
  ring

theorem totalShares_branch {t : CapTable} {nm : String} {sh : ℚ} (hsh : 0 ≤ sh)
    {c1 c2 : Prop} [Decidable c1] [Decidable c2] :
    getTableTotalShares (if c1 then t else if c2 then addTables t [(nm, sh)] else t) ≤
      getTableTotalShares t + sh := by
  split
  · linarith
  · split
    · rw [totalShares_addTables_singleton]
    · linarith

theorem nonneg_getProRatas (current : CapTable) (event : PricedRound)
    (ns total : ℚ) (first : Bool) (allEvents : List Event)
    (hns : 0 ≤ ns) (htot : 0 ≤ total) (hcur : ∀ p ∈ current, 0 ≤ p.2) :
    ∀ p ∈ getProRatas current event ns total first allEvents, 0 ≤ p.2 := by
  rw [getProRatas]
  refine nonneg_foldl _ _ ?_ [] (fun p hp => absurd hp (List.not_mem_nil p))
  intro t e hN
  have hsh : ∀ nm : String, 0 ≤ ns * (tableGet current nm / total) := fun nm =>
    mul_nonneg hns (div_nonneg (tableGet_nonneg hcur _) htot)
  rcases e with s | n | p2 | o | a2
  · cases first
    · exact hN
    · exact nonneg_branch hN (hsh s.name)
  · cases first
    · exact hN
    · exact nonneg_branch hN (hsh n.name)
  · exact nonneg_branch hN (hsh p2.name)
  · exact hN
  · exact hN

theorem totalShares_foldl_le {α : Type} (l : List α) (step : CapTable → α → CapTable)
    (c : α → ℚ)
    (hstep : ∀ t x, x ∈ l →
      getTableTotalShares (step t x) ≤ getTableTotalShares t + c x) :
    ∀ acc, getTableTotalShares (l.foldl step acc) ≤
      getTableTotalShares acc + (l.map c).sum := by
  induction l with
  | nil =>
    intro acc
    simp
  | cons x xs ih =>
    intro acc
    rw [List.foldl_cons, List.map_cons, List.sum_cons]
    have h1 := hstep acc x (List.mem_cons_self _ _)
    have h2 := ih (fun t z hz => hstep t z (List.mem_cons_of_mem _ hz)) (step acc x)
    linarith

theorem sum_map_filterMap_eventName (l : List Event) (f : String → ℚ) :
    ((l.filterMap eventName?).map f).sum =
      (l.map (fun e => match eventName? e with | some nm => f nm | none => 0)).sum := by
  induction l with
  | nil => simp
  | cons e rest ih =>
    rw [List.filterMap_cons, List.map_cons, List.sum_cons]
    cases h : eventName? e with
    | none => simp [h, ih]
    | some nm => simp [h, ih]

theorem totalShares_getProRatas_le (current : CapTable) (event : PricedRound)
    (ns total : ℚ) (first : Bool) (allEvents : List Event)
    (hns : 0 ≤ ns) (htot : 0 ≤ total) (hcur : ∀ p ∈ current, 0 ≤ p.2) :
    getTableTotalShares (getProRatas current event ns total first allEvents) ≤
      ((allEvents.filterMap eventName?).map
        (fun nm => ns * (tableGet current nm / total))).sum := by
  rw [getProRatas, sum_map_filterMap_eventName]
  have hsh : ∀ nm : String, 0 ≤ ns * (tableGet current nm / total) := fun nm =>
    mul_nonneg hns (div_nonneg (tableGet_nonneg hcur _) htot)
  refine le_trans (totalShares_foldl_le allEvents _
    (fun e => match eventName? e with
      | some nm => ns * (tableGet current nm / total)
      | none => 0) ?_ []) ?_
  · intro t e he
    rcases e with s | n | p2 | o | a2
    · show _ ≤ _ + ns * (tableGet current s.name / total)
      cases first
      · have := hsh s.name
        show getTableTotalShares t ≤ _
        linarith
      · exact totalShares_branch (hsh s.name)
    · show _ ≤ _ + ns * (tableGet current n.name / total)
      cases first
      · have := hsh n.name
        show getTableTotalShares t ≤ _
        linarith
      · exact totalShares_branch (hsh n.name)
    · show _ ≤ _ + ns * (tableGet current p2.name / total)
      exact totalShares_branch (hsh p2.name)
    · show getTableTotalShares t ≤ _ + 0
      linarith
    · show getTableTotalShares t ≤ _ + 0
      linarith
  · simp [getTableTotalShares]

theorem totalShares_getProRatas_le_ns (current : CapTable) (event : PricedRound)
    (ns total : ℚ) (first : Bool) (allEvents : List Event)
    (hns : 0 ≤ ns) (hcur : ∀ p ∈ current, 0 ≤ p.2)
    (htot : getTableTotalShares current ≤ total) (htotnn : 0 ≤ total)
    (hnames : (allEvents.filterMap eventName?).Nodup) :
    getTableTotalShares (getProRatas current event ns total first allEvents) ≤ ns := by
  have h1 := totalShares_getProRatas_le current event ns total first allEvents
    hns htotnn hcur
  by_cases h0 : total = 0
  · subst h0
    simp only [div_zero, mul_zero] at h1
    refine le_trans ?_ hns
    simpa using h1
  · have hS : ((allEvents.filterMap eventName?).map (tableGet current)).sum ≤
        getTableTotalShares current :=
      sum_tableGet_le_totalShares _ hnames current hcur
    have hfun : (fun nm => ns * (tableGet current nm / total)) =
        fun nm => (ns / total) * tableGet current nm := by
      funext nm
      ring
    rw [hfun] at h1
    have hmul : ((allEvents.filterMap eventName?).map
        (fun nm => (ns / total) * tableGet current nm)).sum =
        (ns / total) * ((allEvents.filterMap eventName?).map (tableGet current)).sum := by
      induction (allEvents.filterMap eventName?) with
      | nil => simp
      | cons z zs ih =>
        rw [List.map_cons, List.sum_cons, List.map_cons, List.sum_cons, ih]
        ring
    rw [hmul] at h1
    have h2 : (ns / total) * ((allEvents.filterMap eventName?).map
        (tableGet current)).sum ≤ (ns / total) * total :=
      mul_le_mul_of_nonneg_left (le_trans hS htot) (div_nonneg hns htotnn)
    have h3 : (ns / total) * total = ns := div_mul_cancel₀ ns h0
    linarith

theorem totalShares_addTables_general (b : CapTable) :
    ∀ a : CapTable, getTableTotalShares (addTables a b) =
      getTableTotalShares a + getTableTotalShares b := by
  induction b with
  | nil =>
    intro a
    simp [addTables_nil, getTableTotalShares]
  | cons p rest ih =>
    intro a
    rw [addTables_cons, ih, totalShares_set_general]
    simp only [getTableTotalShares, List.map_cons, List.sum_cons]
    ring

theorem nonneg_singletonTable (k : String) (v : ℚ) (hv : 0 ≤ v) :
    ∀ p ∈ ([(k, v)] : CapTable), 0 ≤ p.2 := by
  intro p hp
  simp only [List.mem_singleton] at hp
  rw [hp]
  exact hv

theorem nonneg_getNewTable_priced (allEvents : List Event) (ev : PricedRound)
    (prev : CapTable) (L i : ℤ)
    (hprev : ∀ p ∈ prev, 0 ≤ p.2)
    (hvr : validRoundC7 ev)
    (hs : ∀ s : Safe, Event.safe s ∈ allEvents → validSafeC7 s)
    (hn : ∀ n : ConvertibleNote, Event.convertible n ∈ allEvents → validNoteC7 n)
    (hnames : (allEvents.filterMap eventName?).Nodup) :
    ∀ p ∈ getNewTable allEvents (Event.priced ev) prev L i, 0 ≤ p.2 := by
  obtain ⟨ha0, hav, hm0, hO⟩ := hvr
  have hvpos : 0 < ev.valuation := lt_of_le_of_lt ha0 hav
  have hOfalse : ¬ (ev.options ≠ 0) := by simp [hO]
  simp only [getNewTable]
  simp only [if_neg hOfalse]
  simp only [sub_zero]
  set sT := getSafesWithNotes allEvents ev (getTableTotalShares prev) L (some i)
    with hsTdef
  set nT := getConvertibleNotes allEvents ev (getTableTotalShares prev) L (some i)
    with hnTdef
  have hnil : ∀ p ∈ ([] : CapTable), 0 ≤ p.2 :=
    fun p hp => absurd hp (List.not_mem_nil p)
  have hT0 : 0 ≤ getTableTotalShares prev := totalShares_nonneg hprev
  have hsT : ∀ p ∈ sT, 0 ≤ p.2 := by
    rw [hsTdef]
    exact nonneg_getSafesWithNotes allEvents ev _ L (some i) hT0
      (le_of_lt hvpos) hm0 hs hn
  have hnT : ∀ p ∈ nT, 0 ≤ p.2 := by
    rw [hnTdef]
    exact nonneg_getConvertibleNotes allEvents ev _ L (some i) hT0
      (le_of_lt hvpos) hm0 hs hn
  have hN2 : ∀ p ∈ addTables (addTables [] sT) nT, 0 ≤ p.2 :=
    nonneg_addTables (nonneg_addTables hnil hsT) hnT
  have hcur : ∀ p ∈ addTables prev (addTables (addTables [] sT) nT), 0 ≤ p.2 :=
    nonneg_addTables hprev hN2
  set CT := getTableTotalShares (addTables (addTables [] sT) nT) +
    getTableTotalShares prev with hCTdef
  have hCT : 0 ≤ CT := by
    rw [hCTdef]
    exact add_nonneg (totalShares_nonneg hN2) hT0
  set x := ev.amount / ev.valuation with hxdef
  have hx0 : 0 ≤ x := div_nonneg ha0 (le_of_lt hvpos)
  have hx1 : x < 1 := by
    rw [hxdef]
    exact (div_lt_one hvpos).mpr hav
  set NS := CT / (1 - x) - CT with hNSdef
  have hNS : 0 ≤ NS := by
    have hne : (1 : ℚ) - x ≠ 0 := by linarith
    have hkey : NS = CT * (x / (1 - x)) := by
      rw [hNSdef]
      field_simp
      ring
    rw [hkey]
    exact mul_nonneg hCT (div_nonneg hx0 (by linarith))
  set PR := getProRatas (addTables prev (addTables (addTables [] sT) nT)) ev NS CT
    (decide (L = -1)) allEvents with hPRdef
  have hTotCur : getTableTotalShares (addTables prev (addTables (addTables [] sT) nT)) =
      CT := by
    rw [totalShares_addTables_general, hCTdef]
    ring
  have hPRn : getTableTotalShares PR ≤ NS := by
    rw [hPRdef]
    exact totalShares_getProRatas_le_ns _ ev NS CT _ allEvents hNS hcur
      (le_of_eq hTotCur) hCT hnames
  have hPRe : ∀ p ∈ PR, 0 ≤ p.2 := by
    rw [hPRdef]
    exact nonneg_getProRatas _ ev NS CT _ allEvents hNS hCT hcur
  exact nonneg_addTables hprev
    (nonneg_addTables
      (nonneg_addTables
        (nonneg_addTables hN2 hPRe)
        (nonneg_singletonTable _ _ le_rfl))
      (nonneg_singletonTable _ _ (by linarith)))

theorem tableGetA_getNewTable_priced_zero (allEvents : List Event) (ev : PricedRound)
    (prev : CapTable) (L i : ℤ)
    (hfresh : ∀ e ∈ allEvents, eventName? e ≠ some AVAILABLE_OPTIONS_LABEL)
    (hev : ev.name ≠ AVAILABLE_OPTIONS_LABEL) (hO : ev.options = 0)
    (hprevA : tableGet prev AVAILABLE_OPTIONS_LABEL = 0) :
    tableGet (getNewTable allEvents (Event.priced ev) prev L i)
      AVAILABLE_OPTIONS_LABEL = 0 := by
  rw [tableGet_AVAILABLE_getNewTable_priced allEvents ev prev L i hfresh hev, hprevA,
    if_neg (by simp [hO])]
  norm_num

theorem nonneg_capTablesLoop (allEvents : List Event)
    (hA : ∀ e ∈ allEvents, eventName? e ≠ some AVAILABLE_OPTIONS_LABEL)
    (hvalid : ∀ e ∈ allEvents, validEventC7 e)
    (hnames : (allEvents.filterMap eventName?).Nodup) :
    ∀ (l : List (ℕ × Event)) (prev : CapTable) (lastP : ℤ),
      (∀ q ∈ l, q.2 ∈ allEvents) →
      (∀ p ∈ prev, 0 ≤ p.2) → tableGet prev AVAILABLE_OPTIONS_LABEL = 0 →
      ∀ t ∈ capTablesLoop allEvents l prev lastP,
        (∀ p ∈ t, 0 ≤ p.2) ∧ tableGet t AVAILABLE_OPTIONS_LABEL = 0 := by
  intro l
  induction l with
  | nil =>
    intro prev lastP _ _ _ t ht
    exact absurd ht (List.not_mem_nil t)
  | cons q rest ih =>
    obtain ⟨idx, e⟩ := q
    intro prev lastP
    have hstep : capTablesLoop allEvents ((idx, e) :: rest) prev lastP =
        getNewTable allEvents e prev lastP (idx : ℤ) ::
          capTablesLoop allEvents rest (getNewTable allEvents e prev lastP (idx : ℤ))
            (match e with | Event.priced _ => (idx : ℤ) | _ => lastP) := rfl
    intro hmem hprev hprevA t ht
    have hemem : e ∈ allEvents := hmem (idx, e) (List.mem_cons_self _ _)
    have hInew : (∀ p ∈ getNewTable allEvents e prev lastP (idx : ℤ), 0 ≤ p.2) ∧
        tableGet (getNewTable allEvents e prev lastP (idx : ℤ))
          AVAILABLE_OPTIONS_LABEL = 0 := by
      rcases e with s | n | p2 | o | a2
      · have hid : getNewTable allEvents (Event.safe s) prev lastP (idx : ℤ) =
            prev := rfl
        rw [hid]
        exact ⟨hprev, hprevA⟩
      · have hid : getNewTable allEvents (Event.convertible n) prev lastP (idx : ℤ) =
            prev := rfl
        rw [hid]
        exact ⟨hprev, hprevA⟩
      · have hvr : validRoundC7 p2 := hvalid _ hemem
        have hname : p2.name ≠ AVAILABLE_OPTIONS_LABEL := fun hh =>
          hA _ hemem (by simp [eventName?, hh])
        refine ⟨nonneg_getNewTable_priced allEvents p2 prev lastP (idx : ℤ) hprev hvr
            (fun s' hs' => hvalid _ hs') (fun n' hn' => hvalid _ hn') hnames,
          tableGetA_getNewTable_priced_zero allEvents p2 prev lastP (idx : ℤ) hA
            hname hvr.2.2.2 hprevA⟩
      · exact False.elim (hvalid _ hemem)
      · have hid : getNewTable allEvents (Event.accelerator a2) prev lastP (idx : ℤ) =
            prev := rfl
        rw [hid]
        exact ⟨hprev, hprevA⟩
    rw [hstep] at ht
    rcases List.mem_cons.mp ht with rfl | ht'
    · exact hInew
    · exact ih _ _ (fun z hz => hmem z (List.mem_cons_of_mem _ hz))
        hInew.1 hInew.2 t ht'

theorem notA_tableKeys_getSafesWithNotes (events : List Event) (pr : PricedRound)
    (T : ℚ) (a : ℤ) (b : Option ℤ)
    (heA : ∀ e ∈ events, eventName? e ≠ some AVAILABLE_OPTIONS_LABEL) :
    AVAILABLE_OPTIONS_LABEL ∉ tableKeys (getSafesWithNotes events pr T a b) := by
  intro hmem
  obtain ⟨j, s, hje, hname, -, -⟩ :=
    (mem_tableKeys_getSafesWithNotes _ _ _ _ _ _).mp hmem
  exact heA _ (List.get?_mem hje) (by simp [eventName?, hname])

theorem notA_tableKeys_getConvertibleNotes (events : List Event) (pr : PricedRound)
    (T : ℚ) (a : ℤ) (b : Option ℤ)
    (heA : ∀ e ∈ events, eventName? e ≠ some AVAILABLE_OPTIONS_LABEL) :
    AVAILABLE_OPTIONS_LABEL ∉ tableKeys (getConvertibleNotes events pr T a b) := by
  intro hmem
  obtain ⟨j, n, hje, hname, -, -⟩ :=
    (mem_tableKeys_getConvertibleNotes _ _ _ _ _ _).mp hmem
  exact heA _ (List.get?_mem hje) (by simp [eventName?, hname])

/-- C7, amended.  Non-negativity of every snapshot holds for valid inputs
whose priced rounds set no option pool target and whose event list contains
no options-action events: the counterexample `claim7_counterexample` shows a
priced round's pool-shuffle formula can otherwise produce a negative
`"Available"` entry. -/
theorem claim7_nonneg (founders : List Founder) (events : List Event)
    (exitEvent : Option ExitEvent)
    (hf : ∀ f ∈ founders, 0 ≤ f.equity)
    (hfA : ∀ f ∈ founders, f.name ≠ AVAILABLE_OPTIONS_LABEL)
    (hvalid : ∀ e ∈ events, validEventC7 e)
    (heA : ∀ e ∈ events, eventName? e ≠ some AVAILABLE_OPTIONS_LABEL)
    (hnames : (events.filterMap eventName?).Nodup)
    (hex : ∀ ex : ExitEvent, exitEvent = some ex → 0 ≤ ex.amount) :
    ∀ t ∈ getCapTables founders events exitEvent, ∀ k ∈ tableKeys t,
      0 ≤ tableGet t k := by
  suffices h : ∀ t ∈ getCapTables founders events exitEvent, ∀ p ∈ t, 0 ≤ p.2 by
    intro t ht k _
    exact tableGet_nonneg (h t ht) k
  have hfirstE : ∀ p ∈ getFirstTable founders, 0 ≤ p.2 := by
    intro p hp
    rw [getFirstTable] at hp
    rcases mem_foldl_tableSet _ _ _ _ _ hp with h | ⟨f, hfm, rfl⟩
    · exact absurd h (List.not_mem_nil p)
    · have h1 : (0:ℚ) ≤ INITIAL_SHARES := by norm_num [INITIAL_SHARES]
      exact mul_nonneg (div_nonneg (hf f hfm) (by norm_num)) h1
  have hfirstA : tableGet (getFirstTable founders) AVAILABLE_OPTIONS_LABEL = 0 := by
    apply tableGet_eq_zero_of_not_mem
    intro hmem
    obtain ⟨f, hfm, hfn⟩ := List.mem_map.mp
      ((mem_tableKeys_getFirstTable founders _).mp hmem)
    exact hfA f hfm hfn
  have henum : ∀ q ∈ events.enum, q.2 ∈ events := by
    intro q hq
    obtain ⟨i, e⟩ := q
    exact List.get?_mem (by simpa using List.mem_enum_iff_get?.mp hq)
  have hloop := nonneg_capTablesLoop events heA hvalid hnames events.enum
    (getFirstTable founders) (-1) henum hfirstE hfirstA
  have htables : ∀ t ∈ getFirstTable founders ::
      capTablesLoop events events.enum (getFirstTable founders) (-1),
      (∀ p ∈ t, 0 ≤ p.2) ∧ tableGet t AVAILABLE_OPTIONS_LABEL = 0 := by
    intro t ht
    rcases List.mem_cons.mp ht with rfl | ht'
    · exact ⟨hfirstE, hfirstA⟩
    · exact hloop t ht'
  rcases exitEvent with _ | ex
  · rw [getCapTables_none]
    intro t ht
    exact (htables t ht).1
  · have hexnn : 0 ≤ ex.amount := hex ex rfl
    by_cases hz : ex.amount ≠ 0
    case neg =>
      have heq : getCapTables founders events (some ex) =
          getFirstTable founders ::
            capTablesLoop events events.enum (getFirstTable founders) (-1) := by
        rw [getCapTables, if_neg hz]
      rw [heq]
      intro t ht
      exact (htables t ht).1
    case pos =>
      rw [getCapTables, if_pos hz]
      dsimp only
      by_cases hunconv : (events.enum.filterMap (fun p =>
          match p.2 with
          | Event.safe s => if lastPricedIdx events < (p.1 : ℤ) then some s else none
          | _ => none)).length > 0 ∨
        (events.enum.filterMap (fun p =>
          match p.2 with
          | Event.convertible n =>
              if lastPricedIdx events < (p.1 : ℤ) then some n else none
          | _ => none)).length > 0
      · rw [if_pos hunconv]
        dsimp only
        have hct := htables (jsLastTable (getFirstTable founders ::
          capTablesLoop events events.enum (getFirstTable founders) (-1)))
          (jsLastTable_mem _ _)
        have hct2A : tableGet (addTables (addTables
            (jsLastTable (getFirstTable founders ::
              capTablesLoop events events.enum (getFirstTable founders) (-1)))
            (getSafesWithNotes events
              { valuation := ex.amount, proRata := false, options := 0, amount := 0,
                name := "Exit", participations := [], monthsToRound := 12 }
              (getTableTotalShares (jsLastTable (getFirstTable founders ::
                capTablesLoop events events.enum (getFirstTable founders) (-1))))
              (lastPricedIdx events) (some ((events.length : ℤ) - 1))))
            (getConvertibleNotes events
              { valuation := ex.amount, proRata := false, options := 0, amount := 0,
                name := "Exit", participations := [], monthsToRound := 12 }
              (getTableTotalShares (jsLastTable (getFirstTable founders ::
                capTablesLoop events events.enum (getFirstTable founders) (-1))))
              (lastPricedIdx events) (some ((events.length : ℤ) - 1))))
            AVAILABLE_OPTIONS_LABEL = 0 := by
          rw [tableGet_addTables _ _ (nodup_tableKeys_getConvertibleNotes _ _ _ _ _),
            tableGet_addTables _ _ (nodup_tableKeys_getSafesWithNotes _ _ _ _ _),
            hct.2,
            tableGet_eq_zero_of_not_mem
              (notA_tableKeys_getSafesWithNotes _ _ _ _ _ heA),
            tableGet_eq_zero_of_not_mem
              (notA_tableKeys_getConvertibleNotes _ _ _ _ _ heA)]
          norm_num
        rw [if_neg (fun hcon => hcon hct2A)]
        intro t ht
        rcases List.mem_cons.mp ht with rfl | ht2
        · exact hfirstE
        · rcases List.mem_append.mp ht2 with hl | hr
          · exact (hloop t hl).1
          · rw [List.mem_singleton] at hr
            subst hr
            refine nonneg_addTables (nonneg_addTables hct.1 ?_) ?_
            · exact nonneg_getSafesWithNotes events _ _ _ _
                (totalShares_nonneg hct.1) hexnn (by norm_num)
                (fun s' hs' => hvalid _ hs') (fun n' hn' => hvalid _ hn')
            · exact nonneg_getConvertibleNotes events _ _ _ _
                (totalShares_nonneg hct.1) hexnn (by norm_num)
                (fun s' hs' => hvalid _ hs') (fun n' hn' => hvalid _ hn')
      · rw [if_neg hunconv]
        dsimp only
        have hct := htables (jsLastTable (getFirstTable founders ::
          capTablesLoop events events.enum (getFirstTable founders) (-1)))
          (jsLastTable_mem _ _)
        rw [if_neg (fun hcon => hcon hct.2)]
        intro t ht
        exact (htables t ht).1

/-- Witness for the amended C7 at a concrete valid input: one founder, one
SAFE event, no exit; the founder's entry of the first snapshot is
non-negative. -/
theorem claim7_witness :
    0 ≤ tableGet (getFirstTable [⟨"f1", "Founder", 100, true⟩]) "Founder" :=
  claim7_nonneg [⟨"f1", "Founder", 100, true⟩] [Event.safe witSafeC7w] none
    (by
      intro f hf
      rw [List.mem_singleton] at hf
      subst hf
      norm_num)
    (by
      intro f hf
      rw [List.mem_singleton] at hf
      subst hf
      decide)
    (by
      intro e he
      rw [List.mem_singleton] at he
      subst he
      exact ⟨by norm_num [witSafeC7w], by norm_num [witSafeC7w],
        by norm_num [witSafeC7w]⟩)
    (by
      intro e he
      rw [List.mem_singleton] at he
      subst he
      simp [eventName?, witSafeC7w, AVAILABLE_OPTIONS_LABEL])
    (by simp [eventName?])
    (fun ex h => Option.noConfusion h)
    (getFirstTable [⟨"f1", "Founder", 100, true⟩])
    (by
      rw [getCapTables_none]
      exact List.mem_cons_self _ _)
    "Founder"
    (List.mem_singleton.mpr rfl)

/-! ## Key-tracking machinery for C1 (deferred conversion) -/

theorem length_capTablesLoop (allEvents : List Event) :
    ∀ (l : List (ℕ × Event)) (prev : CapTable) (lastP : ℤ),
      (capTablesLoop allEvents l prev lastP).length = l.length := by
  intro l
  induction l with
  | nil =>
    intro prev lastP
    rfl
  | cons q rest ih =>
    obtain ⟨idx, e⟩ := q
    intro prev lastP
    have hstep : capTablesLoop allEvents ((idx, e) :: rest) prev lastP =
        getNewTable allEvents e prev lastP (idx : ℤ) ::
          capTablesLoop allEvents rest (getNewTable allEvents e prev lastP (idx : ℤ))
            (match e with | Event.priced _ => (idx : ℤ) | _ => lastP) := rfl
    rw [hstep, List.length_cons, ih]
    rfl

theorem mem_tableKeys_getOptions (cur : CapTable) (o : OptionsEvent) (total : ℚ)
    (q : String) (h : q ∈ tableKeys (getOptions cur o total)) :
    q = AVAILABLE_OPTIONS_LABEL ∨
      q = (if o.grantName = "" then EMPLOYEE_OPTIONS_LABEL else o.grantName) := by
  simp only [getOptions] at h
  split at h
  · split at h
    · split at h
      · rcases (mem_tableKeys_set _ _ _ _).mp h with h1 | h1
        · rcases (mem_tableKeys_set _ _ _ _).mp h1 with h2 | h2
          · rcases (mem_tableKeys_set _ _ _ _).mp h2 with h3 | h3
            · simp [tableKeys] at h3
            · exact Or.inl h3
          · exact Or.inr h2
        · exact Or.inl h1
      · rcases (mem_tableKeys_set _ _ _ _).mp h with h1 | h1
        · simp [tableKeys] at h1
        · exact Or.inl h1
    · split at h
      · rcases (mem_tableKeys_set _ _ _ _).mp h with h1 | h1
        · rcases (mem_tableKeys_set _ _ _ _).mp h1 with h2 | h2
          · simp [tableKeys] at h2
          · exact Or.inr h2
        · exact Or.inl h1
      · simp [tableKeys] at h
  · split at h
    · rcases (mem_tableKeys_set _ _ _ _).mp h with h1 | h1
      · simp [tableKeys] at h1
      · exact Or.inl h1
    · simp [tableKeys] at h

theorem mem_tableKeys_getNewTable_mono (allEvents : List Event) (e : Event)
    (prev : CapTable) (L i : ℤ) (q : String) (h : q ∈ tableKeys prev) :
    q ∈ tableKeys (getNewTable allEvents e prev L i) := by
  rcases e with s | n | pr | o | a2
  · exact h
  · exact h
  · exact (mem_tableKeys_addTables _ _ _).mpr (Or.inl h)
  · exact (mem_tableKeys_addTables _ _ _).mpr (Or.inl h)
  · exact h

theorem mem_tableKeys_getNewTable_priced_cases (allEvents : List Event)
    (pr : PricedRound) (prev : CapTable) (L i : ℤ) (q : String)
    (h : q ∈ tableKeys (getNewTable allEvents (Event.priced pr) prev L i)) :
    q ∈ tableKeys prev ∨
    q ∈ tableKeys (getSafesWithNotes allEvents pr (getTableTotalShares prev) L
      (some i)) ∨
    q ∈ tableKeys (getConvertibleNotes allEvents pr (getTableTotalShares prev) L
      (some i)) ∨
    q = AVAILABLE_OPTIONS_LABEL ∨ q = pr.name := by
  simp only [getNewTable, mem_tableKeys_addTables] at h
  rcases h with hprev | (((((hnil | hsT) | hnT) | hPR) | hA) | hname)
  · exact Or.inl hprev
  · simp [tableKeys] at hnil
  · exact Or.inr (Or.inl hsT)
  · exact Or.inr (Or.inr (Or.inl hnT))
  · -- pro-rata keys: the holder must already be present with non-zero shares
    obtain ⟨-, hget⟩ := mem_tableKeys_getProRatas _ _ _ _ _ _ q hPR
    have hqcur : q ∈ tableKeys (addTables prev
        (addTables (addTables ([] : CapTable)
          (getSafesWithNotes allEvents pr (getTableTotalShares prev) L (some i)))
          (getConvertibleNotes allEvents pr (getTableTotalShares prev) L (some i)))) := by
      by_contra hq
      exact hget (tableGet_eq_zero_of_not_mem hq)
    rw [mem_tableKeys_addTables, mem_tableKeys_addTables, mem_tableKeys_addTables]
      at hqcur
    rcases hqcur with h' | (h0 | h1) | h2
    · exact Or.inl h'
    · simp [tableKeys] at h0
    · exact Or.inr (Or.inl h1)
    · exact Or.inr (Or.inr (Or.inl h2))
  · simp only [tableKeys, List.map_cons, List.map_nil, List.mem_singleton] at hA
    exact Or.inr (Or.inr (Or.inr (Or.inl hA)))
  · simp only [tableKeys, List.map_cons, List.map_nil, List.mem_singleton] at hname
    exact Or.inr (Or.inr (Or.inr (Or.inr hname)))

theorem mem_tableKeys_getNewTable_priced_of_conv (allEvents : List Event)
    (pr : PricedRound) (prev : CapTable) (L i : ℤ) (q : String)
    (h : q ∈ tableKeys (getSafesWithNotes allEvents pr (getTableTotalShares prev) L
          (some i)) ∨
         q ∈ tableKeys (getConvertibleNotes allEvents pr (getTableTotalShares prev) L
          (some i))) :
    q ∈ tableKeys (getNewTable allEvents (Event.priced pr) prev L i) := by
  simp only [getNewTable, mem_tableKeys_addTables]
  rcases h with h | h
  · exact Or.inr (Or.inl (Or.inl (Or.inl (Or.inl (Or.inr h)))))
  · exact Or.inr (Or.inl (Or.inl (Or.inl (Or.inr h))))

theorem capTablesLoop_keys_persist (allEvents : List Event) (nm : String) :
    ∀ (l : List (ℕ × Event)) (prev : CapTable) (lastP : ℤ),
      nm ∈ tableKeys prev →
      ∀ t ∈ capTablesLoop allEvents l prev lastP, nm ∈ tableKeys t := by
  intro l
  induction l with
  | nil =>
    intro prev lastP _ t ht
    exact absurd ht (List.not_mem_nil t)
  | cons q rest ih =>
    obtain ⟨idx, e⟩ := q
    intro prev lastP
    have hstep : capTablesLoop allEvents ((idx, e) :: rest) prev lastP =
        getNewTable allEvents e prev lastP (idx : ℤ) ::
          capTablesLoop allEvents rest (getNewTable allEvents e prev lastP (idx : ℤ))
            (match e with | Event.priced _ => (idx : ℤ) | _ => lastP) := rfl
    intro hprev t ht
    rw [hstep] at ht
    have hnew : nm ∈ tableKeys (getNewTable allEvents e prev lastP (idx : ℤ)) :=
      mem_tableKeys_getNewTable_mono _ _ _ _ _ _ hprev
    rcases List.mem_cons.mp ht with rfl | ht'
    · exact hnew
    · exact ih _ _ hnew t ht'

theorem conv_keys_nm_iff (events : List Event) (j : ℕ) (nm : String)
    (hj : (∃ s : Safe, events.get? j = some (Event.safe s) ∧ s.name = nm) ∨
          (∃ n : ConvertibleNote, events.get? j = some (Event.convertible n) ∧
            n.name = nm))
    (hothers : ∀ (j' : ℕ) (e : Event), j' ≠ j → events.get? j' = some e →
      eventName? e ≠ some nm) :
    ∀ (pr : PricedRound) (T : ℚ) (L i : ℤ),
      ((nm ∈ tableKeys (getSafesWithNotes events pr T L (some i)) ∨
        nm ∈ tableKeys (getConvertibleNotes events pr T L (some i))) ↔
       (L < (j : ℤ) ∧ (j : ℤ) ≤ i)) := by
  intro pr T L i
  constructor
  · intro h
    rcases h with h | h
    · obtain ⟨j', s', hje, hname, h1, h2⟩ :=
        (mem_tableKeys_getSafesWithNotes events pr T L (some i) nm).mp h
      have hj' : j' = j := by
        by_contra hne
        exact hothers j' _ hne hje (by simp [eventName?, hname])
      subst hj'
      exact ⟨h1, by simpa using h2⟩
    · obtain ⟨j', n', hje, hname, h1, h2⟩ :=
        (mem_tableKeys_getConvertibleNotes events pr T L (some i) nm).mp h
      have hj' : j' = j := by
        by_contra hne
        exact hothers j' _ hne hje (by simp [eventName?, hname])
      subst hj'
      exact ⟨h1, by simpa using h2⟩
  · rintro ⟨h1, h2⟩
    rcases hj with ⟨s, hje, hname⟩ | ⟨n, hje, hname⟩
    · exact Or.inl ((mem_tableKeys_getSafesWithNotes events pr T L (some i) nm).mpr
        ⟨j, s, hje, hname, h1, by simpa using h2⟩)
    · exact Or.inr ((mem_tableKeys_getConvertibleNotes events pr T L (some i) nm).mpr
        ⟨j, n, hje, hname, h1, by simpa using h2⟩)

theorem getNewTable_keys_nm_iff (events : List Event) (j : ℕ) (nm : String)
    (hj : (∃ s : Safe, events.get? j = some (Event.safe s) ∧ s.name = nm) ∨
          (∃ n : ConvertibleNote, events.get? j = some (Event.convertible n) ∧
            n.name = nm))
    (hothers : ∀ (j' : ℕ) (e : Event), j' ≠ j → events.get? j' = some e →
      eventName? e ≠ some nm)
    (hgrant : ∀ o : OptionsEvent, Event.options o ∈ events → o.grantName ≠ nm)
    (hAv : nm ≠ AVAILABLE_OPTIONS_LABEL) (hEmp : nm ≠ EMPLOYEE_OPTIONS_LABEL) :
    ∀ (e : Event) (idx : ℕ) (prev : CapTable) (lastP : ℤ),
      events.get? idx = some e →
      lastP < (j : ℤ) →
      nm ∉ tableKeys prev →
      (nm ∈ tableKeys (getNewTable events e prev lastP (idx : ℤ)) ↔
        ((j : ℤ) ≤ (idx : ℤ) ∧ isPricedEvent e = true)) := by
  intro e idx prev lastP hidx hLP hprev
  rcases e with s | n | pr | o | a2
  · have hid : getNewTable events (Event.safe s) prev lastP (idx : ℤ) = prev := rfl
    rw [hid]
    simp [isPricedEvent, hprev]
  · have hid : getNewTable events (Event.convertible n) prev lastP (idx : ℤ) =
      prev := rfl
    rw [hid]
    simp [isPricedEvent, hprev]
  · have hidxj : idx ≠ j := by
      intro hh
      subst hh
      rcases hj with ⟨s, hje, -⟩ | ⟨n, hje, -⟩ <;> rw [hidx] at hje <;> simp at hje
    have hprname : pr.name ≠ nm := fun hh =>
      hothers idx _ hidxj hidx (by simp [eventName?, hh])
    simp only [isPricedEvent, and_true]
    constructor
    · intro h
      rcases mem_tableKeys_getNewTable_priced_cases events pr prev lastP (idx : ℤ)
        nm h with h' | h' | h' | h' | h'
      · exact absurd h' hprev
      · exact ((conv_keys_nm_iff events j nm hj hothers pr
          (getTableTotalShares prev) lastP (idx : ℤ)).mp (Or.inl h')).2
      · exact ((conv_keys_nm_iff events j nm hj hothers pr
          (getTableTotalShares prev) lastP (idx : ℤ)).mp (Or.inr h')).2
      · exact absurd h' hAv
      · exact absurd h'.symm hprname
    · intro hji
      exact mem_tableKeys_getNewTable_priced_of_conv events pr prev lastP (idx : ℤ)
        nm ((conv_keys_nm_iff events j nm hj hothers pr
          (getTableTotalShares prev) lastP (idx : ℤ)).mpr ⟨hLP, hji⟩)
  · have hoev : Event.options o ∈ events := List.get?_mem hidx
    constructor
    · intro h
      exfalso
      simp only [getNewTable, mem_tableKeys_addTables] at h
      rcases h with h | h0 | h1
      · exact hprev h
      · simp [tableKeys] at h0
      · rcases mem_tableKeys_getOptions _ _ _ _ h1 with h' | h'
        · exact hAv h'
        · by_cases hg : o.grantName = ""
          · rw [if_pos hg] at h'
            exact hEmp h'
          · rw [if_neg hg] at h'
            exact hgrant o hoev h'.symm
    · rintro ⟨-, h⟩
      exact Bool.noConfusion h
  · have hid : getNewTable events (Event.accelerator a2) prev lastP (idx : ℤ) =
      prev := rfl
    rw [hid]
    simp [isPricedEvent, hprev]

theorem loop_keys_nm_iff (events : List Event) (j : ℕ) (nm : String)
    (hj : (∃ s : Safe, events.get? j = some (Event.safe s) ∧ s.name = nm) ∨
          (∃ n : ConvertibleNote, events.get? j = some (Event.convertible n) ∧
            n.name = nm))
    (hothers : ∀ (j' : ℕ) (e : Event), j' ≠ j → events.get? j' = some e →
      eventName? e ≠ some nm)
    (hgrant : ∀ o : OptionsEvent, Event.options o ∈ events → o.grantName ≠ nm)
    (hAv : nm ≠ AVAILABLE_OPTIONS_LABEL) (hEmp : nm ≠ EMPLOYEE_OPTIONS_LABEL) :
    ∀ (l : List (ℕ × Event)) (prev : CapTable) (lastP : ℤ),
      (∀ q ∈ l, events.get? q.1 = some q.2) →
      lastP < (j : ℤ) →
      nm ∉ tableKeys prev →
      ∀ (m : ℕ) (t : CapTable),
        (capTablesLoop events l prev lastP).get? m = some t →
        (nm ∈ tableKeys t ↔
          ∃ q ∈ l.take (m + 1), (j : ℤ) ≤ (q.1 : ℤ) ∧ isPricedEvent q.2 = true) := by
  intro l
  induction l with
  | nil =>
    intro prev lastP _ _ _ m t hres
    simp [capTablesLoop] at hres
  | cons q rest ih =>
    obtain ⟨idx, e⟩ := q
    intro prev lastP
    have hstep : capTablesLoop events ((idx, e) :: rest) prev lastP =
        getNewTable events e prev lastP (idx : ℤ) ::
          capTablesLoop events rest (getNewTable events e prev lastP (idx : ℤ))
            (match e with | Event.priced _ => (idx : ℤ) | _ => lastP) := rfl
    intro hcons hLP hprev m t hres
    have hidx : events.get? idx = some e := hcons (idx, e) (List.mem_cons_self _ _)
    have hstepiff := getNewTable_keys_nm_iff events j nm hj hothers hgrant hAv hEmp
      e idx prev lastP hidx hLP hprev
    rw [hstep] at hres
    rcases m with _ | m
    · rw [List.get?_cons_zero] at hres
      injection hres with hres
      subst hres
      rw [hstepiff, List.take_succ_cons, List.take_zero]
      simp
    · rw [List.get?_cons_succ] at hres
      by_cases hc : (j : ℤ) ≤ (idx : ℤ) ∧ isPricedEvent e = true
      · have hnmem := hstepiff.mpr hc
        have hmem := capTablesLoop_keys_persist events nm rest
          (getNewTable events e prev lastP (idx : ℤ)) _ hnmem t (List.get?_mem hres)
        refine iff_of_true hmem ?_
        rw [List.take_succ_cons]
        exact ⟨(idx, e), List.mem_cons_self _ _, hc⟩
      · have hnot : nm ∉ tableKeys (getNewTable events e prev lastP (idx : ℤ)) :=
          fun h => hc (hstepiff.mp h)
        have hres' : (capTablesLoop events rest
            (getNewTable events e prev lastP (idx : ℤ))
            (nextLastP e (idx : ℤ) lastP)).get? m = some t := hres
        have hLP' : nextLastP e (idx : ℤ) lastP < (j : ℤ) := by
          rcases e with s | n | pr | o | a2
          · exact hLP
          · exact hLP
          · show (idx : ℤ) < (j : ℤ)
            rcases lt_or_le (idx : ℤ) (j : ℤ) with h | h
            · exact h
            · exact absurd ⟨h, rfl⟩ hc
          · exact hLP
          · exact hLP
        have hIH := ih _ _ (fun z hz => hcons z (List.mem_cons_of_mem _ hz))
          hLP' hnot m t hres'
        rw [hIH, List.take_succ_cons]
        constructor
        · rintro ⟨q, hq, hcond⟩
          exact ⟨q, List.mem_cons_of_mem _ hq, hcond⟩
        · rintro ⟨q, hq, hcond⟩
          rcases List.mem_cons.mp hq with rfl | hq'
          · exact absurd hcond hc
          · exact ⟨q, hq', hcond⟩

theorem fst_lt_of_mem_take_enumFrom :
    ∀ (l : List Event) (k n : ℕ) (q : ℕ × Event),
      q ∈ (l.enumFrom k).take n → q.1 < k + n := by
  intro l
  induction l with
  | nil =>
    intro k n q h
    simp [List.enumFrom] at h
  | cons x xs ih =>
    intro k n q h
    cases n with
    | zero => simp at h
    | succ n =>
      rw [show (x :: xs).enumFrom k = (k, x) :: xs.enumFrom (k + 1) from rfl,
        List.take_succ_cons] at h
      rcases List.mem_cons.mp h with rfl | h'
      · simp only []
        omega
      · have := ih (k + 1) n q h'
        omega

theorem mem_enum_take_iff (l : List Event) (n p : ℕ) (e : Event) :
    (p, e) ∈ l.enum.take n ↔ p < n ∧ l.get? p = some e := by
  constructor
  · intro h
    have h1 : p < n := by
      have h' := fst_lt_of_mem_take_enumFrom l 0 n (p, e) (by simpa [List.enum] using h)
      simpa using h'
    have h2 : (p, e) ∈ l.enum := List.take_subset n _ h
    exact ⟨h1, by simpa using List.mem_enum_iff_get?.mp h2⟩
  · rintro ⟨h1, h2⟩
    have henum : l.enum.get? p = some (p, e) := by
      rw [List.enum_get?, h2]
      rfl
    have hres : (l.enum.take n).get? p = some (p, e) := by
      rw [List.get?_take h1, henum]
    exact List.get?_mem hres

theorem le_foldl_lastP (xs : List Event) :
    ∀ (m : ℕ) (acc : ℤ), acc ≤ (m : ℤ) →
      acc ≤ (xs.enumFrom m).foldl (fun acc p =>
        match p.2 with
        | Event.priced _ => (p.1 : ℤ)
        | _ => acc) acc := by
  induction xs with
  | nil =>
    intro m acc h
    exact le_refl acc
  | cons x xs ih =>
    intro m acc h
    rw [show (x :: xs).enumFrom m = (m, x) :: xs.enumFrom (m + 1) from rfl,
      List.foldl_cons]
    have hstep : acc ≤ (match x with
        | Event.priced _ => ((m : ℕ) : ℤ)
        | _ => acc) ∧ (match x with
        | Event.priced _ => ((m : ℕ) : ℤ)
        | _ => acc) ≤ ((m + 1 : ℕ) : ℤ) := by
      rcases x with s | n | pr | o | a2
      · exact ⟨le_refl _, by show acc ≤ ((m + 1 : ℕ) : ℤ); omega⟩
      · exact ⟨le_refl _, by show acc ≤ ((m + 1 : ℕ) : ℤ); omega⟩
      · exact ⟨h, by show ((m : ℕ) : ℤ) ≤ ((m + 1 : ℕ) : ℤ); omega⟩
      · exact ⟨le_refl _, by show acc ≤ ((m + 1 : ℕ) : ℤ); omega⟩
      · exact ⟨le_refl _, by show acc ≤ ((m + 1 : ℕ) : ℤ); omega⟩
    exact le_trans hstep.1 (ih (m + 1) _ hstep.2)

theorem le_lastPricedIdx_of_priced :
    ∀ (l : List Event) (k : ℕ) (acc : ℤ) (p : ℕ) (pr : PricedRound),
      (p, Event.priced pr) ∈ l.enumFrom k → acc ≤ (k : ℤ) →
      (p : ℤ) ≤ (l.enumFrom k).foldl (fun acc q =>
        match q.2 with
        | Event.priced _ => (q.1 : ℤ)
        | _ => acc) acc := by
  intro l
  induction l with
  | nil =>
    intro k acc p pr h _
    simp [List.enumFrom] at h
  | cons x xs ih =>
    intro k acc p pr h hacc
    rw [show (x :: xs).enumFrom k = (k, x) :: xs.enumFrom (k + 1) from rfl] at h ⊢
    rw [List.foldl_cons]
    rcases List.mem_cons.mp h with heq | h'
    · cases heq
      exact le_foldl_lastP xs (k + 1) (k : ℤ) (by omega)
    · apply ih (k + 1) _ p pr h'
      rcases x with s | n | pr2 | o | a2
      · exact le_trans hacc (by omega)
      · exact le_trans hacc (by omega)
      · show (k : ℤ) ≤ ((k + 1 : ℕ) : ℤ)
        omega
      · exact le_trans hacc (by omega)
      · exact le_trans hacc (by omega)

theorem getCapTables_eq_append_of_exit (founders : List Founder) (events : List Event)
    (ex : ExitEvent) (hz : ex.amount ≠ 0) :
    ∃ suf : List CapTable, getCapTables founders events (some ex) =
      (getFirstTable founders ::
        capTablesLoop events events.enum (getFirstTable founders) (-1)) ++ suf := by
  by_cases hunconv : (events.enum.filterMap (fun p =>
      match p.2 with
      | Event.safe s => if lastPricedIdx events < (p.1 : ℤ) then some s else none
      | _ => none)).length > 0 ∨
    (events.enum.filterMap (fun p =>
      match p.2 with
      | Event.convertible n => if lastPricedIdx events < (p.1 : ℤ) then some n else none
      | _ => none)).length > 0
  · obtain ⟨rest, hstruct⟩ := getCapTables_exit_structure founders events ex hz hunconv
    exact ⟨_, hstruct⟩
  · rw [getCapTables, if_pos hz]
    dsimp only
    rw [if_neg hunconv]
    dsimp only
    split
    · exact ⟨_, rfl⟩
    · exact ⟨[], (List.append_nil _).symm⟩

theorem getCapTables_get?_front (founders : List Founder) (events : List Event)
    (exitEvent : Option ExitEvent) (k : ℕ) (hk : k ≤ events.length) :
    (getCapTables founders events exitEvent).get? k =
      (getFirstTable founders ::
        capTablesLoop events events.enum (getFirstTable founders) (-1)).get? k := by
  rcases exitEvent with _ | ex
  · rw [getCapTables_none]
  · by_cases hz : ex.amount ≠ 0
    · obtain ⟨suf, hsuf⟩ := getCapTables_eq_append_of_exit founders events ex hz
      rw [hsuf]
      apply List.get?_append
      rw [List.length_cons, length_capTablesLoop, List.enum_length]
      omega
    · rw [getCapTables, if_neg hz]

/-- C1.  Deferred conversion: for an instrument (SAFE or convertible note)
issued as event `j` under a name `nm` used by no other holder source,
(1) every priced round's conversion cohort is exactly the SAFE/note events
with index in `(afterIndex, currentIndex]`; (2) the instrument's name is a
holder key of snapshot `k` (of `getCapTables`, for any exit argument) exactly
when some priced round with index `≥ j` occurs among the first `k` events —
so it is absent from the snapshot produced by a priced round that precedes
it and first appears in the snapshot of the next priced round; (3) with no
priced round at an index `≥ j`, an exit with positive amount converts it in
the exit-conversion snapshot; (4) with no such priced round and no exit it
appears in no snapshot at all. -/
theorem claim1_deferred_conversion (founders : List Founder) (events : List Event)
    (j : ℕ) (nm : String)
    (hj : (∃ s : Safe, events.get? j = some (Event.safe s) ∧ s.name = nm) ∨
          (∃ n : ConvertibleNote, events.get? j = some (Event.convertible n) ∧
            n.name = nm))
    (hfound : ∀ f ∈ founders, f.name ≠ nm)
    (hothers : ∀ (j' : ℕ) (e : Event), j' ≠ j → events.get? j' = some e →
      eventName? e ≠ some nm)
    (hgrant : ∀ o : OptionsEvent, Event.options o ∈ events → o.grantName ≠ nm)
    (hAv : nm ≠ AVAILABLE_OPTIONS_LABEL) (hEmp : nm ≠ EMPLOYEE_OPTIONS_LABEL) :
    (∀ (pr : PricedRound) (T : ℚ) (L i : ℤ) (q : String),
      (q ∈ tableKeys (getSafesWithNotes events pr T L (some i)) ↔
        ∃ j' s, events.get? j' = some (Event.safe s) ∧ s.name = q ∧
          L < (j' : ℤ) ∧ (j' : ℤ) ≤ i) ∧
      (q ∈ tableKeys (getConvertibleNotes events pr T L (some i)) ↔
        ∃ j' n, events.get? j' = some (Event.convertible n) ∧ n.name = q ∧
          L < (j' : ℤ) ∧ (j' : ℤ) ≤ i)) ∧
    (∀ (exitEvent : Option ExitEvent) (k : ℕ) (t : CapTable),
      k ≤ events.length →
      (getCapTables founders events exitEvent).get? k = some t →
      (nm ∈ tableKeys t ↔
        ∃ p : ℕ, p < k ∧ (j : ℤ) ≤ (p : ℤ) ∧
          ∃ pr : PricedRound, events.get? p = some (Event.priced pr))) ∧
    (∀ ex : ExitEvent, 0 < ex.amount → lastPricedIdx events < (j : ℤ) →
      ∃ t, (getCapTables founders events (some ex)).get? (events.length + 1) =
        some t ∧ nm ∈ tableKeys t) ∧
    (lastPricedIdx events < (j : ℤ) →
      ∀ t ∈ getCapTables founders events none, nm ∉ tableKeys t) := by
  have hfirstnm : nm ∉ tableKeys (getFirstTable founders) := by
    intro hmem
    obtain ⟨f, hfm, hfn⟩ := List.mem_map.mp
      ((mem_tableKeys_getFirstTable founders nm).mp hmem)
    exact hfound f hfm hfn
  have hjlen : j < events.length := by
    rcases hj with ⟨s, hje, -⟩ | ⟨n, hje, -⟩
    · obtain ⟨h, -⟩ := List.get?_eq_some.mp hje
      exact h
    · obtain ⟨h, -⟩ := List.get?_eq_some.mp hje
      exact h
  have henumc : ∀ q ∈ events.enum, events.get? q.1 = some q.2 := by
    intro q hq
    obtain ⟨i, e⟩ := q
    simpa using List.mem_enum_iff_get?.mp hq
  refine ⟨?_, ?_, ?_, ?_⟩
  · intro pr T L i q
    constructor
    · simpa using mem_tableKeys_getSafesWithNotes events pr T L (some i) q
    · simpa using mem_tableKeys_getConvertibleNotes events pr T L (some i) q
  · intro exitEvent k t hk hres
    rw [getCapTables_get?_front founders events exitEvent k hk] at hres
    rcases k with _ | m
    · rw [List.get?_cons_zero] at hres
      injection hres with hres
      subst hres
      constructor
      · intro h
        exact absurd h hfirstnm
      · rintro ⟨p, hp, -⟩
        exact absurd hp (Nat.not_lt_zero p)
    · rw [List.get?_cons_succ] at hres
      have hiff := loop_keys_nm_iff events j nm hj hothers hgrant hAv hEmp
        events.enum (getFirstTable founders) (-1) henumc (by omega) hfirstnm
        m t hres
      rw [hiff]
      constructor
      · rintro ⟨q, hq, hcond⟩
        obtain ⟨p, e⟩ := q
        rw [mem_enum_take_iff] at hq
        obtain ⟨pr, rfl⟩ : ∃ pr, e = Event.priced pr := by
          rcases e with s | n | pr | o | a2
          · exact absurd hcond.2 (by simp [isPricedEvent])
          · exact absurd hcond.2 (by simp [isPricedEvent])
          · exact ⟨pr, rfl⟩
          · exact absurd hcond.2 (by simp [isPricedEvent])
          · exact absurd hcond.2 (by simp [isPricedEvent])
        exact ⟨p, hq.1, hcond.1, pr, hq.2⟩
      · rintro ⟨p, hp, hjp, pr, hpr⟩
        exact ⟨(p, Event.priced pr),
          (mem_enum_take_iff events (m + 1) p _).mpr ⟨hp, hpr⟩, hjp, rfl⟩
  · intro ex hexpos hnolater
    have hz : ex.amount ≠ 0 := ne_of_gt hexpos
    have hunconv : (events.enum.filterMap (fun p =>
        match p.2 with
        | Event.safe s => if lastPricedIdx events < (p.1 : ℤ) then some s else none
        | _ => none)).length > 0 ∨
      (events.enum.filterMap (fun p =>
        match p.2 with
        | Event.convertible n =>
            if lastPricedIdx events < (p.1 : ℤ) then some n else none
        | _ => none)).length > 0 := by
      rcases hj with ⟨s, hje, -⟩ | ⟨n, hje, -⟩
      · have hmem2 : s ∈ events.enum.filterMap (fun p =>
            match p.2 with
            | Event.safe s0 =>
                if lastPricedIdx events < (p.1 : ℤ) then some s0 else none
            | _ => none) :=
          List.mem_filterMap.mpr ⟨(j, Event.safe s),
            List.mem_enum_iff_get?.mpr (by simpa using hje),
            by
              show (if lastPricedIdx events < ((j : ℕ) : ℤ) then some s else none) =
                some s
              rw [if_pos hnolater]⟩
        exact Or.inl (List.length_pos_of_mem hmem2)
      · have hmem2 : n ∈ events.enum.filterMap (fun p =>
            match p.2 with
            | Event.convertible n0 =>
                if lastPricedIdx events < (p.1 : ℤ) then some n0 else none
            | _ => none) :=
          List.mem_filterMap.mpr ⟨(j, Event.convertible n),
            List.mem_enum_iff_get?.mpr (by simpa using hje),
            by
              show (if lastPricedIdx events < ((j : ℕ) : ℤ) then some n else none) =
                some n
              rw [if_pos hnolater]⟩
        exact Or.inr (List.length_pos_of_mem hmem2)
    obtain ⟨rest, hstruct⟩ := getCapTables_exit_structure founders events ex hz hunconv
    have hlen : (getFirstTable founders :: capTablesLoop events events.enum
        (getFirstTable founders) (-1)).length = events.length + 1 := by
      rw [List.length_cons, length_capTablesLoop, List.enum_length]
    refine ⟨addTables (addTables
        (jsLastTable (getFirstTable founders :: capTablesLoop events events.enum
          (getFirstTable founders) (-1)))
        (getSafesWithNotes events (exitRound ex)
          (getTableTotalShares (jsLastTable (getFirstTable founders ::
            capTablesLoop events events.enum (getFirstTable founders) (-1))))
          (lastPricedIdx events) (some ((events.length : ℤ) - 1))))
        (getConvertibleNotes events (exitRound ex)
          (getTableTotalShares (jsLastTable (getFirstTable founders ::
            capTablesLoop events events.enum (getFirstTable founders) (-1))))
          (lastPricedIdx events) (some ((events.length : ℤ) - 1))), ?_, ?_⟩
    · rw [hstruct, List.get?_append_right (by omega)]
      simp [hlen]
    · have hconv := (conv_keys_nm_iff events j nm hj hothers (exitRound ex)
        (getTableTotalShares (jsLastTable (getFirstTable founders ::
          capTablesLoop events events.enum (getFirstTable founders) (-1))))
        (lastPricedIdx events) ((events.length : ℤ) - 1)).mpr ⟨hnolater, by omega⟩
      rcases hconv with h | h
      · exact (mem_tableKeys_addTables _ _ _).mpr
          (Or.inl ((mem_tableKeys_addTables _ _ _).mpr (Or.inr h)))
      · exact (mem_tableKeys_addTables _ _ _).mpr (Or.inr h)
  · intro hnolater t ht
    rw [getCapTables_none] at ht
    rcases List.mem_cons.mp ht with rfl | ht'
    · exact hfirstnm
    · intro hmem
      obtain ⟨m, hres⟩ := List.mem_iff_get?.mp ht'
      have hiff := loop_keys_nm_iff events j nm hj hothers hgrant hAv hEmp
        events.enum (getFirstTable founders) (-1) henumc (by omega) hfirstnm
        m t hres
      obtain ⟨q, hq, hjq, hpq⟩ := hiff.mp hmem
      obtain ⟨p, e⟩ := q
      rw [mem_enum_take_iff] at hq
      obtain ⟨pr, rfl⟩ : ∃ pr, e = Event.priced pr := by
        rcases e with s | n | pr | o | a2
        · exact absurd hpq (by simp [isPricedEvent])
        · exact absurd hpq (by simp [isPricedEvent])
        · exact ⟨pr, rfl⟩
        · exact absurd hpq (by simp [isPricedEvent])
        · exact absurd hpq (by simp [isPricedEvent])
      have hle : (p : ℤ) ≤ lastPricedIdx events :=
        le_lastPricedIdx_of_priced events 0 (-1) p pr
          (List.mem_enum_iff_get?.mpr (by simpa using hq.2)) (by omega)
      omega

/-- Witness for C1: a SAFE at index 0 followed by a priced round at index 1,
with one founder. -/
theorem claim1_witness :
    (∀ (pr : PricedRound) (T : ℚ) (L i : ℤ) (q : String),
      (q ∈ tableKeys (getSafesWithNotes [Event.safe witSafeC1, Event.priced witRoundC1]
          pr T L (some i)) ↔
        ∃ j' s, [Event.safe witSafeC1, Event.priced witRoundC1].get? j' =
            some (Event.safe s) ∧ s.name = q ∧ L < (j' : ℤ) ∧ (j' : ℤ) ≤ i) ∧
      (q ∈ tableKeys (getConvertibleNotes [Event.safe witSafeC1, Event.priced witRoundC1]
          pr T L (some i)) ↔
        ∃ j' n, [Event.safe witSafeC1, Event.priced witRoundC1].get? j' =
            some (Event.convertible n) ∧ n.name = q ∧ L < (j' : ℤ) ∧ (j' : ℤ) ≤ i)) ∧
    (∀ (exitEvent : Option ExitEvent) (k : ℕ) (t : CapTable),
      k ≤ [Event.safe witSafeC1, Event.priced witRoundC1].length →
      (getCapTables [⟨"f1", "Founder", 100, true⟩]
        [Event.safe witSafeC1, Event.priced witRoundC1] exitEvent).get? k = some t →
      (witSafeC1.name ∈ tableKeys t ↔
        ∃ p : ℕ, p < k ∧ ((0 : ℕ) : ℤ) ≤ (p : ℤ) ∧
          ∃ pr : PricedRound, [Event.safe witSafeC1, Event.priced witRoundC1].get? p =
            some (Event.priced pr))) ∧
    (∀ ex : ExitEvent, 0 < ex.amount →
      lastPricedIdx [Event.safe witSafeC1, Event.priced witRoundC1] < ((0 : ℕ) : ℤ) →
      ∃ t, (getCapTables [⟨"f1", "Founder", 100, true⟩]
          [Event.safe witSafeC1, Event.priced witRoundC1] (some ex)).get?
          ([Event.safe witSafeC1, Event.priced witRoundC1].length + 1) = some t ∧
        witSafeC1.name ∈ tableKeys t) ∧
    (lastPricedIdx [Event.safe witSafeC1, Event.priced witRoundC1] < ((0 : ℕ) : ℤ) →
      ∀ t ∈ getCapTables [⟨"f1", "Founder", 100, true⟩]
        [Event.safe witSafeC1, Event.priced witRoundC1] none,
        witSafeC1.name ∉ tableKeys t) :=
  claim1_deferred_conversion [⟨"f1", "Founder", 100, true⟩]
    [Event.safe witSafeC1, Event.priced witRoundC1] 0 witSafeC1.name
    (Or.inl ⟨witSafeC1, rfl, rfl⟩)
    (by
      intro f hf
      rw [List.mem_singleton] at hf
      subst hf
      decide)
    (by
      intro j' e hne hget
      rcases j' with _ | _ | j''
      · exact absurd rfl hne
      · rw [List.get?_cons_succ, List.get?_cons_zero] at hget
        injection hget with h
        subst h
        decide
      · rw [List.get?_cons_succ, List.get?_cons_succ] at hget
        simp at hget)
    (by
      intro o ho
      rcases List.mem_cons.mp ho with h | h
      · cases h
      · rcases List.mem_cons.mp h with h' | h'
        · cases h'
        · exact absurd h' (List.not_mem_nil _))
    (by decide)
    (by decide)

theorem jsFirstTable_witC9 :
    jsGetFirstTable witFoundersC9 = [("Founder", JsNum.num 10000000)] := by
  norm_num [jsGetFirstTable, witFoundersC9, jTableSet, jn, JsNum.mul, JsNum.div,
    INITIAL_SHARES]

theorem jsSafes_witC9 :
    jsGetSafesWithNotes [Event.priced witRoundC9] witRoundC9 (JsNum.num 10000000)
      (-1) (some 0) = [] := rfl

theorem jsNotes_witC9 :
    jsGetConvertibleNotes [Event.priced witRoundC9] witRoundC9 (JsNum.num 10000000)
      (-1) (some 0) = [] := rfl

theorem jsAdd_num_num (a b : ℚ) :
    JsNum.add (JsNum.num a) (JsNum.num b) = JsNum.num (a + b) := rfl

theorem jsAdd_num_inf (a : ℚ) : JsNum.add (JsNum.num a) JsNum.inf = JsNum.inf := rfl

theorem jsAdd_inf_num (a : ℚ) : JsNum.add JsNum.inf (JsNum.num a) = JsNum.inf := rfl

theorem jsNeg_num (a : ℚ) : JsNum.neg (JsNum.num a) = JsNum.num (-a) := rfl

theorem jsSub_num_num (a b : ℚ) :
    JsNum.sub (JsNum.num a) (JsNum.num b) = JsNum.num (a - b) := by
  show JsNum.add (JsNum.num a) (JsNum.neg (JsNum.num b)) = JsNum.num (a - b)
  rw [jsNeg_num, jsAdd_num_num]
  ring_nf

theorem jsSub_inf_num (a : ℚ) : JsNum.sub JsNum.inf (JsNum.num a) = JsNum.inf := rfl

theorem jsMul_num_num (a b : ℚ) :
    JsNum.mul (JsNum.num a) (JsNum.num b) = JsNum.num (a * b) := rfl

theorem jsDiv_num_num (a b : ℚ) (hb : b ≠ 0) :
    JsNum.div (JsNum.num a) (JsNum.num b) = JsNum.num (a / b) := by
  show (if b = 0 then (if a = 0 then JsNum.nan else if 0 < a then JsNum.inf
    else JsNum.ninf) else JsNum.num (a / b)) = JsNum.num (a / b)
  rw [if_neg hb]

theorem jsDiv_num_zero_pos (a : ℚ) (ha : 0 < a) :
    JsNum.div (JsNum.num a) (JsNum.num 0) = JsNum.inf := by
  show (if (0 : ℚ) = 0 then (if a = 0 then JsNum.nan else if 0 < a then JsNum.inf
    else JsNum.ninf) else JsNum.num (a / 0)) = JsNum.inf
  rw [if_pos rfl, if_neg (ne_of_gt ha), if_pos ha]

theorem jsTruthy_num (a : ℚ) : JsNum.truthy (JsNum.num a) = decide (a ≠ 0) := rfl

theorem jsTruthy_inf : JsNum.truthy JsNum.inf = true := rfl

theorem jsNewTable_witC9 :
    jsGetNewTable [Event.priced witRoundC9] (Event.priced witRoundC9)
      [("Founder", JsNum.num 10000000)] (-1) 0 =
      [("Founder", JsNum.num 10000000), ("Available", JsNum.num 0),
       ("Series A", JsNum.inf)] := by
  have h1 : witRoundC9.options = 0 := rfl
  have h2 : witRoundC9.amount = (5000000 : ℚ) := rfl
  have h3 : witRoundC9.valuation = (5000000 : ℚ) := rfl
  have h4 : witRoundC9.name = "Series A" := rfl
  have h5 : witRoundC9.proRata = false := rfl
  have hsFA : ¬("Founder" = "Available") := by decide
  have hsFS : ¬("Founder" = "Series A") := by decide
  have hsAS : ¬("Available" = "Series A") := by decide
  have hsAF : ¬("Available" = "Founder") := by decide
  have hsSF : ¬("Series A" = "Founder") := by decide
  have hsSA : ¬("Series A" = "Available") := by decide
  norm_num [hsFA, hsFS, hsAS, hsAF, hsSF, hsSA,
    jsGetNewTable, jsTotalShares, jsSafes_witC9, jsNotes_witC9, jAddTables,
    jTableSet, jTableGet, jTableGetRaw, jsGetProRatas, jsAdd_num_num, jsAdd_num_inf,
    jsAdd_inf_num, jsNeg_num, jsSub_num_num, jsSub_inf_num, jsMul_num_num,
    jsDiv_num_num, jsDiv_num_zero_pos, jsTruthy_num, jsTruthy_inf, jn,
    h1, h2, h3, h4, h5,
    AVAILABLE_OPTIONS_LABEL, List.foldl_cons, List.foldl_nil]

/-- Counterexample to C9 as stated: under exact JavaScript number semantics,
a priced round whose raise equals its post-money valuation divides by
`1 - amount/valuation = 0`, and the snapshot records `Infinity` shares for
the round's investor — the zero denominator does not resolve to a zero
contribution. -/
theorem claim9_counterexample :
    ∃ t ∈ jsGetCapTables witFoundersC9 [Event.priced witRoundC9] none,
      ∃ p ∈ t, p.2 = JsNum.inf := by
  have hlist : jsGetCapTables witFoundersC9 [Event.priced witRoundC9] none =
      [jsGetFirstTable witFoundersC9,
       jsGetNewTable [Event.priced witRoundC9] (Event.priced witRoundC9)
         (jsGetFirstTable witFoundersC9) (-1) 0] := rfl
  rw [hlist, jsFirstTable_witC9, jsNewTable_witC9]
  refine ⟨[("Founder", JsNum.num 10000000), ("Available", JsNum.num 0),
    ("Series A", JsNum.inf)], List.mem_cons_of_mem _ (List.mem_singleton.mpr rfl),
    ("Series A", JsNum.inf), ?_, rfl⟩
  simp

theorem jsAdd_eq_num (x y : JsNum) (c : ℚ) (h : JsNum.add x y = JsNum.num c) :
    ∃ a b : ℚ, x = JsNum.num a ∧ y = JsNum.num b ∧ a + b = c := by
  cases x with
  | num a =>
    cases y with
    | num b =>
      refine ⟨a, b, rfl, rfl, ?_⟩
      injection h
    | nan => exact JsNum.noConfusion h
    | inf => exact JsNum.noConfusion h
    | ninf => exact JsNum.noConfusion h
  | nan =>
    cases y with
    | num b => exact JsNum.noConfusion h
    | nan => exact JsNum.noConfusion h
    | inf => exact JsNum.noConfusion h
    | ninf => exact JsNum.noConfusion h
  | inf =>
    cases y with
    | num b => exact JsNum.noConfusion h
    | nan => exact JsNum.noConfusion h
    | inf => exact JsNum.noConfusion h
    | ninf => exact JsNum.noConfusion h
  | ninf =>
    cases y with
    | num b => exact JsNum.noConfusion h
    | nan => exact JsNum.noConfusion h
    | inf => exact JsNum.noConfusion h
    | ninf => exact JsNum.noConfusion h

theorem js_foldl_add_not_finite (l : List JsNum) :
    ∀ acc : JsNum, acc.isFinite = false →
      (l.foldl JsNum.add acc).isFinite = false := by
  induction l with
  | nil => exact fun acc h => h
  | cons x xs ih =>
    intro acc h
    rw [List.foldl_cons]
    apply ih
    cases acc <;> cases x <;> simp [JsNum.add, JsNum.isFinite] at h ⊢

theorem js_foldl_add_finite_mem (l : List JsNum) :
    ∀ acc : JsNum, (l.foldl JsNum.add acc).isFinite = true →
      ∀ x ∈ l, x.isFinite = true := by
  induction l with
  | nil =>
    intro acc _ x hx
    exact absurd hx (List.not_mem_nil x)
  | cons y ys ih =>
    intro acc hfin x hx
    rw [List.foldl_cons] at hfin
    rcases List.mem_cons.mp hx with rfl | hx'
    · by_contra hy
      have hy' : JsNum.isFinite x = false := by
        cases hxf : JsNum.isFinite x
        · rfl
        · exact absurd hxf hy
      have hnf : (JsNum.add acc x).isFinite = false := by
        cases acc <;> cases x <;> simp [JsNum.add, JsNum.isFinite] at hy' ⊢
      rw [js_foldl_add_not_finite ys _ hnf] at hfin
      cases hfin
    · exact ih _ hfin x hx'

theorem foldl_add_map_js {α : Type} (l : List α) (f : α → JsNum) :
    ∀ a : JsNum, l.foldl (fun prev c => JsNum.add prev (f c)) a =
      (l.map f).foldl JsNum.add a := by
  induction l with
  | nil => intro a; rfl
  | cons x xs ih =>
    intro a
    rw [List.foldl_cons, List.map_cons, List.foldl_cons, ih]

theorem jMem_tableSet (t : JsTable) (k : String) (v : JsNum) (q : String × JsNum)
    (h : q ∈ jTableSet t k v) : q ∈ t ∨ q = (k, v) := by
  induction t with
  | nil => simpa [jTableSet] using h
  | cons p rest ih =>
    by_cases hp : p.1 = k
    · simp only [jTableSet, if_pos hp, List.mem_cons] at h
      rcases h with h | h
      · exact Or.inr h
      · exact Or.inl (List.mem_cons_of_mem _ h)
    · simp only [jTableSet, if_neg hp, List.mem_cons] at h
      rcases h with h | h
      · exact Or.inl (by simp [h])
      · rcases ih h with h' | h'
        · exact Or.inl (List.mem_cons_of_mem _ h')
        · exact Or.inr h'

theorem jMem_foldl_tableSet {α : Type} (L : List α) (f : α → String) (g : α → JsNum)
    (acc : JsTable) (q : String × JsNum)
    (h : q ∈ L.foldl (fun t y => jTableSet t (f y) (g y)) acc) :
    q ∈ acc ∨ ∃ y ∈ L, q = (f y, g y) := by
  induction L generalizing acc with
  | nil => exact Or.inl h
  | cons x xs ih =>
    rw [List.foldl_cons] at h
    rcases ih _ h with h' | h'
    · rcases jMem_tableSet _ _ _ _ h' with h'' | h''
      · exact Or.inl h''
      · exact Or.inr ⟨x, by simp, h''⟩
    · rcases h' with ⟨y, hy, hq⟩
      exact Or.inr ⟨y, by simp [hy], hq⟩

theorem jsMinJ_num_num (a b : ℚ) :
    JsNum.minJ (JsNum.num a) (JsNum.num b) =
      if a < b then JsNum.num a else JsNum.num b := by
  show (if JsNum.lt (JsNum.num a) (JsNum.num b) = true then JsNum.num a
    else JsNum.num b) = _
  by_cases hab : a < b
  · rw [if_pos (by simp [JsNum.lt, hab]), if_pos hab]
  · rw [if_neg (by simp [JsNum.lt, hab]), if_neg hab]

/-- C9, amended.  The only guarded degenerate division is the dilution
ratio's `0/0`: when the cohort's raw dilution sum evaluates to (finite) zero,
the `|| 1` fallback makes the dilution ratio exactly `0` instead of `NaN`,
and every conversion entry written by `getSafesWithNotes` and
`getConvertibleNotes` is exactly `0` — a zero contribution, with no `NaN` or
`Infinity`.  Other zero denominators are unguarded, see
`claim9_counterexample`. -/
theorem claim9_zero_dilution_guard (events : List Event) (pr : PricedRound)
    (T : ℚ) (a : ℤ) (b : Option ℤ)
    (hsum : JsNum.add
      (jsSafesDilutionSum (jsGetSafesWithMFN (jsGetSafesValuations events pr a b)
        (jsGetConvertibleNotesValuations events pr a b)))
      (jsNotesDilutionSum (jsGetConvertibleNotesWithMFN
        (jsGetConvertibleNotesValuations events pr a b)
        (jsGetSafesValuations events pr a b))) = JsNum.num 0) :
    (∀ p ∈ jsGetSafesWithNotes events pr (JsNum.num T) a b, p.2 = JsNum.num 0) ∧
    (∀ p ∈ jsGetConvertibleNotes events pr (JsNum.num T) a b, p.2 = JsNum.num 0) := by
  obtain ⟨sdq, ndq, hsd, hnd, -⟩ := jsAdd_eq_num _ _ 0 hsum
  constructor
  · intro p hp
    rw [jsGetSafesWithNotes] at hp
    rcases jMem_foldl_tableSet _ _ _ _ _ hp with h | ⟨y, hy, rfl⟩
    · exact absurd h (List.not_mem_nil p)
    · have hfin : (jsSafesDilutionSum (jsGetSafesWithMFN
          (jsGetSafesValuations events pr a b)
          (jsGetConvertibleNotesValuations events pr a b))).isFinite = true := by
        rw [hsd]
        rfl
      rw [jsSafesDilutionSum, foldl_add_map_js] at hfin
      have hterm := js_foldl_add_finite_mem _ _ hfin _ (List.mem_map_of_mem _ hy)
      obtain ⟨x, hx⟩ : ∃ x, JsNum.div (jn y.toSafe.amount) y.valuation =
          JsNum.num x := by
        cases hdd : JsNum.div (jn y.toSafe.amount) y.valuation <;>
          rw [hdd] at hterm <;> simp [JsNum.isFinite] at hterm
        exact ⟨_, rfl⟩
      show (y.toSafe.name, JsNum.mul _ _).2 = JsNum.num 0
      simp only
      rw [hsum, hx]
      norm_num [jn, jsMinJ_num_num, JsNum.jsOrJ, jsTruthy_num, jsSub_num_num,
        jsDiv_num_num, jsMul_num_num]
  · intro p hp
    rw [jsGetConvertibleNotes] at hp
    rcases jMem_foldl_tableSet _ _ _ _ _ hp with h | ⟨y, hy, rfl⟩
    · exact absurd h (List.not_mem_nil p)
    · have hfin : (jsNotesDilutionSum (jsGetConvertibleNotesWithMFN
          (jsGetConvertibleNotesValuations events pr a b)
          (jsGetSafesValuations events pr a b))).isFinite = true := by
        rw [hnd]
        rfl
      rw [jsNotesDilutionSum, foldl_add_map_js] at hfin
      have hterm := js_foldl_add_finite_mem _ _ hfin _ (List.mem_map_of_mem _ hy)
      obtain ⟨x, hx⟩ : ∃ x, JsNum.div y.totalAmount y.valuation = JsNum.num x := by
        cases hdd : JsNum.div y.totalAmount y.valuation <;>
          rw [hdd] at hterm <;> simp [JsNum.isFinite] at hterm
        exact ⟨_, rfl⟩
      show (y.toNote.name, JsNum.mul _ _).2 = JsNum.num 0
      simp only
      rw [hsum, hx]
      norm_num [jn, jsMinJ_num_num, JsNum.jsOrJ, jsTruthy_num, jsSub_num_num,
        jsDiv_num_num, jsMul_num_num]

theorem claim9_witness :
    (∀ p ∈ jsGetSafesWithNotes [Event.safe witSafeC9g] witRoundC9g
        (JsNum.num 10000000) (-1) (some 0), p.2 = JsNum.num 0) ∧
    (∀ p ∈ jsGetConvertibleNotes [Event.safe witSafeC9g] witRoundC9g
        (JsNum.num 10000000) (-1) (some 0), p.2 = JsNum.num 0) :=
  claim9_zero_dilution_guard [Event.safe witSafeC9g] witRoundC9g 10000000 (-1)
    (some 0)
    (by
      have hv : witSafeC9g.valCap = (1000000 : ℚ) := rfl
      have hd : witSafeC9g.discount = (0 : ℚ) := rfl
      have ha : witSafeC9g.amount = (0 : ℚ) := rfl
      have hm : witSafeC9g.mfn = false := rfl
      have hrv : witRoundC9g.valuation = (10000000 : ℚ) := rfl
      norm_num [jsSafesDilutionSum, jsNotesDilutionSum, jsGetSafesWithMFN,
        jsGetConvertibleNotesWithMFN, jsGetSafesValuations,
        jsGetConvertibleNotesValuations, hv, hd, ha, hm, hrv,
        List.enum, List.enumFrom, List.filterMap, jsFindIndex, List.findIdx?,
        jsMinJ_num_num, jsAdd_num_num, jsDiv_num_num, jn,
        List.foldl_cons, List.foldl_nil])
